import Mathlib

/-!
Verification development for the Mach-O dependency report collector
(collect_macho_report.py).  The Python source is shallowly embedded:

* Python dicts used as records become Lean structures whose optional keys
  are Option fields (key absent = none).
* External collaborators (the filesystem, the macholib parser, os.path
  helpers, compiled regular expressions) are abstracted as function-valued
  parameters; a regular expression becomes its match function on strings.
* The worker-pool traversal mutates a shared cache keyed by cache key;
  the embedding passes the cache (an ordered association list, matching
  dict insertion order) explicitly.  Python mutates node dicts in place;
  since every node object is stored under exactly one cache key, in-place
  mutation is modelled by updating the entry at that key.
* Exceptions are modelled by Option / none results.
* Logging (Line records, severities, verbosity) is pure output and is not
  modelled.

String operations from Python (replace, split, strip, startswith,
substring containment) are re-implemented over List Char so that all
definitions evaluate inside the kernel.
-/

namespace MachoReport

/-! ## Python string primitives -/

/-- List-level replace: models Python str.replace for a non-empty pattern,
replacing non-overlapping occurrences left to right. -/
def replaceL (pat rep : List Char) : List Char → List Char
  | [] => []
  | c :: rest =>
    if pat.isPrefixOf (c :: rest) then
      rep ++ replaceL pat rep (rest.drop (pat.length - 1))
    else
      c :: replaceL pat rep rest
termination_by l => l.length
decreasing_by
  · simp only [List.length_cons, List.length_drop]
    omega
  · simp

/-- Python s.replace(pat, rep) for non-empty pat. -/
def pyReplace (s pat rep : String) : String :=
  ⟨replaceL pat.data rep.data s.data⟩

/-- List-level substring test. -/
def containsL (pat : List Char) : List Char → Bool
  | [] => pat.isPrefixOf ([] : List Char)
  | c :: rest => pat.isPrefixOf (c :: rest) || containsL pat rest

/-- Python membership test pat in s (substring containment). -/
def pyContains (s pat : String) : Bool :=
  containsL pat.data s.data

/-- Python s.startswith(pat). -/
def pyStartsWith (s pat : String) : Bool :=
  pat.data.isPrefixOf s.data

/-- Split a character list at every occurrence of the separator character. -/
def splitCharL (sep : Char) : List Char → List (List Char)
  | [] => [[]]
  | c :: rest =>
    let r := splitCharL sep rest
    if c = sep then [] :: r
    else
      match r with
      | [] => [[c]]
      | piece :: more => (c :: piece) :: more

/-- Python s.split(sep) for a one-character separator (used with newline). -/
def pySplitChar (s : String) (sep : Char) : List String :=
  (splitCharL sep s.data).map (fun l => ⟨l⟩)

/-- Python ASCII whitespace characters recognised by str.strip. -/
def isPyWs (c : Char) : Bool :=
  c = ' ' || c = '\t' || c = '\n' || c = '\r' || c = '\x0b' || c = '\x0c'

/-- Python s.strip(): drop whitespace from both ends. -/
def pyStrip (s : String) : String :=
  ⟨((s.data.dropWhile isPyWs).reverse.dropWhile isPyWs).reverse⟩

/-- Python sep.join(parts). -/
def joinSep (sep : String) : List String → String
  | [] => ""
  | [x] => x
  | x :: y :: rest => x ++ sep ++ joinSep sep (y :: rest)

/-! ## Data model

Node and dependency dicts of the Python source.  Keys that the code may
leave absent are Option fields.  The per-dependency dict created at line
250 of the source (and augmented with the child node fields at line 275,
and with exclusion data and a nested missing list during the
satisfiability pass) is DepCore plus a nested list, the inductive Dep. -/

/-- Non-recursive fields of a dependency descriptor dict. -/
structure DepCore where
  name : String
  path : Option String := none
  parentRpathStack : Option (List String) := none
  restrictarch : Option String := none
  system : Option Bool := none
  executablePath : Option String := none
  excluded : Option Bool := none
  pattern : Option (Option String) := none
  exclusionId : Option String := none
deriving Repr, DecidableEq

/-- Dependency descriptor: its dict fields plus the nested missing list
attached at source line 408. -/
inductive Dep where
  | mk (core : DepCore) (missingTree : Option (List Dep))
deriving Repr

/-- Field access for the dependency core. -/
def Dep.core : Dep → DepCore
  | .mk c _ => c

/-- Field access for the nested missing list. -/
def Dep.missingTree : Dep → Option (List Dep)
  | .mk _ m => m

/-- Per-architecture slice record (node arch values). -/
structure ArchSlice where
  name : String
  rpaths : List String := []
  dependencies : List Dep := []
deriving Repr

/-- A node dict.  The Python keys at-loader-path, at-executable-path and
exists are rendered loaderPath, executablePath and existsOnDisk; root
collapses key-absent and falsy to false (the code only ever tests
truthiness). -/
structure Node where
  path : String
  root : Bool := false
  package : Option String := none
  system : Option Bool := none
  restrictarch : Option String := none
  executablePath : Option String := none
  parentRpathStack : Option (List String) := none
  loaderPath : Option String := none
  existsOnDisk : Option Bool := none
  parsed : Option Bool := none
  arch : Option (List ArchSlice) := none
  satisfied : Option Bool := none
  missing : Option (List Dep) := none
  excluded : Option Bool := none
  pattern : Option (Option String) := none
  exclusionId : Option String := none
deriving Repr

/-- The shared cache: cache key to node, in insertion order. -/
abbrev St := List (String × Node)

/-- A compiled exclusion regular expression: its printable form (str of
the compiled object) and its fullmatch test on a subject string. -/
structure Excl where
  printed : String
  test : String → Bool

/-- External environment: filesystem and parser collaborators. -/
structure MachOHeader where
  archName : String
  filetype : Nat
  rpaths : List String
  relocatables : List String
deriving Repr, DecidableEq

/-- Parsed Mach-O file: its headers in file order. -/
structure MachOFile where
  headers : List MachOHeader
deriving Repr, DecidableEq

/-- The MH_EXECUTE file type constant. -/
def MH_EXECUTE : Nat := 2

/-- Abstracted collaborators: os.path.exists, os.path.abspath,
os.path.dirname and the macholib parser (none models a parse exception). -/
structure Env where
  pathExists : String → Bool
  abspath : String → String
  dirname : String → String
  parse : String → Option MachOFile

/-! ## Cache key derivation (source lines 185-193) -/

/-- JSON string literal with quote and backslash escaping (control and
non-ASCII escapes of json.dumps are not needed for the paths involved). -/
def jsonEscapeChar (c : Char) : List Char :=
  if c = '\\' then ['\\', '\\']
  else if c = '"' then ['\\', '"']
  else [c]

/-- JSON serialization of a string. -/
def jsonString (s : String) : String :=
  "\"" ++ ⟨s.data.flatMap jsonEscapeChar⟩ ++ "\""

/-- json.dumps of a list of strings with default separators; sort_keys
only affects dicts, so order is preserved. -/
def jsonDumpsList (xs : List String) : String :=
  "[" ++ joinSep ", " (xs.map jsonString) ++ "]"

/-- The fields _makeCacheKey reads from a node or dependency dict. -/
structure KeyFields where
  path : String
  restrictarch : Option String := none
  executablePath : Option String := none
  parentRpathStack : Option (List String) := none
deriving Repr, DecidableEq

/-- Source _makeCacheKey: path, then for each of restrictarch,
executable_path and parentRpathStack that is present, an at-sign and the
component; absent components contribute nothing, separator included. -/
def makeCacheKey (n : KeyFields) : String :=
  let key := n.path
  let key := match n.restrictarch with
    | some a => key ++ "@" ++ a
    | none => key
  let key := match n.executablePath with
    | some e => key ++ "@" ++ e
    | none => key
  match n.parentRpathStack with
  | some st => key ++ "@" ++ jsonDumpsList st
  | none => key

/-- Key fields of a node. -/
def Node.keyFields (n : Node) : KeyFields :=
  ⟨n.path, n.restrictarch, n.executablePath, n.parentRpathStack⟩

/-- Key fields of a resolved dependency dict (path present; the name and
exclusion keys of the dict are not read by _makeCacheKey). -/
def DepCore.keyFields (c : DepCore) : KeyFields :=
  ⟨c.path.getD "", c.restrictarch, c.executablePath, c.parentRpathStack⟩

/-- Cache key of a resolved dependency descriptor. -/
def depCacheKey (c : DepCore) : String :=
  makeCacheKey c.keyFields

/-! ## Path resolver (source lines 173-182) -/

/-- Source _resolvePath.  The parent node always has loader_path set when
this is called (set at line 210 before any resolution); getD covers the
Lean totality requirement only. -/
def resolvePath (env : Env) (parentNode : Node) (dependencyPath : String) :
    Bool × String :=
  let path :=
    if pyContains dependencyPath "@loader_path" then
      pyReplace dependencyPath "@loader_path" (parentNode.loaderPath.getD "")
    else dependencyPath
  let path :=
    if pyContains path "@executable_path" && parentNode.executablePath.isSome then
      pyReplace path "@executable_path" (parentNode.executablePath.getD "")
    else path
  (env.pathExists path, env.abspath path)

/-! ## Mach-O node processor (source lines 196-282) -/

/-- Effective rpath stack construction (source lines 241-247): start from
the parent stack, resolve each slice rpath and append it when not already
present. -/
def buildRpathStack (env : Env) (node : Node) (rpaths : List String) : List String :=
  rpaths.foldl
    (fun stack rpath =>
      let r := resolvePath env node rpath
      if r.2 ∈ stack then stack else stack ++ [r.2])
    (node.parentRpathStack.getD [])

/-- The rpath substitution loop of source lines 256-260: try each stack
entry in order, first existing candidate wins, none when no candidate
exists (Python leaves newNodePath as None). -/
def rpathResolve (env : Env) (node : Node) (fileName : String) :
    List String → Option String
  | [] => none
  | rp :: rest =>
    let r := resolvePath env node (pyReplace fileName "@rpath" rp)
    if r.1 then some r.2 else rpathResolve env node fileName rest

/-- Resolution of one dynamic-library reference (source lines 253-262):
the stack loop is taken when the name contains the token at-rpath,
otherwise the resolver is invoked directly. -/
def resolveDependency (env : Env) (node : Node) (rpathStack : List String)
    (fileName : String) : Bool × Option String :=
  if pyContains fileName "@rpath" then
    match rpathResolve env node fileName rpathStack with
    | some p => (true, some p)
    | none => (false, none)
  else
    let r := resolvePath env node fileName
    (r.1, some r.2)

/-- Source _isSystemLib (lines 165-170). -/
def isSystemLib (path : String) : Bool :=
  pyStartsWith path "/usr/lib" || pyStartsWith path "/System/Library"

/-- Dependency loop of one slice (source lines 249-278): returns the
descriptor list and the child nodes put on the queue, in order.  A
resolved reference yields a child node carrying the slice stack, the
slice architecture, its system flag and the parent executable_path when
present; the descriptor is the name dict updated with the same fields. -/
def processDeps (env : Env) (ignoreSystem : Bool) (node : Node)
    (rpathStack : List String) (archName : String) :
    List String → List Dep × List Node
  | [] => ([], [])
  | fileName :: rest =>
    let r := resolveDependency env node rpathStack fileName
    let (dep, enq) :=
      match r.2, r.1 with
      | some newNodePath, true =>
        let sys := isSystemLib newNodePath
        let newNode : Node :=
          { path := newNodePath
            parentRpathStack := some rpathStack
            restrictarch := some archName
            system := some sys
            executablePath := node.executablePath }
        (Dep.mk
          { name := fileName
            path := some newNodePath
            parentRpathStack := some rpathStack
            restrictarch := some archName
            system := some sys
            executablePath := node.executablePath } none,
          if !ignoreSystem || !sys then [newNode] else [])
      | _, _ => (Dep.mk { name := fileName } none, [])
    let (deps, children) := processDeps env ignoreSystem node rpathStack archName rest
    (dep :: deps, enq ++ children)

/-- One architecture slice of _processNode (source lines 219-278, minus
the restrict-arch skip handled by the caller): set executable_path on an
EXECUTE slice, build the effective rpath stack, walk the references.
Python creates the empty arch dict entry first and fills it in place; the
embedding constructs the finished slice and appends it. -/
def processSlice (env : Env) (ignoreSystem : Bool) (node : Node)
    (h : MachOHeader) : Node × List Node :=
  let node :=
    if h.filetype = MH_EXECUTE then { node with executablePath := node.loaderPath }
    else node
  let rpathStack := buildRpathStack env node h.rpaths
  let (deps, children) :=
    processDeps env ignoreSystem node rpathStack h.archName h.relocatables
  let slice : ArchSlice := { name := h.archName, rpaths := h.rpaths, dependencies := deps }
  ({ node with arch := some ((node.arch.getD []) ++ [slice]) }, children)

/-- Slice skip test of source line 216: restrictarch is set and differs
from the slice architecture. -/
def sliceSkippedBy (ra : Option String) (h : MachOHeader) : Bool :=
  match ra with
  | some a => decide (h.archName ≠ a)
  | none => false

/-- Header loop of _processNode (source lines 213-278): slices whose
architecture differs from a set restrictarch are skipped (line 216). -/
def processSlices (env : Env) (ignoreSystem : Bool) :
    Node → List MachOHeader → Node × List Node
  | node, [] => (node, [])
  | node, h :: rest =>
    if sliceSkippedBy node.restrictarch h then
      processSlices env ignoreSystem node rest
    else
      let (n₁, cs) := processSlice env ignoreSystem node h
      let (n₂, cs₂) := processSlices env ignoreSystem n₁ rest
      (n₂, cs ++ cs₂)

/-- Source _processNode (lines 196-282): stat, parse, walk slices.  When
the path does not exist the Python local macho is never bound and line
207 raises NameError; that exception is the none result. -/
def processNode (env : Env) (ignoreSystem : Bool) (node : Node) :
    Option (Node × List Node) :=
  let path := node.path
  let node := { node with existsOnDisk := some (env.pathExists path) }
  if env.pathExists path then
    let macho := env.parse path
    let node := { node with parsed := some macho.isSome }
    match macho with
    | none => some (node, [])
    | some m =>
      let node := { node with loaderPath := some (env.dirname path), arch := some [] }
      some (processSlices env ignoreSystem node m.headers)
  else
    none

/-! ## Satisfiability and exclusion pass (source lines 362-423) -/

/-- Source _isExcluded (lines 362-373) with the subject string of the
node or dependency dict passed in: join the ancestry, return the first
matching exclusion with its printed form and the matched subject. -/
def isExcluded (fullName0 : String) (exclusions : List Excl)
    (ancestry : List String) : Bool × Option String × String :=
  let fullName :=
    if ancestry.length > 0 then joinSep " : " ancestry ++ " : " ++ fullName0
    else fullName0
  match exclusions.find? (fun e => e.test fullName) with
  | some e => (true, some e.printed, fullName)
  | none => (false, none, fullName)

/-- Subject of _isExcluded: the path key when present, else the name. -/
def Dep.subject (d : Dep) : String :=
  match d.core.path with
  | some p => p
  | none => d.core.name

/-- Store the exclusion result on a dependency dict (source line 395). -/
def Dep.withExclusion (d : Dep) (e : Bool) (p : Option String) (i : String) : Dep :=
  Dep.mk { d.core with excluded := some e, pattern := some p, exclusionId := some i }
    d.missingTree

/-- Cache lookup by key. -/
def stLookup : St → String → Option Node
  | [], _ => none
  | (k', n) :: rest, k => if k' = k then some n else stLookup rest k

/-- In-place mutation of the node stored under a key. -/
def stUpdate : St → String → Node → St
  | [], _, _ => []
  | (k', n') :: rest, k, n =>
    if k' = k then (k', n) :: rest else (k', n') :: stUpdate rest k n

/-- Body of one dependency of the _checkNode loop (source lines 396-408)
after the exclusion data has been written onto the descriptor (line 395;
the satisfied flip at line 398 reads the freshly written excluded field
of the descriptor dict).  Parameterised by the recursive call at the
next lower fuel.  The updated cache and the updated descriptor dict are
returned; none models a raised KeyError. -/
def checkDepStepGo
    (recurse : St → String → List String → Option (St × Bool × List Dep))
    (key : String) (ancestry : List String) (st : St) (dep₁ : Dep) :
    Option (St × Dep) :=
  match dep₁.core.path with
  | none =>
    match stLookup st key with
    | none => none
    | some n =>
      match n.missing with
      | none => none
      | some miss =>
        some (stUpdate st key
          (if !(dep₁.core.excluded.getD false) then
            { n with satisfied := some false, missing := some (miss ++ [dep₁]) }
          else { n with missing := some (miss ++ [dep₁]) }), dep₁)
  | some _ =>
    if dep₁.core.system.getD false then some (st, dep₁)
    else
      match recurse st (depCacheKey dep₁.core) ancestry with
      | none => none
      | some (st', sat, miss) =>
        if !sat then
          match stLookup st' key with
          | none => none
          | some n =>
            match n.missing with
            | none => none
            | some ms =>
              some (stUpdate st' key
                { n with satisfied := some false,
                         missing := some (ms ++ [Dep.mk dep₁.core (some miss)]) },
                Dep.mk dep₁.core (some miss))
        else some (st', dep₁)

/-- One dependency of the _checkNode loop (source lines 394-408): write
the exclusion data on the descriptor, then run the body. -/
def checkDepStep (ex : List Excl)
    (recurse : St → String → List String → Option (St × Bool × List Dep))
    (key : String) (ancestry : List String) (st : St) (dep : Dep) :
    Option (St × Dep) :=
  checkDepStepGo recurse key ancestry st
    (dep.withExclusion (isExcluded dep.subject ex ancestry).1
      (isExcluded dep.subject ex ancestry).2.1 (isExcluded dep.subject ex ancestry).2.2)

/-- The dependency list fold of one slice. -/
def checkDepsList (ex : List Excl)
    (recurse : St → String → List String → Option (St × Bool × List Dep))
    (key : String) (ancestry : List String) :
    St → List Dep → Option (St × List Dep)
  | st, [] => some (st, [])
  | st, d :: ds =>
    match checkDepStep ex recurse key ancestry st d with
    | none => none
    | some (st₁, d') =>
      match checkDepsList ex recurse key ancestry st₁ ds with
      | none => none
      | some (st₂, ds') => some (st₂, d' :: ds')

/-- The arch slice fold of _checkNode (source line 393). -/
def checkSlices (ex : List Excl)
    (recurse : St → String → List String → Option (St × Bool × List Dep))
    (key : String) (ancestry : List String) :
    St → List ArchSlice → Option (St × List ArchSlice)
  | st, [] => some (st, [])
  | st, s :: ss =>
    match checkDepsList ex recurse key ancestry st s.dependencies with
    | none => none
    | some (st₁, ds') =>
      match checkSlices ex recurse key ancestry st₁ ss with
      | none => none
      | some (st₂, ss') => some (st₂, { s with dependencies := ds' } :: ss')

/-- Final lines of _checkNode (408-413 of the source) after the
dependency loop: write the updated arch slices back, apply the excluded
override, store the node and return its satisfied and missing values. -/
def checkNodeTail (key : String) (st₂ : St) (slices' : List ArchSlice) :
    Option (St × Bool × List Dep) :=
  match stLookup st₂ key with
  | none => none
  | some nf =>
    match nf.missing with
    | none => none
    | some m =>
      if nf.excluded = some true then
        some (stUpdate st₂ key { nf with arch := some slices', satisfied := some true },
          true, m)
      else
        match nf.satisfied with
        | none => none
        | some b =>
          some (stUpdate st₂ key { nf with arch := some slices' }, b, m)

/-- Source _checkNode (lines 377-413), fuelled.  Nodes are addressed by
their cache key; a memoized node returns its stored result at once.  The
none result models fuel exhaustion or a raised KeyError (absent cache
key or absent dict key). -/
def checkNode (ex : List Excl) :
    Nat → St → String → List String → Option (St × Bool × List Dep)
  | 0, _, _, _ => none
  | fuel + 1, st, key, ancestry =>
    match stLookup st key with
    | none => none
    | some n =>
      match n.satisfied with
      | some b =>
        match n.missing with
        | none => none
        | some m => some (st, b, m)
      | none =>
        if n.parsed.getD false then
          match n.arch with
          | none => none
          | some slices =>
            match checkSlices ex (checkNode ex fuel) key (ancestry ++ [n.path])
                (stUpdate st key
                  { n with excluded := some (isExcluded n.path ex ancestry).1,
                           pattern := some (isExcluded n.path ex ancestry).2.1,
                           exclusionId := some (isExcluded n.path ex ancestry).2.2,
                           satisfied := some true, missing := some [] }) slices with
            | none => none
            | some (st₂, slices') => checkNodeTail key st₂ slices'
        else
          some (stUpdate st key
            { n with excluded := some (isExcluded n.path ex ancestry).1,
                     pattern := some (isExcluded n.path ex ancestry).2.1,
                     exclusionId := some (isExcluded n.path ex ancestry).2.2,
                     satisfied := some (isExcluded n.path ex ancestry).1,
                     missing := some [] },
            (isExcluded n.path ex ancestry).1, [])

/-- Source _updateMissing (lines 416-423): iterate the cache in insertion
order and run _checkNode on every root node. -/
def updateMissingGo (ex : List Excl) (fuel : Nat) :
    List String → St → Option St
  | [], st => some st
  | k :: ks, st =>
    match stLookup st k with
    | none => none
    | some n =>
      if n.root then
        match checkNode ex fuel st k [] with
        | none => none
        | some (st', _, _) => updateMissingGo ex fuel ks st'
      else updateMissingGo ex fuel ks st

/-- The satisfiability pass over the whole cache. -/
def updateMissing (ex : List Excl) (fuel : Nat) (st : St) : Option St :=
  updateMissingGo ex fuel (st.map Prod.fst) st

/-! ## Report projection (source lines 510-523) -/

mutual

/-- Strip the exclusion bookkeeping from a dependency dict (pop of
exclusionId and pattern, source lines 519-522), recursively through the
nested missing tree.  The recursion reflects dict aliasing in the
source: the entries of a node's missing list are the very dict objects
of some cache node's arch dependency lists (appended at lines 397 and
407, with the child's missing list attached at line 408), and
_makeReport iterates every cache node, so its pops observably remove
exclusionId and pattern from every descriptor at every depth. -/
def stripDep : Dep → Dep
  | .mk c none => .mk { c with exclusionId := none, pattern := none } none
  | .mk c (some l) =>
    .mk { c with exclusionId := none, pattern := none } (some (stripDepList l))

/-- stripDep mapped over a list, mutually with it. -/
def stripDepList : List Dep → List Dep
  | [] => []
  | d :: ds => stripDep d :: stripDepList ds

end

/-- Strip one emitted entry; none models the KeyError raised by the arch
lookup when the entry was never parsed.  Both the arch dependency
descriptors and the missing list are deep-stripped: in the source they
alias the same dicts (see stripDep). -/
def makeReportEntry (n : Node) : Option Node :=
  match n.arch with
  | none => none
  | some slices =>
    some { n with exclusionId := none, pattern := none,
                  missing := n.missing.map stripDepList,
                  arch := some (slices.map fun s =>
                    { s with dependencies := stripDepList s.dependencies }) }

/-- Strip every entry in order; any KeyError aborts. -/
def makeReportList : List Node → Option (List Node)
  | [] => some []
  | n :: rest =>
    match makeReportEntry n, makeReportList rest with
    | some n', some l => some (n' :: l)
    | _, _ => none

/-- Source _makeReport: list the cache values in order and strip each. -/
def makeReport (st : St) : Option (List Node) :=
  makeReportList (st.map Prod.snd)

/-! ## Exclusions file parsing (source lines 534-537) -/

/-- The compiled exclusion sources: split the file on newlines, drop
duplicate raw lines (the set call; Python iterates it in unspecified
order, modelled by dedup order — the claims about it are set-level),
drop lines starting with a number sign before stripping, strip the rest,
drop entries that became empty. -/
def exclusionEntries (content : String) : List String :=
  ((((pySplitChar content '\n').dedup).filter
      (fun l => !pyStartsWith l "#")).map pyStrip).filter
    (fun e => e.length ≠ 0)

/-! ## Theorems: exclusions file parsing (C10) -/

/-- Length-zero test on strings agrees with equality to the empty string. -/
theorem string_length_ne_zero (s : String) : (s.length ≠ 0) ↔ s ≠ "" := by
  constructor
  · intro h he
    subst he
    exact h rfl
  · intro h hl
    apply h
    have hd : s.data = [] := List.length_eq_zero.mp hl
    cases s
    simp_all

/-- Claim C10: the set of compiled exclusion sources is exactly the set of
stripped lines of the exclusions file whose raw line does not start with a
number sign and whose stripped form is non-empty; stripping happens after
the comment check and duplicate raw lines are collapsed by the set call. -/
theorem c10_exclusion_entries (content s : String) :
    s ∈ exclusionEntries content ↔
      ∃ line ∈ pySplitChar content '\n',
        pyStartsWith line "#" = false ∧ pyStrip line = s ∧ s ≠ "" := by
  unfold exclusionEntries
  simp only [List.mem_filter, List.mem_map, List.mem_dedup, Bool.not_eq_true',
    decide_eq_true_eq]
  constructor
  · rintro ⟨⟨line, ⟨hline, hstart⟩, hstrip⟩, hlen⟩
    exact ⟨line, hline, hstart, hstrip, (string_length_ne_zero s).mp hlen⟩
  · rintro ⟨line, hline, hstart, hstrip, hne⟩
    exact ⟨⟨line, ⟨hline, hstart⟩, hstrip⟩, (string_length_ne_zero s).mpr hne⟩

/-! ## Theorems: dependency reference resolution (C7) -/

/-- The rpath loop returns the first stack entry whose substituted
candidate exists. -/
theorem rpathResolve_eq_findSome (env : Env) (node : Node) (fileName : String)
    (stack : List String) :
    rpathResolve env node fileName stack =
      stack.findSome? (fun rp =>
        let r := resolvePath env node (pyReplace fileName "@rpath" rp)
        if r.1 then some r.2 else none) := by
  induction stack with
  | nil => rfl
  | cons rp rest ih =>
    simp only [rpathResolve, List.findSome?_cons]
    by_cases h : (resolvePath env node (pyReplace fileName "@rpath" rp)).1
    · simp [h]
    · simp only [Bool.not_eq_true] at h
      simp [h, ih]

/-- Claim C7 (amended): the rpath-stack loop is used exactly when the raw
reference contains the at-rpath token anywhere (not only as a prefix);
in that case the result is the first stack entry, in order, whose
substituted candidate exists (unresolved when none exists), and a
reference without the token is handed to the path resolver directly. -/
theorem c7_resolveDependency_characterization (env : Env) (node : Node)
    (stack : List String) (fileName : String) :
    resolveDependency env node stack fileName =
      if pyContains fileName "@rpath" then
        match stack.findSome? (fun rp =>
            let r := resolvePath env node (pyReplace fileName "@rpath" rp)
            if r.1 then some r.2 else none) with
        | some p => (true, some p)
        | none => (false, none)
      else
        ((resolvePath env node fileName).1, some (resolvePath env node fileName).2) := by
  unfold resolveDependency
  rw [rpathResolve_eq_findSome]

/-- Environment for the C7 counterexample: every path exists. -/
def envAllExists : Env :=
  { pathExists := fun _ => true
    abspath := id
    dirname := id
    parse := fun _ => none }

/-- Parent node for the C7 counterexample. -/
def nodeC7 : Node :=
  { path := "/p", loaderPath := some "/l" }

/-- Claim C7 counterexample: the reference string with a slash before the
token does not begin with at-rpath, and direct resolution would succeed
(every path exists here), yet the code takes the stack loop (the token
occurs inside the string) and, with an empty stack, reports it
unresolved.  So resolution by stack is not used only for references
beginning with at-rpath. -/
theorem c7_counterexample :
    pyStartsWith "/a/@rpath/b" "@rpath" = false ∧
    (resolvePath envAllExists nodeC7 "/a/@rpath/b").1 = true ∧
    resolveDependency envAllExists nodeC7 [] "/a/@rpath/b" = (false, none) := by
  refine ⟨by decide, by decide, by decide⟩

/-! ## Theorems: processor error handling (C6) -/

/-- Environment in which no path exists. -/
def envNoFile : Env :=
  { pathExists := fun _ => false
    abspath := id
    dirname := id
    parse := fun _ => none }

/-- Claim C6 evaluation at the failing input: for a node whose path does
not exist the processor raises (the unbound local macho of source line
207, modelled by none) instead of recording parsed false; for a node
whose path exists but whose parse fails it does record parsed false,
enqueues nothing and returns normally. -/
theorem c6_eval :
    (processNode envNoFile false { path := "/gone" }).isNone = true ∧
    (processNode envAllExists false { path := "/bad" }).map
        (fun r => (r.1.parsed, r.1.existsOnDisk, r.2.length)) =
      some (some false, some true, 0) := by
  refine ⟨by decide, by decide⟩

/-! ## Theorems: executable_path propagation (C4) -/

/-- Children enqueued by the dependency loop carry the processing node's
current executable_path. -/
theorem processDeps_children_exe (env : Env) (ign : Bool) (node : Node)
    (stack : List String) (archName : String) :
    ∀ files : List String, ∀ c ∈ (processDeps env ign node stack archName files).2,
      c.executablePath = node.executablePath := by
  intro files
  induction files with
  | nil => intro c hc; simp [processDeps] at hc
  | cons f rest ih =>
    intro c hc
    simp only [processDeps] at hc
    rcases List.mem_append.mp hc with h | h
    · revert h
      cases hr : (resolveDependency env node stack f).2 with
      | none => simp
      | some p =>
        cases hb : (resolveDependency env node stack f).1 with
        | false => simp
        | true =>
          by_cases hq : (!ign || !isSystemLib p) = true
          · simp [hq]
            intro he; subst he; rfl
          · simp only [Bool.not_eq_true] at hq
            simp [hq]
    · exact ih c h

/-- One slice: executable_path becomes loader_path exactly on an EXECUTE
slice, loader_path and restrictarch are untouched, and the slice children
carry the post-update executable_path. -/
theorem processSlice_exe (env : Env) (ign : Bool) (node : Node) (h : MachOHeader) :
    (processSlice env ign node h).1.executablePath =
        (if h.filetype = MH_EXECUTE then node.loaderPath else node.executablePath) ∧
    (processSlice env ign node h).1.loaderPath = node.loaderPath ∧
    (processSlice env ign node h).1.restrictarch = node.restrictarch ∧
    ∀ c ∈ (processSlice env ign node h).2,
      c.executablePath =
        (if h.filetype = MH_EXECUTE then node.loaderPath else node.executablePath) := by
  by_cases he : h.filetype = MH_EXECUTE
  · refine ⟨by simp [processSlice, he], by simp [processSlice, he],
      by simp [processSlice, he], ?_⟩
    intro c hc
    simp only [processSlice, he, if_true] at hc ⊢
    exact processDeps_children_exe env ign _ _ _ h.relocatables c hc
  · refine ⟨by simp [processSlice, he], by simp [processSlice, he],
      by simp [processSlice, he], ?_⟩
    intro c hc
    simp only [processSlice, he, if_false] at hc ⊢
    exact processDeps_children_exe env ign _ _ _ h.relocatables c hc

/-- Header loop: executable_path of the processed node is loader_path if
any processed slice is EXECUTE and the inherited value otherwise; all
children carry one of the two. -/
theorem processSlices_exe (env : Env) (ign : Bool) :
    ∀ (hs : List MachOHeader) (node : Node),
      (processSlices env ign node hs).1.loaderPath = node.loaderPath ∧
      (processSlices env ign node hs).1.restrictarch = node.restrictarch ∧
      ((hs.any fun h => !(sliceSkippedBy node.restrictarch h) &&
          (h.filetype == MH_EXECUTE)) = true →
        (processSlices env ign node hs).1.executablePath = node.loaderPath) ∧
      ((hs.any fun h => !(sliceSkippedBy node.restrictarch h) &&
          (h.filetype == MH_EXECUTE)) = false →
        (processSlices env ign node hs).1.executablePath = node.executablePath) ∧
      ∀ c ∈ (processSlices env ign node hs).2,
        c.executablePath = node.loaderPath ∨ c.executablePath = node.executablePath := by
  intro hs
  induction hs with
  | nil =>
    intro node
    refine ⟨rfl, rfl, by simp, fun _ => rfl, by simp [processSlices]⟩
  | cons h rest ih =>
    intro node
    by_cases hskip : sliceSkippedBy node.restrictarch h = true
    · have hps : processSlices env ign node (h :: rest) = processSlices env ign node rest := by
        simp [processSlices, hskip]
      obtain ⟨ih1, ih2, ih3, ih4, ih5⟩ := ih node
      rw [hps]
      refine ⟨ih1, ih2, ?_, ?_, ih5⟩
      · intro hany
        apply ih3
        simpa [List.any_cons, hskip] using hany
      · intro hany
        apply ih4
        simpa [List.any_cons, hskip] using hany
    · have hskip' : sliceSkippedBy node.restrictarch h = false := by
        simpa using hskip
      obtain ⟨sExe, sLoad, sRa, sCh⟩ := processSlice_exe env ign node h
      have hps : processSlices env ign node (h :: rest) =
          ((processSlices env ign (processSlice env ign node h).1 rest).1,
            (processSlice env ign node h).2 ++
              (processSlices env ign (processSlice env ign node h).1 rest).2) := by
        simp [processSlices, hskip']
      obtain ⟨ih1, ih2, ih3, ih4, ih5⟩ := ih (processSlice env ign node h).1
      rw [sRa] at ih3 ih4
      rw [hps]
      have goal1 : (processSlices env ign (processSlice env ign node h).1 rest).1.loaderPath
          = node.loaderPath := ih1.trans sLoad
      have goal2 : (processSlices env ign (processSlice env ign node h).1 rest).1.restrictarch
          = node.restrictarch := ih2.trans sRa
      by_cases hexe : h.filetype = MH_EXECUTE
      · rw [if_pos hexe] at sExe sCh
        refine ⟨goal1, goal2, ?_, ?_, ?_⟩
        · intro _
          by_cases hany : (rest.any fun h' => !(sliceSkippedBy node.restrictarch h') &&
              (h'.filetype == MH_EXECUTE)) = true
          · exact (ih3 hany).trans sLoad
          · exact ((ih4 (by simpa using hany)).trans sExe)
        · intro hany
          exfalso
          simp [List.any_cons, hskip', hexe] at hany
        · intro c hc
          rcases List.mem_append.mp hc with hcm | hcm
          · exact Or.inl (sCh c hcm)
          · rcases ih5 c hcm with hl | hr
            · exact Or.inl (hl.trans sLoad)
            · exact Or.inl (hr.trans sExe)
      · rw [if_neg hexe] at sExe sCh
        have hhead : (h.filetype == MH_EXECUTE) = false := by
          simp [hexe]
        refine ⟨goal1, goal2, ?_, ?_, ?_⟩
        · intro hany
          have hany' : (rest.any fun h' => !(sliceSkippedBy node.restrictarch h') &&
              (h'.filetype == MH_EXECUTE)) = true := by
            simpa [List.any_cons, hskip', hhead] using hany
          exact (ih3 hany').trans sLoad
        · intro hany
          have hany' : (rest.any fun h' => !(sliceSkippedBy node.restrictarch h') &&
              (h'.filetype == MH_EXECUTE)) = false := by
            simpa [List.any_cons, hskip', hhead] using hany
          exact (ih4 hany').trans sExe
        · intro c hc
          rcases List.mem_append.mp hc with hcm | hcm
          · exact Or.inr (sCh c hcm)
          · rcases ih5 c hcm with hl | hr
            · exact Or.inl (hl.trans sLoad)
            · exact Or.inr (hr.trans sExe)

/-- The node state just before the header loop of the processor: exists
recorded, parsed true, loader_path the directory of path, empty arch. -/
def preppedNode (env : Env) (node : Node) : Node :=
  { node with existsOnDisk := some (env.pathExists node.path), parsed := some true, loaderPath := some (env.dirname node.path), arch := some [] }

/-- Claim C4 (amended): the processor sets executable_path to loader_path
on every processed slice of file type EXECUTE, overwriting an inherited
value; after processing, executable_path is the directory of the node
path when some processed slice was EXECUTE and the inherited value
otherwise, and every enqueued child carries one of those two values. -/
theorem c4_executable_path (env : Env) (ign : Bool) (node : Node) (m : MachOFile)
    (hex : env.pathExists node.path = true) (hp : env.parse node.path = some m) :
    ∃ n' cs, processNode env ign node = some (n', cs) ∧
      ((m.headers.any fun h => !(sliceSkippedBy node.restrictarch h) &&
          (h.filetype == MH_EXECUTE)) = true →
        n'.executablePath = some (env.dirname node.path)) ∧
      ((m.headers.any fun h => !(sliceSkippedBy node.restrictarch h) &&
          (h.filetype == MH_EXECUTE)) = false →
        n'.executablePath = node.executablePath) ∧
      ∀ c ∈ cs, c.executablePath = some (env.dirname node.path) ∨
        c.executablePath = node.executablePath := by
  have hpn : processNode env ign node =
      some (processSlices env ign (preppedNode env node) m.headers) := by
    simp [processNode, preppedNode, hex, hp]
  obtain ⟨s1, s2, s3, s4, s5⟩ := processSlices_exe env ign m.headers (preppedNode env node)
  refine ⟨(processSlices env ign (preppedNode env node) m.headers).1,
    (processSlices env ign (preppedNode env node) m.headers).2,
    by rw [hpn], ?_, ?_, ?_⟩
  · intro hany
    exact s3 hany
  · intro hany
    exact s4 hany
  · intro c hc
    exact s5 c hc

/-- Environment for the C4 counterexample and witness: one EXECUTE slice. -/
def envC4 : Env :=
  { pathExists := fun _ => true
    abspath := id
    dirname := fun _ => "/a"
    parse := fun _ => some ⟨[⟨"arm64", MH_EXECUTE, [], []⟩]⟩ }

/-- Node for the C4 counterexample: executable_path already inherited. -/
def nodeC4 : Node :=
  { path := "/a/b", executablePath := some "/inherited" }

/-- Claim C4 counterexample: a node processed with executable_path
already present does not keep it when a slice has file type EXECUTE: the
inherited value is overwritten with loader_path. -/
theorem c4_counterexample :
    nodeC4.executablePath = some "/inherited" ∧
    (processNode envC4 false nodeC4).map (fun r => r.1.executablePath) =
      some (some "/a") ∧
    some "/a" ≠ nodeC4.executablePath := by
  refine ⟨rfl, by decide, by decide⟩

/-- Witness for the amended C4 theorem at a concrete input. -/
theorem c4_executable_path_witness :
    ∃ n' cs, processNode envC4 false nodeC4 = some (n', cs) ∧
      ((MachOFile.mk [⟨"arm64", MH_EXECUTE, [], []⟩] |>.headers.any
          fun h => !(sliceSkippedBy nodeC4.restrictarch h) &&
            (h.filetype == MH_EXECUTE)) = true →
        n'.executablePath = some (envC4.dirname nodeC4.path)) ∧
      ((MachOFile.mk [⟨"arm64", MH_EXECUTE, [], []⟩] |>.headers.any
          fun h => !(sliceSkippedBy nodeC4.restrictarch h) &&
            (h.filetype == MH_EXECUTE)) = false →
        n'.executablePath = nodeC4.executablePath) ∧
      ∀ c ∈ cs, c.executablePath = some (envC4.dirname nodeC4.path) ∨
        c.executablePath = nodeC4.executablePath :=
  c4_executable_path envC4 false nodeC4 ⟨[⟨"arm64", MH_EXECUTE, [], []⟩]⟩
    (by decide) (by decide)

/-! ## Theorems: report projection (C1) -/

/-- Forall₂ between a list and its image under a function. -/
theorem forall₂_map_self {α β : Type} {R : α → β → Prop} {l : List α} {f : α → β}
    (h : ∀ a ∈ l, R a (f a)) : List.Forall₂ R l (l.map f) := by
  induction l with
  | nil => exact List.Forall₂.nil
  | cons x xs ih =>
    exact List.Forall₂.cons (h x (by simp)) (ih fun a ha => h a (by simp [ha]))

/-- Spec-words relation on dependency cores: exclusionId and pattern
removed, every other field kept. -/
def CoreStripped (c c' : DepCore) : Prop :=
  c'.name = c.name ∧ c'.path = c.path ∧
  c'.parentRpathStack = c.parentRpathStack ∧
  c'.restrictarch = c.restrictarch ∧ c'.system = c.system ∧
  c'.executablePath = c.executablePath ∧ c'.excluded = c.excluded ∧
  c'.pattern = none ∧ c'.exclusionId = none

mutual

/-- Spec-words relation on dependency descriptors: the second is the
first with exclusionId and pattern removed at every depth of the nested
missing tree and everything else kept. -/
def StrippedOf : Dep → Dep → Prop
  | .mk c none, .mk c' mt' => CoreStripped c c' ∧ mt' = none
  | .mk _c (some _), .mk _c' none => False
  | .mk c (some l), .mk c' (some l') => CoreStripped c c' ∧ StrippedOfList l l'

/-- StrippedOf pointwise on lists of equal length, mutually with it. -/
def StrippedOfList : List Dep → List Dep → Prop
  | [], l' => l' = []
  | _ :: _, [] => False
  | d :: ds, d' :: ds' => StrippedOf d d' ∧ StrippedOfList ds ds'

end

/-- StrippedOfList lifted to the optional missing field. -/
def OptListStrippedOf : Option (List Dep) → Option (List Dep) → Prop
  | none, t => t = none
  | some _, none => False
  | some l, some l' => StrippedOfList l l'

mutual

/-- stripDep realises the spec-words relation StrippedOf. -/
theorem stripDep_strippedOf : (d : Dep) → StrippedOf d (stripDep d)
  | .mk _c none => ⟨⟨rfl, rfl, rfl, rfl, rfl, rfl, rfl, rfl, rfl⟩, rfl⟩
  | .mk _c (some l) =>
    ⟨⟨rfl, rfl, rfl, rfl, rfl, rfl, rfl, rfl, rfl⟩, stripDepList_strippedOf l⟩

/-- stripDepList realises StrippedOfList, mutually with the above. -/
theorem stripDepList_strippedOf : (l : List Dep) → StrippedOfList l (stripDepList l)
  | [] => rfl
  | d :: ds => ⟨stripDep_strippedOf d, stripDepList_strippedOf ds⟩

end

/-- Option.map of stripDepList realises OptListStrippedOf. -/
theorem optMissing_strippedOf (t : Option (List Dep)) :
    OptListStrippedOf t (t.map stripDepList) := by
  cases t with
  | none => rfl
  | some l => exact stripDepList_strippedOf l

/-- stripDepList realises the pointwise Forall₂ lifting of StrippedOf. -/
theorem forall₂_strippedOf (l : List Dep) :
    List.Forall₂ StrippedOf l (stripDepList l) := by
  induction l with
  | nil => exact List.Forall₂.nil
  | cons d ds ih => exact List.Forall₂.cons (stripDep_strippedOf d) ih

/-- Relation between a cache node and its emitted report entry:
exclusionId and pattern removed from the node, from every arch
dependency descriptor and from every missing entry at every depth (in
the source those are the same dicts), everything else kept. -/
def ReportEntryRel (n n' : Node) : Prop :=
  n'.path = n.path ∧ n'.root = n.root ∧ n'.package = n.package ∧
  n'.system = n.system ∧ n'.restrictarch = n.restrictarch ∧
  n'.executablePath = n.executablePath ∧
  n'.parentRpathStack = n.parentRpathStack ∧
  n'.loaderPath = n.loaderPath ∧ n'.existsOnDisk = n.existsOnDisk ∧
  n'.parsed = n.parsed ∧ n'.satisfied = n.satisfied ∧
  n'.excluded = n.excluded ∧
  n'.exclusionId = none ∧ n'.pattern = none ∧
  OptListStrippedOf n.missing n'.missing ∧
  ∃ ss ss', n.arch = some ss ∧ n'.arch = some ss' ∧
    List.Forall₂ (fun (s s' : ArchSlice) =>
      s'.name = s.name ∧ s'.rpaths = s.rpaths ∧
      List.Forall₂ StrippedOf s.dependencies s'.dependencies) ss ss'

/-- Claim C1 (amended): the report lists every node of the cache, roots
and dependency nodes alike, in cache order, with exclusion_id and
pattern removed from every emitted node, from every per-arch dependency
descriptor and from every missing descriptor at every nesting depth
(the source pops reach them through dict aliasing), and everything else
kept. -/
theorem c1_report_all_nodes (st : St)
    (h : ∀ n ∈ st.map Prod.snd, n.arch.isSome = true) :
    ∃ l, makeReport st = some l ∧
      List.Forall₂ ReportEntryRel (st.map Prod.snd) l := by
  unfold makeReport
  induction st with
  | nil => exact ⟨[], rfl, List.Forall₂.nil⟩
  | cons kn rest ih =>
    have hhead := h kn.2 (by simp)
    obtain ⟨slices, hs⟩ := Option.isSome_iff_exists.mp hhead
    have hrest : ∀ n ∈ rest.map Prod.snd, n.arch.isSome = true := by
      intro n hn
      exact h n (by simp [hn])
    obtain ⟨l, hl, hrel⟩ := ih hrest
    have hhd : makeReportEntry kn.2 =
        some { kn.2 with exclusionId := none, pattern := none, missing := kn.2.missing.map stripDepList, arch := some (slices.map fun s => { s with dependencies := stripDepList s.dependencies }) } := by
      unfold makeReportEntry
      rw [hs]
    refine ⟨{ kn.2 with exclusionId := none, pattern := none, missing := kn.2.missing.map stripDepList, arch := some (slices.map fun s => { s with dependencies := stripDepList s.dependencies }) } :: l, ?_, ?_⟩
    · show makeReportList ((kn :: rest).map Prod.snd) = _
      simp only [List.map_cons, makeReportList, hhd]
      rw [show makeReportList (rest.map Prod.snd) = some l from hl]
    · refine List.Forall₂.cons ?_ hrel
      refine ⟨rfl, rfl, rfl, rfl, rfl, rfl, rfl, rfl, rfl, rfl, rfl, rfl, rfl, rfl,
        optMissing_strippedOf kn.2.missing, slices, _, hs, rfl, ?_⟩
      refine forall₂_map_self ?_
      intro s _
      exact ⟨rfl, rfl, forall₂_strippedOf s.dependencies⟩

/-- Cache for the C1 counterexample: a root node and a dependency node. -/
def stC1 : St :=
  [("/r", { path := "/r", root := true, arch := some [] }),
   ("/d", { path := "/d", root := false, arch := some [] })]

/-- Claim C1 counterexample: the report emits the non-root dependency
node of the cache as well, so it does not contain exactly the root
nodes. -/
theorem c1_counterexample :
    (makeReport stC1).map (fun l => l.map fun n => (n.path, n.root)) =
      some [("/r", true), ("/d", false)] := by
  decide

/-- Witness for the amended C1 theorem at a concrete cache. -/
theorem c1_report_all_nodes_witness :
    ∃ l, makeReport stC1 = some l ∧
      List.Forall₂ ReportEntryRel (stC1.map Prod.snd) l :=
  c1_report_all_nodes stC1 (by decide)

/-! ## Theorems: cache key derivation (C5) -/

/-- Splitting at a separator character that occurs in neither prefix is
unambiguous. -/
theorem sep_split {c : Char} :
    ∀ {p₁ p₂ r₁ r₂ : List Char}, p₁ ++ c :: r₁ = p₂ ++ c :: r₂ →
      c ∉ p₁ → c ∉ p₂ → p₁ = p₂ ∧ r₁ = r₂ := by
  intro p₁
  induction p₁ with
  | nil =>
    intro p₂ r₁ r₂ h h1 h2
    cases p₂ with
    | nil =>
      simp only [List.nil_append, List.cons.injEq] at h
      exact ⟨rfl, h.2⟩
    | cons y ys =>
      simp only [List.nil_append, List.cons_append, List.cons.injEq] at h
      exact absurd (h.1 ▸ List.mem_cons_self y ys) h2
  | cons x xs ih =>
    intro p₂ r₁ r₂ h h1 h2
    cases p₂ with
    | nil =>
      simp only [List.cons_append, List.nil_append, List.cons.injEq] at h
      exact absurd (h.1 ▸ List.mem_cons_self x xs) h1
    | cons y ys =>
      simp only [List.cons_append, List.cons.injEq] at h
      have hx : c ∉ xs := fun hm => h1 (List.mem_cons_of_mem x hm)
      have hy : c ∉ ys := fun hm => h2 (List.mem_cons_of_mem y hm)
      obtain ⟨he, ht⟩ := ih h.2 hx hy
      exact ⟨by rw [h.1, he], ht⟩

/-- Escaping is the identity on strings without quote or backslash. -/
theorem flatMap_jsonEscape_id :
    ∀ l : List Char, '"' ∉ l → '\\' ∉ l → l.flatMap jsonEscapeChar = l := by
  intro l
  induction l with
  | nil => intro _ _; rfl
  | cons x xs ih =>
    intro hq hb
    have hxq : x ≠ '"' := fun he => hq (he ▸ List.mem_cons_self x xs)
    have hxb : x ≠ '\\' := fun he => hb (he ▸ List.mem_cons_self x xs)
    have h1 : '"' ∉ xs := fun hm => hq (List.mem_cons_of_mem x hm)
    have h2 : '\\' ∉ xs := fun hm => hb (List.mem_cons_of_mem x hm)
    simp only [List.flatMap_cons, jsonEscapeChar, if_neg hxb, if_neg hxq,
      List.singleton_append, ih h1 h2]

/-- Data of a JSON string literal on an escape-free string. -/
theorem jsonString_data (x : String) (hq : '"' ∉ x.data) (hb : '\\' ∉ x.data) :
    (jsonString x).data = '"' :: (x.data ++ ['"']) := by
  show (("\"" ++ ⟨x.data.flatMap jsonEscapeChar⟩ ++ "\"" : String)).data = _
  rw [String.data_append, String.data_append]
  rw [flatMap_jsonEscape_id x.data hq hb]
  rfl

/-- The joined, quoted body of a JSON list determines the list when the
entries are quote- and backslash-free. -/
theorem joinSep_jsonString_inj :
    ∀ (xs ys : List String),
      (∀ x ∈ xs, '"' ∉ x.data ∧ '\\' ∉ x.data) →
      (∀ y ∈ ys, '"' ∉ y.data ∧ '\\' ∉ y.data) →
      (joinSep ", " (xs.map jsonString)).data = (joinSep ", " (ys.map jsonString)).data →
      xs = ys := by
  intro xs
  induction xs with
  | nil =>
    intro ys _ hys h
    cases ys with
    | nil => rfl
    | cons y ys' =>
      exfalso
      obtain ⟨hyq, hyb⟩ := hys y (by simp)
      cases ys' with
      | nil =>
        simp only [List.map_cons, List.map_nil, joinSep, jsonString_data y hyq hyb] at h
        exact absurd h.symm (by simp)
      | cons z zs =>
        simp only [List.map_cons, joinSep] at h
        rw [String.data_append, String.data_append, jsonString_data y hyq hyb] at h
        exact absurd h.symm (by simp)
  | cons x xs' ih =>
    intro ys hxs hys h
    obtain ⟨hxq, hxb⟩ := hxs x (by simp)
    cases ys with
    | nil =>
      exfalso
      cases xs' with
      | nil =>
        simp only [List.map_cons, List.map_nil, joinSep, jsonString_data x hxq hxb] at h
        exact absurd h (by simp)
      | cons z zs =>
        simp only [List.map_cons, joinSep] at h
        rw [String.data_append, String.data_append, jsonString_data x hxq hxb] at h
        exact absurd h (by simp)
    | cons y ys' =>
      obtain ⟨hyq, hyb⟩ := hys y (by simp)
      have hxs' : ∀ a ∈ xs', '"' ∉ a.data ∧ '\\' ∉ a.data :=
        fun a ha => hxs a (List.mem_cons_of_mem x ha)
      have hys' : ∀ a ∈ ys', '"' ∉ a.data ∧ '\\' ∉ a.data :=
        fun a ha => hys a (List.mem_cons_of_mem y ha)
      cases xs' with
      | nil =>
        cases ys' with
        | nil =>
          simp only [List.map_cons, List.map_nil, joinSep,
            jsonString_data x hxq hxb, jsonString_data y hyq hyb,
            List.cons.injEq] at h
          obtain ⟨he, _⟩ := sep_split (c := '"')
            (show x.data ++ '"' :: [] = y.data ++ '"' :: [] from h.2) hxq hyq
          rw [show x = y from String.ext he]
        | cons z zs =>
          exfalso
          simp only [List.map_cons, List.map_nil, joinSep] at h
          rw [String.data_append, String.data_append,
            jsonString_data x hxq hxb, jsonString_data y hyq hyb] at h
          simp only [List.cons_append, List.append_assoc, List.cons.injEq,
            List.singleton_append] at h
          obtain ⟨_, ht⟩ := sep_split (c := '"') (by simpa using h) hxq hyq
          simp at ht
      | cons u us =>
        cases ys' with
        | nil =>
          exfalso
          simp only [List.map_cons, List.map_nil, joinSep] at h
          rw [String.data_append, String.data_append,
            jsonString_data x hxq hxb, jsonString_data y hyq hyb] at h
          simp only [List.cons_append, List.append_assoc, List.cons.injEq,
            List.singleton_append] at h
          obtain ⟨_, ht⟩ := sep_split (c := '"') (by simpa using h) hxq hyq
          simp at ht
        | cons v vs =>
          simp only [List.map_cons, joinSep] at h
          rw [String.data_append, String.data_append,
            String.data_append, String.data_append,
            jsonString_data x hxq hxb, jsonString_data y hyq hyb] at h
          simp only [List.cons_append, List.append_assoc, List.cons.injEq,
            List.singleton_append] at h
          obtain ⟨he, ht⟩ := sep_split (c := '"') (by simpa using h) hxq hyq
          have hx : x = y := String.ext he
          simp only [List.cons.injEq, true_and] at ht
          have htail := ih (v :: vs) hxs' hys' (by simpa using ht)
          rw [hx, htail]

/-- JSON serialization of a list of escape-free strings is injective. -/
theorem jsonDumpsList_inj (xs ys : List String)
    (hxs : ∀ x ∈ xs, '"' ∉ x.data ∧ '\\' ∉ x.data)
    (hys : ∀ y ∈ ys, '"' ∉ y.data ∧ '\\' ∉ y.data)
    (h : jsonDumpsList xs = jsonDumpsList ys) : xs = ys := by
  have hd := congrArg String.data h
  unfold jsonDumpsList at hd
  rw [String.data_append, String.data_append,
    String.data_append, String.data_append] at hd
  simp only [List.append_assoc, List.cons.injEq, List.singleton_append] at hd
  have hbody : (joinSep ", " (xs.map jsonString)).data ++ [']'] =
      (joinSep ", " (ys.map jsonString)).data ++ [']'] := by
    simpa using hd
  exact joinSep_jsonString_inj xs ys hxs hys (by
    have hcan := @List.append_cancel_right Char
      ((joinSep ", " (xs.map jsonString)).data) ([']'])
      ((joinSep ", " (ys.map jsonString)).data) hbody
    exact hcan)

/-- Data decomposition of the cache key when all components are present. -/
theorem makeCacheKey_data (p a e : String) (s : List String) :
    (makeCacheKey ⟨p, some a, some e, some s⟩).data =
      p.data ++ '@' :: (a.data ++ '@' :: (e.data ++ '@' :: (jsonDumpsList s).data)) := by
  show ((p ++ "@" ++ a ++ "@" ++ e ++ "@" ++ jsonDumpsList s : String)).data = _
  simp only [String.data_append, List.append_assoc]
  rfl

/-- Claim C5 (amended): the cache key is path, then an at-sign and each
of restrict_arch, executable_path and the order-preserving JSON of
parent_rpath_stack, each omitted entirely (separator included) when
absent.  When all three components are present and path, restrict_arch
and executable_path contain no at-sign and the stack entries contain no
quote or backslash, two such nodes have equal keys only when their
tuples are equal. -/
theorem c5_cache_key (p₁ a₁ e₁ : String) (s₁ : List String)
    (p₂ a₂ e₂ : String) (s₂ : List String)
    (hp₁ : '@' ∉ p₁.data) (hp₂ : '@' ∉ p₂.data)
    (ha₁ : '@' ∉ a₁.data) (ha₂ : '@' ∉ a₂.data)
    (he₁ : '@' ∉ e₁.data) (he₂ : '@' ∉ e₂.data)
    (hs₁ : ∀ x ∈ s₁, '"' ∉ x.data ∧ '\\' ∉ x.data)
    (hs₂ : ∀ x ∈ s₂, '"' ∉ x.data ∧ '\\' ∉ x.data)
    (h : makeCacheKey ⟨p₁, some a₁, some e₁, some s₁⟩ =
      makeCacheKey ⟨p₂, some a₂, some e₂, some s₂⟩) :
    p₁ = p₂ ∧ a₁ = a₂ ∧ e₁ = e₂ ∧ s₁ = s₂ := by
  have hd := congrArg String.data h
  rw [makeCacheKey_data, makeCacheKey_data] at hd
  obtain ⟨hps, hd₁⟩ := sep_split hd hp₁ hp₂
  obtain ⟨has, hd₂⟩ := sep_split hd₁ ha₁ ha₂
  obtain ⟨hes, hd₃⟩ := sep_split hd₂ he₁ he₂
  refine ⟨String.ext hps, String.ext has, String.ext hes, ?_⟩
  exact jsonDumpsList_inj s₁ s₂ hs₁ hs₂ (String.ext hd₃)

/-- The key formula the claim asserts: separators always present, absent
components rendered as the empty string.  Modelled from the claim
wording for comparison with the source derivation. -/
def cacheKeySpecC5 (n : KeyFields) : String :=
  n.path ++ "@" ++ n.restrictarch.getD "" ++ "@" ++ n.executablePath.getD "" ++
    "@" ++ jsonDumpsList (n.parentRpathStack.getD [])

/-- Claim C5 counterexample: a node with no optional components has key
equal to its bare path, not the claimed always-separated form; and two
nodes with different tuples (path a-at-b with nothing else, versus path
a with restrict_arch b) collide, so the claimed injectivity fails on the
code. -/
theorem c5_counterexample :
    makeCacheKey ⟨"p", none, none, none⟩ ≠ cacheKeySpecC5 ⟨"p", none, none, none⟩ ∧
    (⟨"a@b", none, none, none⟩ : KeyFields) ≠ ⟨"a", some "b", none, none⟩ ∧
    makeCacheKey ⟨"a@b", none, none, none⟩ = makeCacheKey ⟨"a", some "b", none, none⟩ := by
  refine ⟨by decide, by decide, by decide⟩

/-- Witness for the amended C5 theorem at concrete distinct-free inputs. -/
theorem c5_cache_key_witness :
    ("/x" : String) = "/x" ∧ ("arm64" : String) = "arm64" ∧
    ("/e" : String) = "/e" ∧ (["/r"] : List String) = ["/r"] :=
  c5_cache_key "/x" "arm64" "/e" ["/r"] "/x" "arm64" "/e" ["/r"]
    (by decide) (by decide) (by decide) (by decide) (by decide) (by decide)
    (by decide) (by decide) (by decide)

/-! ## Satisfiability pass: state infrastructure

The lemmas below track how _checkNode evolves the cache: keys are fixed,
a node whose satisfied is computed is never modified again, and only the
pass-written fields (satisfied, missing, excluded, pattern, exclusionId,
and the same bookkeeping on dependency dicts) ever change. -/

/-- All dependency descriptors of a node, across its arch slices in
order. -/
def nodeDeps (n : Node) : List Dep :=
  (n.arch.getD []).flatMap ArchSlice.dependencies

/-- A descriptor that resolved to a non-system child (the only case the
pass recurses into). -/
def depIsEdge (d : Dep) : Bool :=
  d.core.path.isSome && !(d.core.system.getD false)

/-- Descriptor skeleton: the dict fields the pass never changes. -/
def depSkel (d : Dep) : DepCore :=
  { d.core with excluded := none, pattern := none, exclusionId := none }

/-- Slice skeleton. -/
def sliceSkel (s : ArchSlice) : String × List String × List DepCore :=
  (s.name, s.rpaths, s.dependencies.map depSkel)

/-- Node evolution under the pass: identity except for the bookkeeping
fields. -/
def NodeEvolve (n n' : Node) : Prop :=
  n'.path = n.path ∧ n'.root = n.root ∧ n'.parsed = n.parsed ∧
  n'.arch.map (List.map sliceSkel) = n.arch.map (List.map sliceSkel)

/-- Cache evolution, frozen at every key except possibly k: keys are
pointwise fixed, nodes evolve, and an entry with satisfied computed and a
key other than k is unchanged. -/
def StEvolveAt (k : String) (st st' : St) : Prop :=
  List.Forall₂ (fun kn kn' => kn'.1 = kn.1 ∧ NodeEvolve kn.2 kn'.2 ∧
    (kn.2.satisfied.isSome = true → kn.1 ≠ k → kn'.2 = kn.2)) st st'

/-- Cache evolution frozen everywhere once satisfied is computed. -/
def StEvolve (st st' : St) : Prop :=
  List.Forall₂ (fun kn kn' => kn'.1 = kn.1 ∧ NodeEvolve kn.2 kn'.2 ∧
    (kn.2.satisfied.isSome = true → kn'.2 = kn.2)) st st'

/-- Reflexivity of node evolution. -/
theorem nodeEvolve_refl (n : Node) : NodeEvolve n n := ⟨rfl, rfl, rfl, rfl⟩

/-- Transitivity of node evolution. -/
theorem nodeEvolve_trans {a b c : Node} (h1 : NodeEvolve a b) (h2 : NodeEvolve b c) :
    NodeEvolve a c :=
  ⟨h2.1.trans h1.1, h2.2.1.trans h1.2.1, h2.2.2.1.trans h1.2.2.1,
    h2.2.2.2.trans h1.2.2.2⟩

/-- Full evolution is evolution frozen except anywhere. -/
theorem stEvolve_at (k : String) {st st' : St} (h : StEvolve st st') :
    StEvolveAt k st st' := by
  induction h with
  | nil => exact List.Forall₂.nil
  | cons hk _ ih => exact List.Forall₂.cons ⟨hk.1, hk.2.1, fun hs _ => hk.2.2 hs⟩ ih

/-- Reflexivity of cache evolution. -/
theorem stEvolve_refl (st : St) : StEvolve st st := by
  induction st with
  | nil => exact List.Forall₂.nil
  | cons kn rest ih =>
    exact List.Forall₂.cons ⟨rfl, nodeEvolve_refl kn.2, fun _ => rfl⟩ ih

/-- Transitivity of frozen-except-k evolution. -/
theorem stEvolveAt_trans {k : String} {a b c : St}
    (h1 : StEvolveAt k a b) (h2 : StEvolveAt k b c) : StEvolveAt k a c := by
  induction h1 generalizing c with
  | nil => cases h2; exact List.Forall₂.nil
  | cons hk h1' ih =>
    cases h2 with
    | cons hk2 h2' =>
      refine List.Forall₂.cons ⟨hk2.1.trans hk.1, nodeEvolve_trans hk.2.1 hk2.2.1, ?_⟩
        (ih h2')
      intro hs hne
      have he := hk.2.2 hs (hk.1 ▸ hne)
      have hs2 : (_ : String × Node).2.satisfied.isSome = true := he ▸ hs
      rw [hk2.2.2 hs2 (hk.1 ▸ hne), he]

/-- Transitivity of full evolution. -/
theorem stEvolve_trans {a b c : St} (h1 : StEvolve a b) (h2 : StEvolve b c) :
    StEvolve a c := by
  induction h1 generalizing c with
  | nil => cases h2; exact List.Forall₂.nil
  | cons hk h1' ih =>
    cases h2 with
    | cons hk2 h2' =>
      refine List.Forall₂.cons ⟨hk2.1.trans hk.1, nodeEvolve_trans hk.2.1 hk2.2.1, ?_⟩
        (ih h2')
      intro hs
      have he := hk.2.2 hs
      have hs2 : (_ : String × Node).2.satisfied.isSome = true := he ▸ hs
      rw [hk2.2.2 hs2, he]

/-- Lookup of a key present in the source of an evolution. -/
theorem stLookup_evolveAt {k₀ : String} {st st' : St} (h : StEvolveAt k₀ st st') :
    ∀ k n, stLookup st k = some n →
      ∃ n', stLookup st' k = some n' ∧ NodeEvolve n n' ∧
        (n.satisfied.isSome = true → k ≠ k₀ → n' = n) := by
  induction h with
  | nil => intro k n hn; simp [stLookup] at hn
  | @cons kn kn' _ _ hk _ ih =>
    intro k n hn
    by_cases hek : kn.1 = k
    · rw [stLookup, if_pos hek] at hn
      obtain rfl : kn.2 = n := by injection hn
      refine ⟨kn'.2, ?_, hk.2.1, ?_⟩
      · rw [stLookup, if_pos (hk.1.trans hek)]
      · intro hs hne
        exact hk.2.2 hs (hek ▸ hne)
    · rw [stLookup, if_neg hek] at hn
      obtain ⟨n', h1, h2, h3⟩ := ih k n hn
      refine ⟨n', ?_, h2, h3⟩
      rw [stLookup, if_neg (hk.1 ▸ hek)]
      exact h1

/-- Backward lookup along an evolution. -/
theorem stLookup_evolveAt_rev {k₀ : String} {st st' : St} (h : StEvolveAt k₀ st st') :
    ∀ k n', stLookup st' k = some n' →
      ∃ n, stLookup st k = some n ∧ NodeEvolve n n' ∧
        (n.satisfied.isSome = true → k ≠ k₀ → n' = n) := by
  induction h with
  | nil => intro k n hn; simp [stLookup] at hn
  | @cons kn kn' _ _ hk _ ih =>
    intro k n' hn
    by_cases hek : kn.1 = k
    · rw [stLookup, if_pos (hk.1.trans hek)] at hn
      obtain rfl : kn'.2 = n' := by injection hn
      refine ⟨kn.2, ?_, hk.2.1, ?_⟩
      · rw [stLookup, if_pos hek]
      · intro hs hne
        exact hk.2.2 hs (hek ▸ hne)
    · rw [stLookup, if_neg (hk.1 ▸ hek)] at hn
      obtain ⟨n, h1, h2, h3⟩ := ih k n' hn
      refine ⟨n, ?_, h2, h3⟩
      rw [stLookup, if_neg hek]
      exact h1

/-- Frozen lookup along full evolution. -/
theorem stLookup_frozen {st st' : St} (h : StEvolve st st') :
    ∀ k n, stLookup st k = some n → n.satisfied.isSome = true →
      stLookup st' k = some n := by
  induction h with
  | nil => intro k n hn; simp [stLookup] at hn
  | @cons kn kn' _ _ hk _ ih =>
    intro k n hn hs
    by_cases hek : kn.1 = k
    · rw [stLookup, if_pos hek] at hn
      obtain rfl : kn.2 = n := by injection hn
      rw [stLookup, if_pos (hk.1.trans hek), hk.2.2 hs]
    · rw [stLookup, if_neg hek] at hn
      rw [stLookup, if_neg (hk.1 ▸ hek)]
      exact ih k n hn hs

/-- Lookup after updating the same key. -/
theorem stLookup_stUpdate_self {st : St} {k : String} {n v : Node}
    (h : stLookup st k = some n) : stLookup (stUpdate st k v) k = some v := by
  induction st with
  | nil => simp [stLookup] at h
  | cons kn rest ih =>
    by_cases hek : kn.1 = k
    · rw [stUpdate, if_pos hek, stLookup, if_pos hek]
    · rw [stLookup, if_neg hek] at h
      rw [stUpdate, if_neg hek, stLookup, if_neg hek]
      exact ih h

/-- Lookup after updating a different key. -/
theorem stLookup_stUpdate_ne {st : St} {k k' : String} (v : Node) (h : k' ≠ k) :
    stLookup (stUpdate st k v) k' = stLookup st k' := by
  induction st with
  | nil => rfl
  | cons kn rest ih =>
    by_cases hek : kn.1 = k
    · rw [stUpdate, if_pos hek, stLookup, stLookup,
        if_neg (fun he => h (he.symm.trans hek)), if_neg (fun he => h (he.symm.trans hek))]
    · rw [stUpdate, if_neg hek]
      by_cases hek' : kn.1 = k'
      · rw [stLookup, if_pos hek', stLookup, if_pos hek']
      · rw [stLookup, if_neg hek', stLookup, if_neg hek']
        exact ih

/-- An update with an evolved node is a frozen-except-k evolution. -/
theorem stUpdate_evolveAt {st : St} {k : String} {n v : Node}
    (hl : stLookup st k = some n) (he : NodeEvolve n v) :
    StEvolveAt k st (stUpdate st k v) := by
  induction st with
  | nil => exact List.Forall₂.nil
  | cons kn rest ih =>
    by_cases hek : kn.1 = k
    · rw [stLookup, if_pos hek] at hl
      obtain rfl : kn.2 = n := by injection hl
      rw [stUpdate, if_pos hek]
      refine List.Forall₂.cons ⟨rfl, he, fun _ hne => absurd hek hne⟩ (stEvolve_at k (stEvolve_refl rest))
    · rw [stLookup, if_neg hek] at hl
      rw [stUpdate, if_neg hek]
      exact List.Forall₂.cons ⟨rfl, nodeEvolve_refl kn.2, fun _ _ => rfl⟩ (ih hl)

/-- The caches have distinct keys, as a Python dict does. -/
def KeysNodup (st : St) : Prop := (st.map Prod.fst).Nodup

/-- Frozen-except-k evolution is full evolution when k is absent. -/
theorem stEvolveAt_notMem {k : String} {st st' : St}
    (h : StEvolveAt k st st') (hk : k ∉ st.map Prod.fst) : StEvolve st st' := by
  induction h with
  | nil => exact List.Forall₂.nil
  | @cons kn kn' rest rest' hkn hrest ih =>
    have hne : kn.1 ≠ k := fun he => hk (by simp [he])
    refine List.Forall₂.cons ⟨hkn.1, hkn.2.1, fun hs => hkn.2.2 hs hne⟩
      (ih fun hm => hk (by simp [List.mem_map] at hm ⊢; tauto))

/-- Frozen-except-k evolution is full evolution when k is not yet
computed in the source (keys distinct). -/
theorem stEvolveAt_toFull {k : String} {st st' : St}
    (h : StEvolveAt k st st') (hnd : KeysNodup st)
    (hk : ∀ n, stLookup st k = some n → n.satisfied = none) : StEvolve st st' := by
  induction h with
  | nil => exact List.Forall₂.nil
  | @cons kn kn' rest rest' hkn hrest ih =>
    have hnd' : (kn.1 :: rest.map Prod.fst).Nodup := hnd
    by_cases hek : kn.1 = k
    · have hsat := hk kn.2 (by rw [stLookup, if_pos hek])
      refine List.Forall₂.cons ⟨hkn.1, hkn.2.1, fun hs => ?_⟩ ?_
      · rw [hsat] at hs
        simp at hs
      · exact stEvolveAt_notMem hrest (hek ▸ (List.nodup_cons.mp hnd').1)
    · refine List.Forall₂.cons ⟨hkn.1, hkn.2.1, fun hs => hkn.2.2 hs hek⟩ ?_
      refine ih (List.nodup_cons.mp hnd').2 ?_
      intro n hn
      apply hk
      rw [stLookup, if_neg hek]
      exact hn

/-- Right-to-left membership along a Forall₂ relation. -/
theorem forall₂_mem_right {α β : Type} {R : α → β → Prop} {l : List α} {l' : List β}
    (h : List.Forall₂ R l l') : ∀ b ∈ l', ∃ a ∈ l, R a b := by
  induction h with
  | nil => intro b hb; simp at hb
  | cons hab _ ih =>
    intro b hb
    rcases List.mem_cons.mp hb with rfl | hb'
    · exact ⟨_, by simp, hab⟩
    · obtain ⟨a, ha, hr⟩ := ih b hb'
      exact ⟨a, by simp [ha], hr⟩

/-- Flattened dependency skeletons transfer along slice skeleton
equality. -/
theorem flat_skel : ∀ (ss' ss : List ArchSlice),
    ss'.map sliceSkel = ss.map sliceSkel →
    (ss'.flatMap ArchSlice.dependencies).map depSkel =
      (ss.flatMap ArchSlice.dependencies).map depSkel := by
  intro ss'
  induction ss' with
  | nil =>
    intro ss h
    cases ss with
    | nil => rfl
    | cons s ss => simp at h
  | cons s' rest' ih =>
    intro ss h
    cases ss with
    | nil => simp at h
    | cons s rest =>
      simp only [List.map_cons, List.cons.injEq] at h
      have hdeps : s'.dependencies.map depSkel = s.dependencies.map depSkel := by
        have := congrArg (fun t : String × List String × List DepCore => t.2.2) h.1
        simpa [sliceSkel] using this
      simp only [List.flatMap_cons, List.map_append, hdeps, ih rest h.2]

/-- Dependency skeletons of a node transfer along node evolution. -/
theorem nodeDeps_skel {n n' : Node} (h : NodeEvolve n n') :
    (nodeDeps n').map depSkel = (nodeDeps n).map depSkel := by
  obtain ⟨_, _, _, ha⟩ := h
  cases hn' : n'.arch with
  | none =>
    cases hn : n.arch with
    | none => simp [nodeDeps, hn, hn']
    | some ss => rw [hn', hn] at ha; simp at ha
  | some ss' =>
    cases hn : n.arch with
    | none => rw [hn', hn] at ha; simp at ha
    | some ss =>
      rw [hn', hn] at ha
      simp only [Option.map_some', Option.some.injEq] at ha
      simp only [nodeDeps, hn, hn', Option.getD_some]
      exact flat_skel ss' ss ha

/-- Edge test and cache key are functions of the skeleton. -/
theorem skel_eq_edge {d d' : Dep} (h : depSkel d' = depSkel d) :
    depIsEdge d' = depIsEdge d ∧ depCacheKey d'.core = depCacheKey d.core := by
  have hp : d'.core.path = d.core.path := by
    have := congrArg DepCore.path h
    simpa [depSkel] using this
  have hs : d'.core.system = d.core.system := by
    have := congrArg DepCore.system h
    simpa [depSkel] using this
  have hr : d'.core.restrictarch = d.core.restrictarch := by
    have := congrArg DepCore.restrictarch h
    simpa [depSkel] using this
  have he : d'.core.executablePath = d.core.executablePath := by
    have := congrArg DepCore.executablePath h
    simpa [depSkel] using this
  have hst : d'.core.parentRpathStack = d.core.parentRpathStack := by
    have := congrArg DepCore.parentRpathStack h
    simpa [depSkel] using this
  constructor
  · simp [depIsEdge, hp, hs]
  · simp [depCacheKey, DepCore.keyFields, hp, hr, he, hst]

/-- Skeleton partner of a member of a skeleton-equal list. -/
theorem mem_skel_partner {l l' : List Dep} (h : l'.map depSkel = l.map depSkel)
    {d' : Dep} (hd : d' ∈ l') : ∃ d ∈ l, depSkel d = depSkel d' := by
  have : depSkel d' ∈ l.map depSkel := h ▸ List.mem_map_of_mem depSkel hd
  obtain ⟨d, hdm, hde⟩ := List.mem_map.mp this
  exact ⟨d, hdm, hde⟩

/-! ## Satisfiability pass: cache well-formedness predicates -/

/-- Every resolved non-system descriptor has its child in the cache. -/
def ClosedSt (st : St) : Prop :=
  ∀ kn ∈ st, ∀ d ∈ nodeDeps kn.2, depIsEdge d = true →
    (stLookup st (depCacheKey d.core)).isSome = true

/-- A rank certificate of acyclicity: the rank strictly drops along
every resolved non-system dependency edge. -/
def RankOK (rank : String → Nat) (st : St) : Prop :=
  ∀ kn ∈ st, ∀ d ∈ nodeDeps kn.2, depIsEdge d = true →
    rank (depCacheKey d.core) < rank kn.1

/-- A computed satisfied always comes with a missing list. -/
def SetWF (st : St) : Prop :=
  ∀ kn ∈ st, kn.2.satisfied.isSome = true → kn.2.missing.isSome = true

/-- A computed excluded always comes with a computed satisfied. -/
def ExclWF (st : St) : Prop :=
  ∀ kn ∈ st, kn.2.excluded.isSome = true → kn.2.satisfied.isSome = true

/-- A parsed node has its arch dict. -/
def ArchWF (st : St) : Prop :=
  ∀ kn ∈ st, kn.2.parsed.getD false = true → kn.2.arch.isSome = true

/-- A node with dependency descriptors is a parsed node. -/
def DepsParsedWF (st : St) : Prop :=
  ∀ kn ∈ st, nodeDeps kn.2 ≠ [] → kn.2.parsed.getD false = true

/-- The cache as the traversal leaves it: no satisfiability data yet. -/
def FreshSt (st : St) : Prop :=
  ∀ kn ∈ st, kn.2.satisfied = none ∧ kn.2.excluded = none

/-- Number of entries still waiting for the pass. -/
def unsetCount : St → Nat
  | [] => 0
  | kn :: rest => (if kn.2.satisfied.isNone then 1 else 0) + unsetCount rest

/-- Lookup success is stable under evolution. -/
theorem stLookup_isSome_evolveAt {k : String} {st st' : St}
    (h : StEvolveAt k st st') (x : String) :
    (stLookup st' x).isSome = (stLookup st x).isSome := by
  cases hl : stLookup st x with
  | none =>
    cases hl' : stLookup st' x with
    | none => rfl
    | some n' =>
      obtain ⟨n, hn, _, _⟩ := stLookup_evolveAt_rev h x n' hl'
      rw [hn] at hl
      cases hl
  | some n =>
    obtain ⟨n', hn', _, _⟩ := stLookup_evolveAt h x n hl
    rw [hn']
    rfl

/-- Keys are stable under evolution. -/
theorem keys_evolveAt {k : String} {st st' : St} (h : StEvolveAt k st st') :
    st'.map Prod.fst = st.map Prod.fst := by
  induction h with
  | nil => rfl
  | cons hk _ ih => simp [ih, hk.1]

/-- Closedness is stable under evolution. -/
theorem closed_evolveAt {k : String} {st st' : St}
    (h : StEvolveAt k st st') (hc : ClosedSt st) : ClosedSt st' := by
  intro kn' hm' d' hd' hedge
  obtain ⟨kn, hm, hr⟩ := forall₂_mem_right h kn' hm'
  obtain ⟨d, hdm, hde⟩ := mem_skel_partner (nodeDeps_skel hr.2.1) hd'
  obtain ⟨hee, hke⟩ := skel_eq_edge hde
  rw [stLookup_isSome_evolveAt h, ← hke]
  exact hc kn hm d hdm (hee.trans hedge)

/-- The rank certificate is stable under evolution. -/
theorem rankOK_evolveAt {k : String} {rank : String → Nat} {st st' : St}
    (h : StEvolveAt k st st') (hr : RankOK rank st) : RankOK rank st' := by
  intro kn' hm' d' hd' hedge
  obtain ⟨kn, hm, hrel⟩ := forall₂_mem_right h kn' hm'
  obtain ⟨d, hdm, hde⟩ := mem_skel_partner (nodeDeps_skel hrel.2.1) hd'
  obtain ⟨hee, hke⟩ := skel_eq_edge hde
  rw [← hke, hrel.1]
  exact hr kn hm d hdm (hee.trans hedge)

/-- Arch well-formedness is stable under evolution. -/
theorem archWF_evolveAt {k : String} {st st' : St}
    (h : StEvolveAt k st st') (ha : ArchWF st) : ArchWF st' := by
  intro kn' hm' hp
  obtain ⟨kn, hm, hrel⟩ := forall₂_mem_right h kn' hm'
  have hps : kn.2.parsed.getD false = true := hrel.2.1.2.2.1 ▸ hp
  have := ha kn hm hps
  have harch := hrel.2.1.2.2.2
  cases hn' : kn'.2.arch with
  | none =>
    rw [hn'] at harch
    cases hn : kn.2.arch with
    | none => rw [hn] at this; simp at this
    | some ss => rw [hn] at harch; simp at harch
  | some ss' => rfl

/-- Deps-imply-parsed is stable under evolution. -/
theorem depsParsedWF_evolveAt {k : String} {st st' : St}
    (h : StEvolveAt k st st') (ha : DepsParsedWF st) : DepsParsedWF st' := by
  intro kn' hm' hne
  obtain ⟨kn, hm, hrel⟩ := forall₂_mem_right h kn' hm'
  rw [hrel.2.1.2.2.1]
  apply ha kn hm
  intro hnil
  apply hne
  have := nodeDeps_skel hrel.2.1
  rw [hnil] at this
  simpa using this

/-- Count of waiting entries never grows along full evolution. -/
theorem unsetCount_evolve_le {st st' : St} (h : StEvolve st st') :
    unsetCount st' ≤ unsetCount st := by
  induction h with
  | nil => exact Nat.le_refl _
  | @cons kn kn' rest rest' hk _ ih =>
    have hent : (if kn'.2.satisfied.isNone then 1 else 0) ≤
        (if kn.2.satisfied.isNone then 1 else 0) := by
      by_cases hs : kn.2.satisfied.isSome = true
      · rw [hk.2.2 hs]
      · have hnone : kn.2.satisfied.isNone = true := by
          cases hsv : kn.2.satisfied with
          | none => rfl
          | some b => rw [hsv] at hs; simp at hs
        rw [if_pos hnone]
        split <;> omega
    show (if kn'.2.satisfied.isNone then 1 else 0) + unsetCount rest' ≤
      (if kn.2.satisfied.isNone then 1 else 0) + unsetCount rest
    omega

/-- Updating with a computed node never grows the waiting count. -/
theorem unsetCount_stUpdate_le {st : St} {k : String} {v : Node}
    (hv : v.satisfied.isSome = true) :
    unsetCount (stUpdate st k v) ≤ unsetCount st := by
  have hvn : v.satisfied.isNone = false := by
    cases hsv : v.satisfied with
    | none => rw [hsv] at hv; simp at hv
    | some b => rfl
  induction st with
  | nil => exact Nat.le_refl _
  | cons kn rest ih =>
    by_cases hek : kn.1 = k
    · rw [stUpdate, if_pos hek]
      show (if v.satisfied.isNone then 1 else 0) + unsetCount rest ≤
        (if kn.2.satisfied.isNone then 1 else 0) + unsetCount rest
      have h0 : (if v.satisfied.isNone = true then 1 else 0) = 0 := by rw [hvn]; rfl
      rw [h0]
      omega
    · rw [stUpdate, if_neg hek]
      show (if kn.2.satisfied.isNone then 1 else 0) + unsetCount (stUpdate rest k v) ≤
        (if kn.2.satisfied.isNone then 1 else 0) + unsetCount rest
      exact Nat.add_le_add_left ih _

/-- Computing a waiting entry strictly shrinks the waiting count. -/
theorem unsetCount_stUpdate_lt {st : St} {k : String} {n v : Node}
    (hl : stLookup st k = some n) (hn : n.satisfied = none)
    (hv : v.satisfied.isSome = true) :
    unsetCount (stUpdate st k v) < unsetCount st := by
  have hvn : v.satisfied.isNone = false := by
    cases hsv : v.satisfied with
    | none => rw [hsv] at hv; simp at hv
    | some b => rfl
  induction st with
  | nil => simp [stLookup] at hl
  | cons kn rest ih =>
    by_cases hek : kn.1 = k
    · rw [stLookup, if_pos hek] at hl
      obtain rfl : kn.2 = n := by injection hl
      rw [stUpdate, if_pos hek]
      show (if v.satisfied.isNone then 1 else 0) + unsetCount rest <
        (if kn.2.satisfied.isNone then 1 else 0) + unsetCount rest
      have h0 : (if v.satisfied.isNone = true then 1 else 0) = 0 := by rw [hvn]; rfl
      have h1 : (if kn.2.satisfied.isNone = true then 1 else 0) = 1 := by rw [hn]; rfl
      rw [h0, h1]
      omega
    · rw [stLookup, if_neg hek] at hl
      rw [stUpdate, if_neg hek]
      show (if kn.2.satisfied.isNone then 1 else 0) + unsetCount (stUpdate rest k v) <
        (if kn.2.satisfied.isNone then 1 else 0) + unsetCount rest
      have := ih hl
      omega

/-- A successful lookup is a member. -/
theorem stLookup_mem {st : St} {k : String} {n : Node}
    (h : stLookup st k = some n) : (k, n) ∈ st := by
  induction st with
  | nil => simp [stLookup] at h
  | cons kn rest ih =>
    cases kn with
    | mk k₀ n₀ =>
      by_cases hek : k₀ = k
      · rw [stLookup, if_pos hek] at h
        obtain rfl : n₀ = n := by injection h
        subst hek
        exact List.mem_cons_self _ _
      · rw [stLookup, if_neg hek] at h
        exact List.mem_cons_of_mem _ (ih h)

/-- Members of an updated cache. -/
theorem mem_stUpdate {st : St} {k : String} {v : Node} :
    ∀ kn' ∈ stUpdate st k v, kn' ∈ st ∨ kn'.2 = v := by
  induction st with
  | nil => intro kn' h; simp [stUpdate] at h
  | cons kn rest ih =>
    intro kn' h
    by_cases hek : kn.1 = k
    · rw [stUpdate, if_pos hek] at h
      rcases List.mem_cons.mp h with rfl | hm
      · exact Or.inr rfl
      · exact Or.inl (List.mem_cons_of_mem _ hm)
    · rw [stUpdate, if_neg hek] at h
      rcases List.mem_cons.mp h with rfl | hm
      · exact Or.inl (List.mem_cons_self _ _)
      · rcases ih kn' hm with h1 | h2
        · exact Or.inl (List.mem_cons_of_mem _ h1)
        · exact Or.inr h2

/-- SetWF after an update with a well-formed node. -/
theorem setWF_stUpdate {st : St} {k : String} {v : Node} (h : SetWF st)
    (hv : v.satisfied.isSome = true → v.missing.isSome = true) :
    SetWF (stUpdate st k v) := by
  intro kn' hm hs
  rcases mem_stUpdate kn' hm with h1 | h2
  · exact h kn' h1 hs
  · rw [h2] at hs ⊢
    exact hv hs

/-- ExclWF after an update with a well-formed node. -/
theorem exclWF_stUpdate {st : St} {k : String} {v : Node} (h : ExclWF st)
    (hv : v.excluded.isSome = true → v.satisfied.isSome = true) :
    ExclWF (stUpdate st k v) := by
  intro kn' hm hs
  rcases mem_stUpdate kn' hm with h1 | h2
  · exact h kn' h1 hs
  · rw [h2] at hs ⊢
    exact hv hs

/-- Writing exclusion data does not change the skeleton. -/
theorem depSkel_withExclusion (d : Dep) (e : Bool) (p : Option String) (i : String) :
    depSkel (d.withExclusion e p i) = depSkel d := by
  cases d with
  | mk core mt => rfl

/-- The skeleton only reads the core. -/
theorem depSkel_eq_core (d : Dep) :
    depSkel d = { d.core with excluded := none, pattern := none, exclusionId := none } := by
  cases d with
  | mk core mt => rfl

/-- The basic contract of the recursive call available to the loops. -/
def RecurseBasic (recurse : St → String → List String → Option (St × Bool × List Dep)) :
    Prop :=
  ∀ st k a st' b m, recurse st k a = some (st', b, m) → KeysNodup st →
    StEvolve st st' ∧ (SetWF st → SetWF st') ∧ (ExclWF st → ExclWF st') ∧
    ∃ n', stLookup st' k = some n' ∧ n'.satisfied = some b ∧ n'.missing = some m

/-- Basic contract of the dependency step body: evolution frozen except
at the node being checked, well-formedness preserved, skeleton
unchanged. -/
theorem checkDepStepGo_basic
    {recurse : St → String → List String → Option (St × Bool × List Dep)}
    (hrec : RecurseBasic recurse) {key : String} {anc : List String}
    {st : St} {dep₁ : Dep} {st' : St} {d' : Dep}
    (h : checkDepStepGo recurse key anc st dep₁ = some (st', d'))
    (hnd : KeysNodup st) :
    StEvolveAt key st st' ∧ (SetWF st → SetWF st') ∧ (ExclWF st → ExclWF st') ∧
    depSkel d' = depSkel dep₁ := by
  unfold checkDepStepGo at h
  cases hp : dep₁.core.path with
  | none =>
    simp only [hp] at h
    cases hl : stLookup st key with
    | none =>
      simp only [hl] at h
      exact Option.noConfusion h
    | some n =>
      simp only [hl] at h
      cases hm : n.missing with
      | none =>
        simp only [hm] at h
        exact Option.noConfusion h
      | some miss =>
        simp only [hm, Option.some.injEq] at h
        injection h with hst hd
        subst hst
        subst hd
        by_cases hrc : (!(dep₁.core.excluded.getD false)) = true
        · rw [if_pos hrc]
          refine ⟨stUpdate_evolveAt hl ⟨rfl, rfl, rfl, rfl⟩, ?_, ?_, rfl⟩
          · intro hwf
            exact setWF_stUpdate hwf (fun _ => rfl)
          · intro hwf
            exact exclWF_stUpdate hwf (fun _ => rfl)
        · rw [if_neg hrc]
          refine ⟨stUpdate_evolveAt hl ⟨rfl, rfl, rfl, rfl⟩, ?_, ?_, rfl⟩
          · intro hwf
            exact setWF_stUpdate hwf (fun _ => rfl)
          · intro hwf
            exact exclWF_stUpdate hwf
              (fun hexc => hwf (key, n) (stLookup_mem hl) hexc)
  | some p =>
    simp only [hp] at h
    by_cases hsys : dep₁.core.system.getD false = true
    · rw [if_pos hsys] at h
      simp only [Option.some.injEq] at h
      injection h with hst hd
      subst hst
      subst hd
      exact ⟨stEvolve_at key (stEvolve_refl _), fun hwf => hwf, fun hwf => hwf, rfl⟩
    · rw [if_neg hsys] at h
      cases hc : recurse st (depCacheKey dep₁.core) anc with
      | none =>
        simp only [hc] at h
        exact Option.noConfusion h
      | some res =>
        obtain ⟨st₂, sat, miss⟩ := res
        simp only [hc] at h
        obtain ⟨hev₂, hset₂, hexc₂, _⟩ :=
          hrec st (depCacheKey dep₁.core) anc st₂ sat miss hc hnd
        by_cases hsat : (!sat) = true
        · rw [if_pos hsat] at h
          cases hl : stLookup st₂ key with
          | none =>
            simp only [hl] at h
            exact Option.noConfusion h
          | some n =>
            simp only [hl] at h
            cases hm : n.missing with
            | none =>
              simp only [hm] at h
              exact Option.noConfusion h
            | some ms =>
              simp only [hm, Option.some.injEq] at h
              injection h with hst hd
              subst hst
              subst hd
              refine ⟨stEvolveAt_trans (stEvolve_at key hev₂)
                (stUpdate_evolveAt hl ⟨rfl, rfl, rfl, rfl⟩), ?_, ?_, ?_⟩
              · intro hwf
                exact setWF_stUpdate (hset₂ hwf) (fun _ => rfl)
              · intro hwf
                exact exclWF_stUpdate (hexc₂ hwf) (fun _ => rfl)
              · rw [depSkel_eq_core, depSkel_eq_core]
                rfl
        · rw [if_neg hsat] at h
          simp only [Option.some.injEq] at h
          injection h with hst hd
          subst hst
          subst hd
          exact ⟨stEvolve_at key hev₂, hset₂, hexc₂, rfl⟩

/-- Basic contract of one dependency step. -/
theorem checkDepStep_basic {ex : List Excl}
    {recurse : St → String → List String → Option (St × Bool × List Dep)}
    (hrec : RecurseBasic recurse) {key : String} {anc : List String}
    {st : St} {d : Dep} {st' : St} {d' : Dep}
    (h : checkDepStep ex recurse key anc st d = some (st', d'))
    (hnd : KeysNodup st) :
    StEvolveAt key st st' ∧ (SetWF st → SetWF st') ∧ (ExclWF st → ExclWF st') ∧
    depSkel d' = depSkel d := by
  unfold checkDepStep at h
  obtain ⟨h1, h2, h3, h4⟩ := checkDepStepGo_basic hrec h hnd
  exact ⟨h1, h2, h3, h4.trans (depSkel_withExclusion d _ _ _)⟩

/-- Basic contract of the dependency list fold. -/
theorem checkDepsList_basic {ex : List Excl}
    {recurse : St → String → List String → Option (St × Bool × List Dep)}
    (hrec : RecurseBasic recurse) {key : String} {anc : List String} :
    ∀ {ds : List Dep} {st : St} {st' : St} {ds' : List Dep},
      checkDepsList ex recurse key anc st ds = some (st', ds') → KeysNodup st →
      StEvolveAt key st st' ∧ (SetWF st → SetWF st') ∧ (ExclWF st → ExclWF st') ∧
      ds'.map depSkel = ds.map depSkel := by
  intro ds
  induction ds with
  | nil =>
    intro st st' ds' h hnd
    unfold checkDepsList at h
    simp only [Option.some.injEq] at h
    injection h with hst hd
    subst hst
    subst hd
    exact ⟨stEvolve_at key (stEvolve_refl _), fun hwf => hwf, fun hwf => hwf, rfl⟩
  | cons d ds ih =>
    intro st st' ds' h hnd
    unfold checkDepsList at h
    cases h₁ : checkDepStep ex recurse key anc st d with
    | none =>
      simp only [h₁] at h
      exact Option.noConfusion h
    | some res₁ =>
      obtain ⟨st₁, d₁⟩ := res₁
      simp only [h₁] at h
      cases h₂ : checkDepsList ex recurse key anc st₁ ds with
      | none =>
        simp only [h₂] at h
        exact Option.noConfusion h
      | some res₂ =>
        obtain ⟨st₂, ds₂⟩ := res₂
        simp only [h₂, Option.some.injEq] at h
        injection h with hst hd
        subst hst
        subst hd
        obtain ⟨he₁, hs₁, hx₁, hk₁⟩ := checkDepStep_basic hrec h₁ hnd
        have hnd₁ : KeysNodup st₁ := by
          unfold KeysNodup
          rw [keys_evolveAt he₁]
          exact hnd
        obtain ⟨he₂, hs₂, hx₂, hk₂⟩ := ih h₂ hnd₁
        refine ⟨stEvolveAt_trans he₁ he₂, fun hwf => hs₂ (hs₁ hwf),
          fun hwf => hx₂ (hx₁ hwf), ?_⟩
        simp only [List.map_cons, hk₂, hk₁]

/-- Basic contract of the arch slice fold. -/
theorem checkSlices_basic {ex : List Excl}
    {recurse : St → String → List String → Option (St × Bool × List Dep)}
    (hrec : RecurseBasic recurse) {key : String} {anc : List String} :
    ∀ {ss : List ArchSlice} {st : St} {st' : St} {ss' : List ArchSlice},
      checkSlices ex recurse key anc st ss = some (st', ss') → KeysNodup st →
      StEvolveAt key st st' ∧ (SetWF st → SetWF st') ∧ (ExclWF st → ExclWF st') ∧
      ss'.map sliceSkel = ss.map sliceSkel := by
  intro ss
  induction ss with
  | nil =>
    intro st st' ss' h hnd
    unfold checkSlices at h
    simp only [Option.some.injEq] at h
    injection h with hst hs
    subst hst
    subst hs
    exact ⟨stEvolve_at key (stEvolve_refl _), fun hwf => hwf, fun hwf => hwf, rfl⟩
  | cons s ss ih =>
    intro st st' ss' h hnd
    unfold checkSlices at h
    cases h₁ : checkDepsList ex recurse key anc st s.dependencies with
    | none =>
      simp only [h₁] at h
      exact Option.noConfusion h
    | some res₁ =>
      obtain ⟨st₁, ds₁⟩ := res₁
      simp only [h₁] at h
      cases h₂ : checkSlices ex recurse key anc st₁ ss with
      | none =>
        simp only [h₂] at h
        exact Option.noConfusion h
      | some res₂ =>
        obtain ⟨st₂, ss₂⟩ := res₂
        simp only [h₂, Option.some.injEq] at h
        injection h with hst hs
        subst hst
        subst hs
        obtain ⟨he₁, hs₁, hx₁, hk₁⟩ := checkDepsList_basic hrec h₁ hnd
        have hnd₁ : KeysNodup st₁ := by
          unfold KeysNodup
          rw [keys_evolveAt he₁]
          exact hnd
        obtain ⟨he₂, hs₂, hx₂, hk₂⟩ := ih h₂ hnd₁
        refine ⟨stEvolveAt_trans he₁ he₂, fun hwf => hs₂ (hs₁ hwf),
          fun hwf => hx₂ (hx₁ hwf), ?_⟩
        simp only [List.map_cons, hk₂, List.cons.injEq]
        refine ⟨by simp [sliceSkel, hk₁], by simp⟩

/-- Basic contract of the final write-back: frozen-except-key evolution,
well-formedness, and the returned pair is what is stored on the node. -/
theorem checkNodeTail_basic {key : String} {st₂ : St} {slices' : List ArchSlice}
    {st' : St} {b : Bool} {m : List Dep}
    (h : checkNodeTail key st₂ slices' = some (st', b, m))
    (hskel : ∀ nf, stLookup st₂ key = some nf →
      nf.arch.map (List.map sliceSkel) = some (slices'.map sliceSkel)) :
    StEvolveAt key st₂ st' ∧ (SetWF st₂ → SetWF st') ∧ (ExclWF st₂ → ExclWF st') ∧
    ∃ n', stLookup st' key = some n' ∧ n'.satisfied = some b ∧ n'.missing = some m := by
  unfold checkNodeTail at h
  cases hnf : stLookup st₂ key with
  | none =>
    simp only [hnf] at h
    exact Option.noConfusion h
  | some nf =>
    simp only [hnf] at h
    cases hm₀ : nf.missing with
    | none =>
      simp only [hm₀] at h
      exact Option.noConfusion h
    | some m₀ =>
      simp only [hm₀] at h
      have hask : ({ nf with arch := some slices' } : Node).arch.map (List.map sliceSkel)
          = nf.arch.map (List.map sliceSkel) := by
        rw [hskel nf hnf]
        rfl
      by_cases hex : nf.excluded = some true
      · rw [if_pos hex] at h
        simp only [Option.some.injEq] at h
        injection h with hst hrest
        subst hst
        injection hrest with hb hm
        subst hb
        subst hm
        refine ⟨stUpdate_evolveAt hnf ⟨rfl, rfl, rfl, hask⟩, ?_, ?_, ?_⟩
        · intro hwf
          exact setWF_stUpdate hwf (fun _ => rfl)
        · intro hwf
          exact exclWF_stUpdate hwf (fun _ => rfl)
        · exact ⟨_, stLookup_stUpdate_self hnf, rfl, rfl⟩
      · rw [if_neg hex] at h
        cases hsb : nf.satisfied with
        | none =>
          simp only [hsb] at h
          exact Option.noConfusion h
        | some b₀ =>
          simp only [hsb] at h
          simp only [Option.some.injEq] at h
          injection h with hst hrest
          subst hst
          injection hrest with hb hm
          subst hb
          subst hm
          refine ⟨stUpdate_evolveAt hnf ⟨rfl, rfl, rfl, hask⟩, ?_, ?_, ?_⟩
          · intro hwf
            exact setWF_stUpdate hwf (fun _ => rfl)
          · intro hwf
            exact exclWF_stUpdate hwf (fun _ => rfl)
          · exact ⟨_, stLookup_stUpdate_self hnf, rfl, rfl⟩

/-- Basic contract of _checkNode at every fuel: full frozen evolution,
well-formedness preserved, and the returned pair is what is stored on
the node. -/
theorem checkNode_basic (ex : List Excl) :
    ∀ (fuel : Nat), RecurseBasic (checkNode ex fuel) := by
  intro fuel
  induction fuel with
  | zero =>
    intro st k a st' b m h
    exact Option.noConfusion h
  | succ fuel ih =>
    intro st key anc st' b m h hnd
    unfold checkNode at h
    cases hl : stLookup st key with
    | none =>
      simp only [hl] at h
      exact Option.noConfusion h
    | some n =>
      simp only [hl] at h
      cases hsat : n.satisfied with
      | some b₀ =>
        simp only [hsat] at h
        cases hm : n.missing with
        | none =>
          simp only [hm] at h
          exact Option.noConfusion h
        | some m₀ =>
          simp only [hm, Option.some.injEq] at h
          injection h with hst hrest
          subst hst
          injection hrest with hb hm'
          subst hb
          subst hm'
          exact ⟨stEvolve_refl _, fun hwf => hwf, fun hwf => hwf,
            n, hl, hsat, hm⟩
      | none =>
        have hkunset : ∀ n₀, stLookup st key = some n₀ → n₀.satisfied = none := by
          intro n₀ hn₀
          rw [hl] at hn₀
          obtain rfl : n = n₀ := by injection hn₀
          exact hsat
        simp only [hsat] at h
        by_cases hpar : n.parsed.getD false = true
        · rw [if_pos hpar] at h
          cases harch : n.arch with
          | none =>
            simp only [harch] at h
            exact Option.noConfusion h
          | some slices =>
            simp only [harch] at h
            set n₂ : Node :=
              { n with arch := some slices,
                       excluded := some (isExcluded n.path ex anc).1,
                       pattern := some (isExcluded n.path ex anc).2.1,
                       exclusionId := some (isExcluded n.path ex anc).2.2,
                       satisfied := some true, missing := some [] } with hn₂
            cases hsl : checkSlices ex (checkNode ex fuel) key
                (anc ++ [n.path]) (stUpdate st key n₂) slices with
            | none =>
              rw [hsl] at h
              exact Option.noConfusion h
            | some res₂ =>
              obtain ⟨st₂, slices'⟩ := res₂
              rw [hsl] at h
              have hupd : StEvolveAt key st (stUpdate st key n₂) :=
                stUpdate_evolveAt hl ⟨rfl, rfl, rfl, by rw [harch]⟩
              have hnd₁ : KeysNodup (stUpdate st key n₂) := by
                unfold KeysNodup
                rw [keys_evolveAt hupd]
                exact hnd
              obtain ⟨he₂, hs₂, hx₂, hk₂⟩ := checkSlices_basic ih hsl hnd₁
              have hl₁ : stLookup (stUpdate st key n₂) key = some n₂ :=
                stLookup_stUpdate_self hl
              obtain ⟨nf₀, hnf₀, hev₀, _⟩ := stLookup_evolveAt he₂ key n₂ hl₁
              have hskel : ∀ nf, stLookup st₂ key = some nf →
                  nf.arch.map (List.map sliceSkel) = some (slices'.map sliceSkel) := by
                intro nf hnf
                rw [hnf₀] at hnf
                obtain rfl : nf₀ = nf := by injection hnf
                have h1 : nf₀.arch.map (List.map sliceSkel) =
                    n₂.arch.map (List.map sliceSkel) := hev₀.2.2.2
                have h2 : n₂.arch = some slices := rfl
                rw [h1, h2]
                simp only [Option.map_some', Option.some.injEq]
                exact hk₂.symm
              obtain ⟨he₃, hs₃, hx₃, hstore⟩ := checkNodeTail_basic h hskel
              have hAt : StEvolveAt key st st' :=
                stEvolveAt_trans hupd (stEvolveAt_trans he₂ he₃)
              refine ⟨stEvolveAt_toFull hAt hnd hkunset, ?_, ?_, hstore⟩
              · intro hwf
                exact hs₃ (hs₂ (setWF_stUpdate hwf (fun _ => rfl)))
              · intro hwf
                exact hx₃ (hx₂ (exclWF_stUpdate hwf (fun _ => rfl)))
        · rw [if_neg hpar] at h
          simp only [Option.some.injEq] at h
          injection h with hst hrest
          subst hst
          injection hrest with hb hm'
          subst hb
          subst hm'
          have hAt : StEvolveAt key st (stUpdate st key
              { n with excluded := some (isExcluded n.path ex anc).1,
                       pattern := some (isExcluded n.path ex anc).2.1,
                       exclusionId := some (isExcluded n.path ex anc).2.2,
                       satisfied := some (isExcluded n.path ex anc).1,
                       missing := some [] }) :=
            stUpdate_evolveAt hl ⟨rfl, rfl, rfl, rfl⟩
          refine ⟨stEvolveAt_toFull hAt hnd hkunset, ?_, ?_, ?_⟩
          · intro hwf
            exact setWF_stUpdate hwf (fun _ => rfl)
          · intro hwf
            exact exclWF_stUpdate hwf (fun _ => rfl)
          · exact ⟨_, stLookup_stUpdate_self hl, rfl, rfl⟩

/-! ## Satisfiability pass: fuel sufficiency (termination) -/

/-- Invariants carried through the dependency loop of one node. -/
def SuffInv (key : String) (st : St) : Prop :=
  ClosedSt st ∧ SetWF st ∧ ArchWF st ∧ KeysNodup st ∧
  ∃ nk, stLookup st key = some nk ∧ nk.satisfied.isSome = true ∧
    nk.missing.isSome = true

/-- Sufficiency contract of the recursive call. -/
def RecurseSuff (recurse : St → String → List String → Option (St × Bool × List Dep))
    (U : Nat) : Prop :=
  ∀ st k a, ClosedSt st → SetWF st → ArchWF st → KeysNodup st →
    (stLookup st k).isSome = true → unsetCount st ≤ U →
    (recurse st k a).isSome = true

/-- Sufficiency of the dependency step body: with the loop invariants,
a bound on waiting entries and the edge child present, the step
succeeds and maintains everything. -/
theorem checkDepStepGo_suff {recurse : St → String → List String → Option (St × Bool × List Dep)}
    {U : Nat} (hrecS : RecurseSuff recurse U) (hrecB : RecurseBasic recurse)
    {key : String} {anc : List String} {st : St} {dep₁ : Dep}
    (hinv : SuffInv key st) (hU : unsetCount st ≤ U)
    (hchild : depIsEdge dep₁ = true →
      (stLookup st (depCacheKey dep₁.core)).isSome = true) :
    ∃ st' d', checkDepStepGo recurse key anc st dep₁ = some (st', d') ∧
      SuffInv key st' ∧ unsetCount st' ≤ U ∧ StEvolveAt key st st' := by
  obtain ⟨hc, hs, ha, hn, nk, hk, hks, hkm⟩ := hinv
  obtain ⟨mk₀, hmk₀⟩ := Option.isSome_iff_exists.mp hkm
  unfold checkDepStepGo
  cases hp : dep₁.core.path with
  | none =>
    simp only [hk, hmk₀]
    refine ⟨_, _, rfl, ?_, ?_, ?_⟩
    · -- invariants after the update
      have hupd : StEvolveAt key st (stUpdate st key
          (if !(dep₁.core.excluded.getD false) then
            { nk with satisfied := some false, missing := some (mk₀ ++ [dep₁]) }
          else { nk with missing := some (mk₀ ++ [dep₁]) })) := by
        refine stUpdate_evolveAt hk ?_
        by_cases hrc : (!(dep₁.core.excluded.getD false)) = true
        · rw [if_pos hrc]; exact ⟨rfl, rfl, rfl, rfl⟩
        · rw [if_neg hrc]; exact ⟨rfl, rfl, rfl, rfl⟩
      refine ⟨closed_evolveAt hupd hc, ?_, archWF_evolveAt hupd ha, ?_, ?_⟩
      · by_cases hrc : (!(dep₁.core.excluded.getD false)) = true
        · rw [if_pos hrc]
          exact setWF_stUpdate hs (fun _ => rfl)
        · rw [if_neg hrc]
          exact setWF_stUpdate hs (fun _ => rfl)
      · unfold KeysNodup
        rw [keys_evolveAt hupd]
        exact hn
      · by_cases hrc : (!(dep₁.core.excluded.getD false)) = true
        · rw [if_pos hrc]
          exact ⟨_, stLookup_stUpdate_self hk, rfl, rfl⟩
        · rw [if_neg hrc]
          exact ⟨_, stLookup_stUpdate_self hk, hks, rfl⟩
    · refine Nat.le_trans (unsetCount_stUpdate_le ?_) hU
      by_cases hrc : (!(dep₁.core.excluded.getD false)) = true
      · rw [if_pos hrc]; rfl
      · rw [if_neg hrc]; exact hks
    · refine stUpdate_evolveAt hk ?_
      by_cases hrc : (!(dep₁.core.excluded.getD false)) = true
      · rw [if_pos hrc]; exact ⟨rfl, rfl, rfl, rfl⟩
      · rw [if_neg hrc]; exact ⟨rfl, rfl, rfl, rfl⟩
  | some p =>
    simp only []
    by_cases hsys : dep₁.core.system.getD false = true
    · rw [if_pos hsys]
      exact ⟨st, dep₁, rfl, ⟨hc, hs, ha, hn, nk, hk, hks, hkm⟩, hU,
        stEvolve_at key (stEvolve_refl st)⟩
    · rw [if_neg hsys]
      have hedge : depIsEdge dep₁ = true := by
        unfold depIsEdge
        rw [hp]
        simp [hsys]
      have hcs := hrecS st (depCacheKey dep₁.core) anc hc hs ha hn (hchild hedge) hU
      obtain ⟨res, hres⟩ := Option.isSome_iff_exists.mp hcs
      obtain ⟨st₂, sat, miss⟩ := res
      simp only [hres]
      obtain ⟨hev₂, hset₂, hexc₂, _⟩ :=
        hrecB st (depCacheKey dep₁.core) anc st₂ sat miss hres hn
      have hk₂ : stLookup st₂ key = some nk := stLookup_frozen hev₂ key nk hk hks
      have hinv₂ : SuffInv key st₂ :=
        ⟨closed_evolveAt (stEvolve_at key hev₂) hc, hset₂ hs,
          archWF_evolveAt (stEvolve_at key hev₂) ha,
          by unfold KeysNodup; rw [keys_evolveAt (stEvolve_at key hev₂)]; exact hn,
          nk, hk₂, hks, hkm⟩
      have hU₂ : unsetCount st₂ ≤ U := Nat.le_trans (unsetCount_evolve_le hev₂) hU
      by_cases hsat : (!sat) = true
      · rw [if_pos hsat]
        simp only [hk₂, hmk₀]
        refine ⟨_, _, rfl, ?_, ?_, ?_⟩
        · have hupd : StEvolveAt key st₂ (stUpdate st₂ key
              { nk with satisfied := some false,
                        missing := some (mk₀ ++ [Dep.mk dep₁.core (some miss)]) }) :=
            stUpdate_evolveAt hk₂ ⟨rfl, rfl, rfl, rfl⟩
          obtain ⟨hc₂, hs₂, ha₂, hn₂, _⟩ := hinv₂
          refine ⟨closed_evolveAt hupd hc₂, setWF_stUpdate hs₂ (fun _ => rfl),
            archWF_evolveAt hupd ha₂, ?_, ?_⟩
          · unfold KeysNodup
            rw [keys_evolveAt hupd]
            exact hn₂
          · exact ⟨_, stLookup_stUpdate_self hk₂, rfl, rfl⟩
        · exact Nat.le_trans (unsetCount_stUpdate_le rfl) hU₂
        · exact stEvolveAt_trans (stEvolve_at key hev₂)
            (stUpdate_evolveAt hk₂ ⟨rfl, rfl, rfl, rfl⟩)
      · rw [if_neg hsat]
        exact ⟨st₂, dep₁, rfl, hinv₂, hU₂, stEvolve_at key hev₂⟩

/-- Sufficiency of one dependency step. -/
theorem checkDepStep_suff {ex : List Excl}
    {recurse : St → String → List String → Option (St × Bool × List Dep)}
    {U : Nat} (hrecS : RecurseSuff recurse U) (hrecB : RecurseBasic recurse)
    {key : String} {anc : List String} {st : St} {d : Dep}
    (hinv : SuffInv key st) (hU : unsetCount st ≤ U)
    (hchild : depIsEdge d = true →
      (stLookup st (depCacheKey d.core)).isSome = true) :
    ∃ st' d', checkDepStep ex recurse key anc st d = some (st', d') ∧
      SuffInv key st' ∧ unsetCount st' ≤ U ∧ StEvolveAt key st st' := by
  unfold checkDepStep
  refine checkDepStepGo_suff hrecS hrecB hinv hU ?_
  obtain ⟨hee, hke⟩ := skel_eq_edge
    (depSkel_withExclusion d (isExcluded d.subject ex anc).1
      (isExcluded d.subject ex anc).2.1 (isExcluded d.subject ex anc).2.2)
  intro hedge
  rw [hke]
  exact hchild (hee.symm.trans hedge)

/-- Sufficiency of the dependency list fold. -/
theorem checkDepsList_suff {ex : List Excl}
    {recurse : St → String → List String → Option (St × Bool × List Dep)}
    {U : Nat} (hrecS : RecurseSuff recurse U) (hrecB : RecurseBasic recurse)
    {key : String} {anc : List String} :
    ∀ {ds : List Dep} {st : St}, SuffInv key st → unsetCount st ≤ U →
      (∀ d ∈ ds, depIsEdge d = true →
        (stLookup st (depCacheKey d.core)).isSome = true) →
      ∃ st' ds', checkDepsList ex recurse key anc st ds = some (st', ds') ∧
        SuffInv key st' ∧ unsetCount st' ≤ U ∧ StEvolveAt key st st' := by
  intro ds
  induction ds with
  | nil =>
    intro st hinv hU _
    exact ⟨st, [], rfl, hinv, hU, stEvolve_at key (stEvolve_refl st)⟩
  | cons d ds ih =>
    intro st hinv hU hchild
    obtain ⟨st₁, d₁, hstep, hinv₁, hU₁, hev₁⟩ :=
      @checkDepStep_suff ex recurse U hrecS hrecB key anc st d hinv hU
        (hchild d (by simp))
    obtain ⟨st₂, ds₂, hrest, hinv₂, hU₂, hev₂⟩ := ih hinv₁ hU₁ (by
      intro d' hd' hedge
      rw [stLookup_isSome_evolveAt hev₁]
      exact hchild d' (by simp [hd']) hedge)
    refine ⟨st₂, d₁ :: ds₂, ?_, hinv₂, hU₂, stEvolveAt_trans hev₁ hev₂⟩
    simp only [checkDepsList, hstep, hrest]

/-- Sufficiency of the arch slice fold. -/
theorem checkSlices_suff {ex : List Excl}
    {recurse : St → String → List String → Option (St × Bool × List Dep)}
    {U : Nat} (hrecS : RecurseSuff recurse U) (hrecB : RecurseBasic recurse)
    {key : String} {anc : List String} :
    ∀ {ss : List ArchSlice} {st : St}, SuffInv key st → unsetCount st ≤ U →
      (∀ s ∈ ss, ∀ d ∈ s.dependencies, depIsEdge d = true →
        (stLookup st (depCacheKey d.core)).isSome = true) →
      ∃ st' ss', checkSlices ex recurse key anc st ss = some (st', ss') ∧
        SuffInv key st' ∧ unsetCount st' ≤ U ∧ StEvolveAt key st st' := by
  intro ss
  induction ss with
  | nil =>
    intro st hinv hU _
    exact ⟨st, [], rfl, hinv, hU, stEvolve_at key (stEvolve_refl st)⟩
  | cons s ss ih =>
    intro st hinv hU hchild
    obtain ⟨st₁, ds₁, hstep, hinv₁, hU₁, hev₁⟩ :=
      @checkDepsList_suff ex recurse U hrecS hrecB key anc s.dependencies st hinv hU
        (hchild s (by simp))
    obtain ⟨st₂, ss₂, hrest, hinv₂, hU₂, hev₂⟩ := ih hinv₁ hU₁ (by
      intro s' hs' d' hd' hedge
      rw [stLookup_isSome_evolveAt hev₁]
      exact hchild s' (by simp [hs']) d' hd' hedge)
    refine ⟨st₂, { s with dependencies := ds₁ } :: ss₂, ?_, hinv₂, hU₂,
      stEvolveAt_trans hev₁ hev₂⟩
    simp only [checkSlices, hstep, hrest]

/-- A looked-up waiting entry makes the waiting count positive. -/
theorem unsetCount_pos {st : St} {k : String} {n : Node}
    (hl : stLookup st k = some n) (hn : n.satisfied = none) :
    0 < unsetCount st := by
  induction st with
  | nil => simp [stLookup] at hl
  | cons kn rest ih =>
    by_cases hek : kn.1 = k
    · rw [stLookup, if_pos hek] at hl
      obtain rfl : kn.2 = n := by injection hl
      show 0 < (if kn.2.satisfied.isNone then 1 else 0) + unsetCount rest
      rw [if_pos (by rw [hn]; rfl)]
      omega
    · rw [stLookup, if_neg hek] at hl
      show 0 < (if kn.2.satisfied.isNone then 1 else 0) + unsetCount rest
      have := ih hl
      omega

/-- Claim C8 sufficiency core: with a closed, well-formed cache and more
fuel than waiting entries, _checkNode succeeds, on cyclic caches
included. -/
theorem checkNode_suff (ex : List Excl) :
    ∀ (fuel : Nat) (st : St) (key : String) (anc : List String),
      ClosedSt st → SetWF st → ArchWF st → KeysNodup st →
      (stLookup st key).isSome = true → unsetCount st < fuel →
      (checkNode ex fuel st key anc).isSome = true := by
  intro fuel
  induction fuel with
  | zero =>
    intro st key anc _ _ _ _ _ hcount
    exact absurd hcount (Nat.not_lt_zero _)
  | succ fuel ih =>
    intro st key anc hc hs ha hn hkey hcount
    obtain ⟨n, hl⟩ := Option.isSome_iff_exists.mp hkey
    unfold checkNode
    cases hsat : n.satisfied with
    | some b₀ =>
      have hm : n.missing.isSome = true :=
        hs (key, n) (stLookup_mem hl) (by rw [hsat]; rfl)
      obtain ⟨m₀, hm₀⟩ := Option.isSome_iff_exists.mp hm
      simp only [hl, hsat, hm₀]
      rfl
    | none =>
      simp only [hl, hsat]
      by_cases hpar : n.parsed.getD false = true
      · rw [if_pos hpar]
        have harchS : n.arch.isSome = true := ha (key, n) (stLookup_mem hl) hpar
        obtain ⟨slices, harch⟩ := Option.isSome_iff_exists.mp harchS
        simp only [harch]
        set n₂ : Node :=
          { n with arch := some slices,
                   excluded := some (isExcluded n.path ex anc).1,
                   pattern := some (isExcluded n.path ex anc).2.1,
                   exclusionId := some (isExcluded n.path ex anc).2.2,
                   satisfied := some true, missing := some [] } with hn₂
        have hevupd : StEvolveAt key st (stUpdate st key n₂) :=
          stUpdate_evolveAt hl ⟨rfl, rfl, rfl, by rw [harch]⟩
        have hinv₁ : SuffInv key (stUpdate st key n₂) := by
          refine ⟨closed_evolveAt hevupd hc, setWF_stUpdate hs (fun _ => rfl),
            archWF_evolveAt hevupd ha, ?_, ?_⟩
          · unfold KeysNodup
            rw [keys_evolveAt hevupd]
            exact hn
          · exact ⟨n₂, stLookup_stUpdate_self hl, rfl, rfl⟩
        have hfuelpos : 1 ≤ fuel := by
          have h1 := unsetCount_pos hl hsat
          omega
        have hU₁ : unsetCount (stUpdate st key n₂) ≤ fuel - 1 := by
          have hlt : unsetCount (stUpdate st key n₂) < unsetCount st :=
            unsetCount_stUpdate_lt hl hsat rfl
          omega
        have hrecS : RecurseSuff (checkNode ex fuel) (fuel - 1) := by
          intro st₀ k a hc₀ hs₀ ha₀ hn₀ hk₀ hU₀
          exact ih st₀ k a hc₀ hs₀ ha₀ hn₀ hk₀ (by omega)
        have hchild : ∀ s ∈ slices, ∀ d ∈ s.dependencies, depIsEdge d = true →
            (stLookup (stUpdate st key n₂) (depCacheKey d.core)).isSome = true := by
          intro s hsm d hdm hedge
          rw [stLookup_isSome_evolveAt hevupd]
          refine hc (key, n) (stLookup_mem hl) d ?_ hedge
          unfold nodeDeps
          rw [harch]
          simp only [Option.getD_some]
          exact List.mem_flatMap.mpr ⟨s, hsm, hdm⟩
        obtain ⟨st₂, slices', hsl, hinv₂, hU₂, hev₂⟩ :=
          @checkSlices_suff ex (checkNode ex fuel) (fuel - 1) hrecS
            (checkNode_basic ex fuel) key (anc ++ [n.path]) slices
            (stUpdate st key n₂) hinv₁ hU₁ hchild
        simp only [hsl]
        obtain ⟨_, _, _, _, nk₂, hk₂, hks₂, hkm₂⟩ := hinv₂
        obtain ⟨m₂, hm₂⟩ := Option.isSome_iff_exists.mp hkm₂
        unfold checkNodeTail
        simp only [hk₂, hm₂]
        by_cases hex₂ : nk₂.excluded = some true
        · rw [if_pos hex₂]
          rfl
        · rw [if_neg hex₂]
          obtain ⟨b₂, hb₂⟩ := Option.isSome_iff_exists.mp hks₂
          simp only [hb₂]
          rfl
      · rw [if_neg hpar]
        rfl

/-- Memoized nodes return their stored result at once, cache untouched. -/
theorem checkNode_memo (ex : List Excl) (fuel : Nat) (st : St) (key : String)
    (anc : List String) (n : Node) (b : Bool) (m : List Dep)
    (hl : stLookup st key = some n) (hb : n.satisfied = some b)
    (hm : n.missing = some m) :
    checkNode ex (fuel + 1) st key anc = some (st, b, m) := by
  unfold checkNode
  simp only [hl, hb, hm]

/-- Claim C8: the satisfiability pass terminates on every finite closed
cache, cyclic dependency graphs included: with fuel exceeding the number
of nodes still waiting, _checkNode returns a result, and a node whose
satisfied is already computed returns its memoized satisfied and missing
immediately with the cache unchanged (satisfied is written before
children are visited, so re-entering a node on the recursion stack takes
this memo path instead of recursing unboundedly). -/
theorem c8_pass_terminates (ex : List Excl) (st : St) (key : String)
    (anc : List String) (fuel : Nat)
    (hc : ClosedSt st) (hs : SetWF st) (ha : ArchWF st) (hn : KeysNodup st)
    (hkey : (stLookup st key).isSome = true) (hfuel : unsetCount st < fuel) :
    (checkNode ex fuel st key anc).isSome = true ∧
    (∀ n b m, stLookup st key = some n → n.satisfied = some b →
      n.missing = some m → checkNode ex fuel st key anc = some (st, b, m)) := by
  constructor
  · exact checkNode_suff ex fuel st key anc hc hs ha hn hkey hfuel
  · intro n b m hl hb hm
    cases fuel with
    | zero => omega
    | succ f => exact checkNode_memo ex f st key anc n b m hl hb hm

/-- A cyclic two-node cache: the root depends on b, which depends back on
the root and on an unresolved name. -/
def depC8 (p : String) : Dep :=
  Dep.mk { name := p, path := some p, system := some false } none

/-- Root of the cyclic witness cache. -/
def nodeC8A : Node :=
  { path := "/a", root := true, parsed := some true,
    arch := some [{ name := "arm64", dependencies := [depC8 "/b"] }] }

/-- Second node of the cyclic witness cache. -/
def nodeC8B : Node :=
  { path := "/b", parsed := some true,
    arch := some [{ name := "arm64",
                    dependencies := [depC8 "/a", Dep.mk { name := "libmiss" } none] }] }

/-- The cyclic witness cache. -/
def stC8 : St := [("/a", nodeC8A), ("/b", nodeC8B)]

/-- Witness: the pass terminates on the concrete cyclic cache. -/
theorem c8_pass_terminates_witness :
    (checkNode [] 3 stC8 "/a" []).isSome = true :=
  (c8_pass_terminates [] stC8 "/a" [] 3
    (by unfold ClosedSt; decide) (by unfold SetWF; decide)
    (by unfold ArchWF; decide) (by unfold KeysNodup; decide)
    (by decide) (by unfold unsetCount; decide)).1

/-! ## Satisfiability pass: final-value characterization -/

/-- A member of an updated cache at another key was already there. -/
theorem mem_stUpdate_ne {st : St} {k : String} {v : Node} :
    ∀ kn ∈ stUpdate st k v, kn.1 ≠ k → kn ∈ st := by
  induction st with
  | nil =>
    intro kn h
    simp [stUpdate] at h
  | cons kn₀ rest ih =>
    intro kn h hne
    by_cases hek : kn₀.1 = k
    · rw [stUpdate, if_pos hek] at h
      rcases List.mem_cons.mp h with rfl | hm
      · exact absurd hek hne
      · exact List.mem_cons_of_mem _ hm
    · rw [stUpdate, if_neg hek] at h
      rcases List.mem_cons.mp h with rfl | hm
      · exact List.mem_cons_self _ _
      · exact List.mem_cons_of_mem _ (ih kn hm hne)

/-- With distinct keys, every member is found by lookup. -/
theorem mem_stLookup {st : St} (hnd : KeysNodup st) :
    ∀ kn ∈ st, stLookup st kn.1 = some kn.2 := by
  induction st with
  | nil =>
    intro kn h
    simp at h
  | cons kn₀ rest ih =>
    intro kn h
    have hnd' : (kn₀.1 :: rest.map Prod.fst).Nodup := hnd
    rcases List.mem_cons.mp h with rfl | hm
    · rw [stLookup, if_pos rfl]
    · have hne : kn₀.1 ≠ kn.1 := by
        intro he
        exact (List.nodup_cons.mp hnd').1 (he ▸ List.mem_map_of_mem Prod.fst hm)
      rw [stLookup, if_neg hne]
      exact ih (List.nodup_cons.mp hnd').2 kn hm

/-- Whether a dependency descriptor lets its node pass the loop of
source lines 394-408: an unresolved descriptor passes exactly when it
matched an exclusion (line 398 guard); a resolved system descriptor
always passes (line 400); a resolved non-system descriptor passes
exactly when its child node is satisfied (line 402). -/
def depPassB (st : St) (d : Dep) : Bool :=
  match d.core.path with
  | none => d.core.excluded.getD false
  | some _ =>
    d.core.system.getD false ||
      (match stLookup st (depCacheKey d.core) with
       | some c => c.satisfied.getD false
       | none => false)

/-- Whether a dependency descriptor is appended to the missing list:
every unresolved descriptor is (line 397, exclusion or not); a resolved
descriptor is exactly when it is non-system and its child node is
unsatisfied (lines 404-408). -/
def depMissB (st : St) (d : Dep) : Bool :=
  match d.core.path with
  | none => true
  | some _ =>
    !(d.core.system.getD false) &&
      !(match stLookup st (depCacheKey d.core) with
        | some c => c.satisfied.getD false
        | none => false)

/-- A fully processed node: exclusion recorded, and satisfied and
missing hold exactly what the pass computes from the cached children --
for a parsed node satisfied is the excluded override or the conjunction
of the per-descriptor passes, and missing collects exactly the failing
descriptors; for an unparsed node satisfied is the exclusion flag and
missing is empty (source lines 385-388 and 393-413). -/
def GoodNode (st : St) (n : Node) : Prop :=
  n.excluded.isSome = true ∧
  (n.parsed.getD false = true →
    (∀ d ∈ nodeDeps n, depIsEdge d = true →
      ∃ c, stLookup st (depCacheKey d.core) = some c ∧
        c.satisfied.isSome = true ∧ c.missing.isSome = true) ∧
    n.satisfied = some (n.excluded.getD false || (nodeDeps n).all (depPassB st)) ∧
    n.missing = some ((nodeDeps n).filter (depMissB st))) ∧
  (n.parsed.getD false = false →
    n.satisfied = some (n.excluded.getD false) ∧ n.missing = some [])

/-- Every computed node of the cache is fully processed. -/
def GoodAll (st : St) : Prop :=
  ∀ kn ∈ st, kn.2.satisfied.isSome = true → GoodNode st kn.2

/-- Every computed node of rank below R, other than the one being
processed, is fully processed. -/
def GoodBelowExc (rank : String → Nat) (R : Nat) (k : String) (st : St) : Prop :=
  ∀ kn ∈ st, kn.1 ≠ k → rank kn.1 < R → kn.2.satisfied.isSome = true →
    GoodNode st kn.2

/-- The node under a key is fully processed if computed. -/
def KeyGood (k : String) (st : St) : Prop :=
  ∀ n, stLookup st k = some n → n.satisfied.isSome = true → GoodNode st n

/-- The global invariant of the final-value development. -/
def MainInv (rank : String → Nat) (st : St) : Prop :=
  ClosedSt st ∧ SetWF st ∧ ExclWF st ∧ ArchWF st ∧ DepsParsedWF st ∧
    KeysNodup st ∧ RankOK rank st

/-- Pointwise equal predicates give equal all-tests. -/
theorem list_all_congr {α : Type} {l : List α} {f g : α → Bool}
    (h : ∀ x ∈ l, f x = g x) : l.all f = l.all g := by
  induction l with
  | nil => rfl
  | cons x xs ih =>
    rw [List.all_cons, List.all_cons, h x (List.mem_cons_self x xs),
      ih (fun y hy => h y (List.mem_cons_of_mem x hy))]

/-- Pointwise equal predicates give equal filters. -/
theorem list_filter_congr {α : Type} {l : List α} {f g : α → Bool}
    (h : ∀ x ∈ l, f x = g x) : l.filter f = l.filter g := by
  induction l with
  | nil => rfl
  | cons x xs ih =>
    rw [List.filter_cons, List.filter_cons, h x (List.mem_cons_self x xs),
      ih (fun y hy => h y (List.mem_cons_of_mem x hy))]

/-- Equal skeletons agree on every field the pass reads. -/
theorem skel_eq_fields {d d' : Dep} (h : depSkel d' = depSkel d) :
    d'.core.name = d.core.name ∧ d'.core.path = d.core.path ∧
    d'.core.parentRpathStack = d.core.parentRpathStack ∧
    d'.core.restrictarch = d.core.restrictarch ∧
    d'.core.system = d.core.system ∧
    d'.core.executablePath = d.core.executablePath := by
  cases d with
  | mk c mt =>
    cases d' with
    | mk c' mt' =>
      unfold depSkel Dep.core at h
      injection h with h1 h2 h3 h4 h5 h6 _ _ _
      exact ⟨h1, h2, h3, h4, h5, h6⟩

/-- Equal skeletons give equal resolution fields. -/
theorem skel_eq_path {d d' : Dep} (h : depSkel d' = depSkel d) :
    d'.core.path = d.core.path :=
  (skel_eq_fields h).2.1

/-- Equal skeletons give equal system flags. -/
theorem skel_eq_system {d d' : Dep} (h : depSkel d' = depSkel d) :
    d'.core.system = d.core.system :=
  (skel_eq_fields h).2.2.2.2.1

/-- Equal skeletons give equal cache keys. -/
theorem skel_eq_cacheKey {d d' : Dep} (h : depSkel d' = depSkel d) :
    depCacheKey d'.core = depCacheKey d.core := by
  obtain ⟨h1, h2, h3, h4, h5, h6⟩ := skel_eq_fields h
  unfold depCacheKey DepCore.keyFields
  rw [h2, h3, h4, h6]

/-- The pass value of a descriptor only reads the cache at its child
key. -/
theorem depPassB_congr {st st' : St} {d : Dep}
    (h : depIsEdge d = true →
      stLookup st' (depCacheKey d.core) = stLookup st (depCacheKey d.core)) :
    depPassB st' d = depPassB st d := by
  unfold depPassB
  cases hp : d.core.path with
  | none => rfl
  | some p =>
    by_cases hsys : d.core.system.getD false = true
    · rw [hsys]
      rfl
    · have hs' : d.core.system.getD false = false := Bool.eq_false_iff.mpr hsys
      have hedge : depIsEdge d = true := by
        unfold depIsEdge
        rw [hp, hs']
        rfl
      rw [h hedge]

/-- The missing test of a descriptor only reads the cache at its child
key. -/
theorem depMissB_congr {st st' : St} {d : Dep}
    (h : depIsEdge d = true →
      stLookup st' (depCacheKey d.core) = stLookup st (depCacheKey d.core)) :
    depMissB st' d = depMissB st d := by
  unfold depMissB
  cases hp : d.core.path with
  | none => rfl
  | some p =>
    by_cases hsys : d.core.system.getD false = true
    · rw [hsys]
      rfl
    · have hs' : d.core.system.getD false = false := Bool.eq_false_iff.mpr hsys
      have hedge : depIsEdge d = true := by
        unfold depIsEdge
        rw [hp, hs']
        rfl
      rw [h hedge]

/-- Full processedness only reads the cache at the node's edge child
keys. -/
theorem goodNode_congr {st st' : St} {n : Node}
    (h : n.parsed.getD false = true → ∀ d ∈ nodeDeps n, depIsEdge d = true →
      stLookup st' (depCacheKey d.core) = stLookup st (depCacheKey d.core))
    (hg : GoodNode st n) : GoodNode st' n := by
  obtain ⟨hexc, hpar, hnpar⟩ := hg
  refine ⟨hexc, ?_, hnpar⟩
  intro hp
  obtain ⟨hch, hsat, hmiss⟩ := hpar hp
  refine ⟨?_, ?_, ?_⟩
  · intro d hd hedge
    obtain ⟨c, hc1, hc2, hc3⟩ := hch d hd hedge
    exact ⟨c, (h hp d hd hedge).trans hc1, hc2, hc3⟩
  · rw [hsat, list_all_congr (fun d hd => depPassB_congr (fun he => h hp d hd he))]
  · rw [hmiss, list_filter_congr (fun d hd => depMissB_congr (fun he => h hp d hd he))]

/-- Full processedness survives frozen evolution. -/
theorem goodNode_evolve {st st' : St} {n : Node} (h : StEvolve st st')
    (hg : GoodNode st n) : GoodNode st' n := by
  refine goodNode_congr ?_ hg
  intro hp d hd hedge
  obtain ⟨c, hc1, hc2, _⟩ := (hg.2.1 hp).1 d hd hedge
  rw [hc1]
  exact stLookup_frozen h _ c hc1 hc2

/-- Processed nodes below the current rank survive an update at the
current key. -/
theorem goodBelowExc_stUpdate {rank : String → Nat} {key : String} {st : St}
    {v : Node} (hrk : RankOK rank st)
    (hg : GoodBelowExc rank (rank key + 1) key st) :
    GoodBelowExc rank (rank key + 1) key (stUpdate st key v) := by
  intro kn hm hne hr hs
  have hm' : kn ∈ st := mem_stUpdate_ne kn hm hne
  refine goodNode_congr ?_ (hg kn hm' hne hr hs)
  intro hp d hd hedge
  refine stLookup_stUpdate_ne v ?_
  have hlt := hrk kn hm' d hd hedge
  intro he
  rw [he] at hlt
  omega

/-- Exemption at a lower-rank key follows from exemption at the current
key. -/
theorem goodBelowExc_shrink {rank : String → Nat} {key c : String} {st : St}
    (hlt : rank c < rank key)
    (hg : GoodBelowExc rank (rank key + 1) key st) :
    GoodBelowExc rank (rank c + 1) c st := by
  intro kn hm hne hr hs
  refine hg kn hm ?_ (by omega) hs
  intro he
  rw [he] at hr
  omega

/-- A computed lower-rank key node is fully processed. -/
theorem keyGood_of_goodBelowExc {rank : String → Nat} {key c : String} {st : St}
    (hlt : rank c < rank key)
    (hg : GoodBelowExc rank (rank key + 1) key st) : KeyGood c st := by
  intro n hl hs
  refine hg (c, n) (stLookup_mem hl) ?_ (show rank c < rank key + 1 by omega) hs
  intro he
  have he' : c = key := he
  rw [he'] at hlt
  omega

/-- Restoring the loop exemption after a recursive call on a lower-rank
child. -/
theorem goodBelowExc_after_call {rank : String → Nat} {key c : String}
    {st st' : St} (hev : StEvolve st st')
    (hnd' : KeysNodup st')
    (hg : GoodBelowExc rank (rank key + 1) key st)
    (hg' : GoodBelowExc rank (rank c + 1) c st')
    (hstored : ∀ n', stLookup st' c = some n' → GoodNode st' n')
    (hbound : ∀ x, rank c < rank x → stLookup st' x = stLookup st x) :
    GoodBelowExc rank (rank key + 1) key st' := by
  intro kn hm hne hr hs
  by_cases hc : rank kn.1 ≤ rank c
  · by_cases hkc : kn.1 = c
    · exact hstored kn.2 (hkc ▸ mem_stLookup hnd' kn hm)
    · exact hg' kn hm hkc (by omega) hs
  · have hc' : rank c < rank kn.1 := Nat.lt_of_not_le hc
    have hl : stLookup st kn.1 = some kn.2 :=
      (hbound kn.1 hc').symm.trans (mem_stLookup hnd' kn hm)
    exact goodNode_evolve hev (hg (kn.1, kn.2) (stLookup_mem hl) hne hr hs)

/-- The global invariant survives frozen-except-k evolution, given the
well-formedness implications. -/
theorem mainInv_evolveAt {rank : String → Nat} {k : String} {st st' : St}
    (h : StEvolveAt k st st') (hs : SetWF st → SetWF st')
    (he : ExclWF st → ExclWF st') (hinv : MainInv rank st) :
    MainInv rank st' := by
  obtain ⟨h1, h2, h3, h4, h5, h6, h7⟩ := hinv
  refine ⟨closed_evolveAt h h1, hs h2, he h3, archWF_evolveAt h h4,
    depsParsedWF_evolveAt h h5, ?_, rankOK_evolveAt h h7⟩
  unfold KeysNodup
  rw [keys_evolveAt h]
  exact h6

/-- The global invariant survives an update with a well-formed evolved
node. -/
theorem mainInv_stUpdate {rank : String → Nat} {key : String} {st : St}
    {n v : Node} (hl : stLookup st key = some n) (hev : NodeEvolve n v)
    (hs : v.satisfied.isSome = true → v.missing.isSome = true)
    (he : v.excluded.isSome = true → v.satisfied.isSome = true)
    (hinv : MainInv rank st) : MainInv rank (stUpdate st key v) :=
  mainInv_evolveAt (stUpdate_evolveAt hl hev)
    (fun h => setWF_stUpdate h hs) (fun h => exclWF_stUpdate h he) hinv

/-- Writing back the stored satisfied and missing is the identity. -/
theorem node_eta_sat_miss {n : Node} {sb : Bool} {mb : List Dep}
    (hs : n.satisfied = some sb) (hm : n.missing = some mb) :
    ({ n with satisfied := some sb, missing := some mb } : Node) = n := by
  rw [← hs, ← hm]

/-- The final-value contract of the recursive call: frozen evolution,
invariant and exemption preserved, strictly higher ranks untouched, and
the key node stored fully processed with the returned pair. -/
def RecurseMain (rank : String → Nat)
    (recurse : St → String → List String → Option (St × Bool × List Dep)) :
    Prop :=
  ∀ st k a st' b m,
    recurse st k a = some (st', b, m) →
    MainInv rank st → GoodBelowExc rank (rank k + 1) k st → KeyGood k st →
    StEvolve st st' ∧ MainInv rank st' ∧
    GoodBelowExc rank (rank k + 1) k st' ∧
    (∀ x, rank k < rank x → stLookup st' x = stLookup st x) ∧
    ∃ n', stLookup st' k = some n' ∧ n'.satisfied = some b ∧
      n'.missing = some m ∧ GoodNode st' n'

/-- Closedness of the invariant chain. -/
theorem MainInv.closed {rank : String → Nat} {st : St} (h : MainInv rank st) :
    ClosedSt st := h.1

/-- Distinct keys from the invariant chain. -/
theorem MainInv.nodup {rank : String → Nat} {st : St} (h : MainInv rank st) :
    KeysNodup st := h.2.2.2.2.2.1

/-- The rank certificate from the invariant chain. -/
theorem MainInv.rank_ok {rank : String → Nat} {st : St} (h : MainInv rank st) :
    RankOK rank st := h.2.2.2.2.2.2

/-- A Bool-conditioned if with literal true condition. -/
theorem ite_cond_true {α : Type} (a b : α) :
    (if (true : Bool) = true then a else b) = a := rfl

/-- A Bool-conditioned if with literal false condition. -/
theorem ite_cond_false {α : Type} (a b : α) :
    (if (false : Bool) = true then a else b) = b := rfl

/-- Final-value contract of the dependency step body: the key node's
satisfied is conjoined with the descriptor's pass value and its missing
list extended exactly when the descriptor misses, everything measured in
the resulting cache. -/
theorem checkDepStepGo_main {rank : String → Nat}
    {recurse : St → String → List String → Option (St × Bool × List Dep)}
    (hrec : RecurseMain rank recurse) {key : String} {anc : List String}
    {st st₁ : St} {dep₁ d' : Dep} {n : Node} {sb : Bool} {mb : List Dep}
    (h : checkDepStepGo recurse key anc st dep₁ = some (st₁, d'))
    (hinv : MainInv rank st)
    (hg : GoodBelowExc rank (rank key + 1) key st)
    (hn : stLookup st key = some n)
    (hsat : n.satisfied = some sb) (hmiss : n.missing = some mb)
    (hrk : depIsEdge dep₁ = true → rank (depCacheKey dep₁.core) < rank key) :
    MainInv rank st₁ ∧ GoodBelowExc rank (rank key + 1) key st₁ ∧
    StEvolveAt key st st₁ ∧
    (∀ x, rank key ≤ rank x → x ≠ key → stLookup st₁ x = stLookup st x) ∧
    depSkel d' = depSkel dep₁ ∧
    stLookup st₁ key = some
      { n with satisfied := some (sb && depPassB st₁ d'),
               missing := some (mb ++ (if depMissB st₁ d' then [d'] else [])) } ∧
    (depIsEdge d' = true → ∃ c, stLookup st₁ (depCacheKey d'.core) = some c ∧
      c.satisfied.isSome = true ∧ c.missing.isSome = true) := by
  unfold checkDepStepGo at h
  cases hp : dep₁.core.path with
  | none =>
    simp only [hp, hn, hmiss, Option.some.injEq] at h
    injection h with hst hd
    subst hst
    subst hd
    have hpassE : ∀ s, depPassB s dep₁ = dep₁.core.excluded.getD false := by
      intro s
      simp only [depPassB, hp]
    have hmissE : ∀ s, depMissB s dep₁ = true := by
      intro s
      simp only [depMissB, hp]
    have hnoedge : depIsEdge dep₁ = true → False := by
      intro hedge
      unfold depIsEdge at hedge
      rw [hp] at hedge
      simp at hedge
    by_cases hrc : (!(dep₁.core.excluded.getD false)) = true
    · have hE : dep₁.core.excluded.getD false = false := by
        revert hrc
        cases dep₁.core.excluded.getD false <;> simp
      rw [if_pos hrc]
      refine ⟨?_, goodBelowExc_stUpdate hinv.rank_ok hg,
        stUpdate_evolveAt hn ⟨rfl, rfl, rfl, rfl⟩,
        fun x _ hne => stLookup_stUpdate_ne _ hne, rfl, ?_,
        fun hedge => absurd hedge (fun he => hnoedge he)⟩
      · exact mainInv_stUpdate hn ⟨rfl, rfl, rfl, rfl⟩ (fun _ => rfl)
          (fun _ => rfl) hinv
      · rw [stLookup_stUpdate_self hn, hpassE, hmissE, hE]
        simp only [Bool.and_false, ite_cond_true, if_true]
    · have hE : dep₁.core.excluded.getD false = true := by
        revert hrc
        cases dep₁.core.excluded.getD false <;> simp
      rw [if_neg hrc]
      refine ⟨?_, goodBelowExc_stUpdate hinv.rank_ok hg,
        stUpdate_evolveAt hn ⟨rfl, rfl, rfl, rfl⟩,
        fun x _ hne => stLookup_stUpdate_ne _ hne, rfl, ?_,
        fun hedge => absurd hedge (fun he => hnoedge he)⟩
      · refine mainInv_stUpdate hn ⟨rfl, rfl, rfl, rfl⟩ (fun _ => ?_)
          (fun _ => ?_) hinv
        · rfl
        · show n.satisfied.isSome = true
          rw [hsat]
          rfl
      · rw [stLookup_stUpdate_self hn, hpassE, hmissE, hE]
        simp only [Bool.and_true, ite_cond_true, if_true]
        rw [← hsat]
  | some p =>
    simp only [hp] at h
    by_cases hsys : dep₁.core.system.getD false = true
    · rw [if_pos hsys] at h
      simp only [Option.some.injEq] at h
      injection h with hst hd
      subst hst
      subst hd
      have hpassT : ∀ s, depPassB s dep₁ = true := by
        intro s
        simp only [depPassB, hp, hsys, Bool.true_or]
      have hmissF : ∀ s, depMissB s dep₁ = false := by
        intro s
        simp only [depMissB, hp, hsys, Bool.not_true, Bool.false_and]
      refine ⟨hinv, hg, stEvolve_at key (stEvolve_refl _),
        fun x _ _ => rfl, rfl, ?_, ?_⟩
      · rw [hpassT, hmissF]
        simp only [Bool.and_true, ite_cond_false, if_false, List.append_nil]
        rw [node_eta_sat_miss hsat hmiss]
        exact hn
      · intro hedge
        exfalso
        unfold depIsEdge at hedge
        rw [hp, hsys] at hedge
        simp at hedge
    · rw [if_neg hsys] at h
      have hsys' : dep₁.core.system.getD false = false := Bool.eq_false_iff.mpr hsys
      have hedge : depIsEdge dep₁ = true := by
        unfold depIsEdge
        rw [hp, hsys']
        rfl
      have hlt : rank (depCacheKey dep₁.core) < rank key := hrk hedge
      cases hc : recurse st (depCacheKey dep₁.core) anc with
      | none =>
        simp only [hc] at h
        exact Option.noConfusion h
      | some res =>
        obtain ⟨st₂, sat, miss⟩ := res
        simp only [hc] at h
        obtain ⟨hev₂, hinv₂, hg₂, hbound₂, nc, hnc, hncs, hncm, hncg⟩ :=
          hrec st (depCacheKey dep₁.core) anc st₂ sat miss hc hinv
            (goodBelowExc_shrink hlt hg) (keyGood_of_goodBelowExc hlt hg)
        have hgr : GoodBelowExc rank (rank key + 1) key st₂ :=
          goodBelowExc_after_call hev₂ hinv₂.nodup hg hg₂
            (fun n' hl' => by
              rw [hnc] at hl'
              obtain rfl : nc = n' := by injection hl'
              exact hncg) hbound₂
        have hk₂ : stLookup st₂ key = some n := by
          rw [hbound₂ key hlt]
          exact hn
        have hcne : depCacheKey dep₁.core ≠ key := by
          intro he
          rw [he] at hlt
          omega
        by_cases hsat₂ : (!sat) = true
        · have hsatF : sat = false := by
            revert hsat₂
            cases sat <;> simp
          rw [if_pos hsat₂] at h
          simp only [hk₂, hmiss, Option.some.injEq] at h
          have hst : stUpdate st₂ key
              { n with satisfied := some false,
                       missing := some (mb ++ [Dep.mk dep₁.core (some miss)]) }
              = st₁ := congrArg Prod.fst h
          have hd : Dep.mk dep₁.core (some miss) = d' := congrArg Prod.snd h
          have hncsF : nc.satisfied = some false := hsatF ▸ hncs
          have hlook : stLookup st₁ (depCacheKey dep₁.core) = some nc := by
            rw [← hst, stLookup_stUpdate_ne _ hcne]
            exact hnc
          have hlook' : stLookup st₁ (depCacheKey d'.core) = some nc := hd ▸ hlook
          have hcore : d'.core = dep₁.core := hd ▸ rfl
          have hpassF : depPassB st₁ d' = false := by
            simp only [depPassB, hcore, hp, hsys', hlook, hncsF,
              Option.getD_some, Bool.false_or]
          have hmissT : depMissB st₁ d' = true := by
            simp only [depMissB, hcore, hp, hsys', hlook, hncsF,
              Option.getD_some, Bool.not_false, Bool.and_self]
          refine ⟨?_, ?_, ?_, ?_, ?_, ?_, ?_⟩
          · rw [← hst]
            exact mainInv_stUpdate hk₂ ⟨rfl, rfl, rfl, rfl⟩ (fun _ => rfl)
              (fun _ => rfl) hinv₂
          · rw [← hst]
            exact goodBelowExc_stUpdate hinv₂.rank_ok hgr
          · rw [← hst]
            exact stEvolveAt_trans (stEvolve_at key hev₂)
              (stUpdate_evolveAt hk₂ ⟨rfl, rfl, rfl, rfl⟩)
          · intro x hx hne
            rw [← hst, stLookup_stUpdate_ne _ hne]
            exact hbound₂ x (Nat.lt_of_lt_of_le hlt hx)
          · rw [← hd]
            rfl
          · rw [hpassF, hmissT, ← hst, stLookup_stUpdate_self hk₂, ← hd]
            simp only [Bool.and_false, ite_cond_true, if_true]
          · intro _
            refine ⟨nc, hlook', ?_, ?_⟩
            · rw [hncsF]
              rfl
            · rw [hncm]
              rfl
        · have hsatT : sat = true := by
            revert hsat₂
            cases sat <;> simp
          rw [if_neg hsat₂] at h
          simp only [Option.some.injEq] at h
          have hst : st₂ = st₁ := congrArg Prod.fst h
          have hd : dep₁ = d' := congrArg Prod.snd h
          subst hst
          subst hd
          have hncsT : nc.satisfied = some true := hsatT ▸ hncs
          have hpassT : depPassB st₂ dep₁ = true := by
            simp only [depPassB, hp, hsys', hnc, hncsT, Option.getD_some,
              Bool.false_or]
          have hmissF : depMissB st₂ dep₁ = false := by
            simp only [depMissB, hp, hsys', hnc, hncsT, Option.getD_some,
              Bool.not_true, Bool.and_false]
          refine ⟨hinv₂, hgr, stEvolve_at key hev₂, ?_, rfl, ?_, ?_⟩
          · intro x hx _
            exact hbound₂ x (Nat.lt_of_lt_of_le hlt hx)
          · rw [hpassT, hmissF]
            simp only [Bool.and_true, ite_cond_false, if_false, List.append_nil]
            rw [node_eta_sat_miss hsat hmiss]
            exact hk₂
          · intro _
            refine ⟨nc, hnc, ?_, ?_⟩
            · rw [hncsT]
              rfl
            · rw [hncm]
              rfl

/-- A singleton-or-empty prefix merges into a conditional cons. -/
theorem ite_singleton_append {α : Type} (b : Bool) (x : α) (l : List α) :
    (if b = true then [x] else []) ++ l = if b = true then x :: l else l := by
  cases b <;> simp

/-- Final-value contract of one dependency step (exclusion write
included). -/
theorem checkDepStep_main {ex : List Excl} {rank : String → Nat}
    {recurse : St → String → List String → Option (St × Bool × List Dep)}
    (hrec : RecurseMain rank recurse) {key : String} {anc : List String}
    {st st₁ : St} {d d' : Dep} {n : Node} {sb : Bool} {mb : List Dep}
    (h : checkDepStep ex recurse key anc st d = some (st₁, d'))
    (hinv : MainInv rank st)
    (hg : GoodBelowExc rank (rank key + 1) key st)
    (hn : stLookup st key = some n)
    (hsat : n.satisfied = some sb) (hmiss : n.missing = some mb)
    (hrk : depIsEdge d = true → rank (depCacheKey d.core) < rank key) :
    MainInv rank st₁ ∧ GoodBelowExc rank (rank key + 1) key st₁ ∧
    StEvolveAt key st st₁ ∧
    (∀ x, rank key ≤ rank x → x ≠ key → stLookup st₁ x = stLookup st x) ∧
    depSkel d' = depSkel d ∧
    stLookup st₁ key = some
      { n with satisfied := some (sb && depPassB st₁ d'),
               missing := some (mb ++ (if depMissB st₁ d' then [d'] else [])) } ∧
    (depIsEdge d' = true → ∃ c, stLookup st₁ (depCacheKey d'.core) = some c ∧
      c.satisfied.isSome = true ∧ c.missing.isSome = true) := by
  unfold checkDepStep at h
  have hsk := depSkel_withExclusion d (isExcluded d.subject ex anc).1
    (isExcluded d.subject ex anc).2.1 (isExcluded d.subject ex anc).2.2
  obtain ⟨hee, hke⟩ := skel_eq_edge hsk
  have hrk' : depIsEdge (d.withExclusion (isExcluded d.subject ex anc).1
      (isExcluded d.subject ex anc).2.1 (isExcluded d.subject ex anc).2.2) = true →
      rank (depCacheKey (d.withExclusion (isExcluded d.subject ex anc).1
        (isExcluded d.subject ex anc).2.1
        (isExcluded d.subject ex anc).2.2).core) < rank key := by
    intro hedge
    rw [hke]
    exact hrk (hee.symm.trans hedge)
  obtain ⟨h1, h2, h3, h4, h5, h6, h7⟩ :=
    checkDepStepGo_main hrec h hinv hg hn hsat hmiss hrk'
  exact ⟨h1, h2, h3, h4, h5.trans hsk, h6, h7⟩

/-- Final-value contract of the dependency list fold: the key node's
satisfied is conjoined with the pass value of every processed
descriptor and its missing list extended with exactly the failing ones,
measured in the final cache. -/
theorem checkDepsList_main {ex : List Excl} {rank : String → Nat}
    {recurse : St → String → List String → Option (St × Bool × List Dep)}
    (hrec : RecurseMain rank recurse) {key : String} {anc : List String} :
    ∀ {ds : List Dep} {st st₂ : St} {ds' : List Dep} {n : Node} {sb : Bool}
      {mb : List Dep},
      checkDepsList ex recurse key anc st ds = some (st₂, ds') →
      MainInv rank st → GoodBelowExc rank (rank key + 1) key st →
      stLookup st key = some n → n.satisfied = some sb → n.missing = some mb →
      (∀ d ∈ ds, depIsEdge d = true → rank (depCacheKey d.core) < rank key) →
      MainInv rank st₂ ∧ GoodBelowExc rank (rank key + 1) key st₂ ∧
      StEvolveAt key st st₂ ∧
      (∀ x, rank key ≤ rank x → x ≠ key → stLookup st₂ x = stLookup st x) ∧
      ds'.map depSkel = ds.map depSkel ∧
      stLookup st₂ key = some
        { n with satisfied := some (sb && ds'.all (depPassB st₂)),
                 missing := some (mb ++ ds'.filter (depMissB st₂)) } ∧
      (∀ d ∈ ds', depIsEdge d = true →
        ∃ c, stLookup st₂ (depCacheKey d.core) = some c ∧
          c.satisfied.isSome = true ∧ c.missing.isSome = true) := by
  intro ds
  induction ds with
  | nil =>
    intro st st₂ ds' n sb mb h hinv hg hn hsat hmiss _
    simp only [checkDepsList, Option.some.injEq] at h
    have hst : st = st₂ := congrArg Prod.fst h
    have hds : ([] : List Dep) = ds' := congrArg Prod.snd h
    subst hst
    subst hds
    refine ⟨hinv, hg, stEvolve_at key (stEvolve_refl _), fun x _ _ => rfl, rfl,
      ?_, ?_⟩
    · simp only [List.all_nil, Bool.and_true, List.filter_nil, List.append_nil]
      rw [node_eta_sat_miss hsat hmiss]
      exact hn
    · intro d hd
      simp at hd
  | cons d ds ih =>
    intro st st₂ ds' n sb mb h hinv hg hn hsat hmiss hrk
    cases hstep : checkDepStep ex recurse key anc st d with
    | none =>
      simp only [checkDepsList, hstep] at h
      exact Option.noConfusion h
    | some res₁ =>
      obtain ⟨st₁, d₁⟩ := res₁
      simp only [checkDepsList, hstep] at h
      cases hrest : checkDepsList ex recurse key anc st₁ ds with
      | none =>
        simp only [hrest] at h
        exact Option.noConfusion h
      | some res₂ =>
        obtain ⟨st₂', ds₂⟩ := res₂
        simp only [hrest, Option.some.injEq] at h
        have hst : st₂' = st₂ := congrArg Prod.fst h
        have hds : d₁ :: ds₂ = ds' := congrArg Prod.snd h
        subst hst
        subst hds
        obtain ⟨hinv₁, hg₁, hev₁, hbd₁, hsk₁, hkey₁, hch₁⟩ :=
          checkDepStep_main hrec hstep hinv hg hn hsat hmiss
            (hrk d (List.mem_cons_self d ds))
        obtain ⟨hinv₂, hg₂, hev₂, hbd₂, hsk₂, hkey₂, hch₂⟩ :=
          ih hrest hinv₁ hg₁ hkey₁ rfl rfl
            (fun d₀ hd₀ hedge => hrk d₀ (List.mem_cons_of_mem d hd₀) hedge)
        have hlookeq : depIsEdge d₁ = true →
            stLookup st₂' (depCacheKey d₁.core) =
              stLookup st₁ (depCacheKey d₁.core) := by
          intro hedge
          obtain ⟨c, hc1, hc2, _⟩ := hch₁ hedge
          have hlt : rank (depCacheKey d₁.core) < rank key := by
            rw [(skel_eq_edge hsk₁).2]
            exact hrk d (List.mem_cons_self d ds)
              ((skel_eq_edge hsk₁).1.symm.trans hedge)
          have hne : depCacheKey d₁.core ≠ key := by
            intro he
            rw [he] at hlt
            omega
          obtain ⟨c', hc1', _, hfr⟩ := stLookup_evolveAt hev₂ _ c hc1
          rw [hc1, hc1', hfr hc2 hne]
        have hpasseq : depPassB st₂' d₁ = depPassB st₁ d₁ :=
          depPassB_congr hlookeq
        have hmisseq : depMissB st₂' d₁ = depMissB st₁ d₁ :=
          depMissB_congr hlookeq
        refine ⟨hinv₂, hg₂, stEvolveAt_trans hev₁ hev₂,
          fun x hx hne => (hbd₂ x hx hne).trans (hbd₁ x hx hne), ?_, ?_, ?_⟩
        · rw [List.map_cons, List.map_cons, hsk₁, hsk₂]
        · rw [hkey₂]
          simp only [List.all_cons, List.filter_cons, hpasseq, hmisseq,
            Bool.and_assoc, List.append_assoc, ite_singleton_append]
        · intro d₀ hd₀ hedge
          rcases List.mem_cons.mp hd₀ with rfl | hm
          · obtain ⟨c, hc1, hc2, hc3⟩ := hch₁ hedge
            refine ⟨c, ?_, hc2, hc3⟩
            rw [hlookeq hedge]
            exact hc1
          · exact hch₂ d₀ hm hedge

/-- Final-value contract of the arch slice fold, over the concatenated
dependency lists of the processed slices. -/
theorem checkSlices_main {ex : List Excl} {rank : String → Nat}
    {recurse : St → String → List String → Option (St × Bool × List Dep)}
    (hrec : RecurseMain rank recurse) {key : String} {anc : List String} :
    ∀ {ss : List ArchSlice} {st st₂ : St} {ss' : List ArchSlice} {n : Node}
      {sb : Bool} {mb : List Dep},
      checkSlices ex recurse key anc st ss = some (st₂, ss') →
      MainInv rank st → GoodBelowExc rank (rank key + 1) key st →
      stLookup st key = some n → n.satisfied = some sb → n.missing = some mb →
      (∀ d ∈ ss.flatMap ArchSlice.dependencies, depIsEdge d = true →
        rank (depCacheKey d.core) < rank key) →
      MainInv rank st₂ ∧ GoodBelowExc rank (rank key + 1) key st₂ ∧
      StEvolveAt key st st₂ ∧
      (∀ x, rank key ≤ rank x → x ≠ key → stLookup st₂ x = stLookup st x) ∧
      ss'.map sliceSkel = ss.map sliceSkel ∧
      stLookup st₂ key = some
        { n with satisfied := some (sb &&
            (ss'.flatMap ArchSlice.dependencies).all (depPassB st₂)),
                 missing := some (mb ++
            (ss'.flatMap ArchSlice.dependencies).filter (depMissB st₂)) } ∧
      (∀ d ∈ ss'.flatMap ArchSlice.dependencies, depIsEdge d = true →
        ∃ c, stLookup st₂ (depCacheKey d.core) = some c ∧
          c.satisfied.isSome = true ∧ c.missing.isSome = true) := by
  intro ss
  induction ss with
  | nil =>
    intro st st₂ ss' n sb mb h hinv hg hn hsat hmiss _
    simp only [checkSlices, Option.some.injEq] at h
    have hst : st = st₂ := congrArg Prod.fst h
    have hss : ([] : List ArchSlice) = ss' := congrArg Prod.snd h
    subst hst
    subst hss
    refine ⟨hinv, hg, stEvolve_at key (stEvolve_refl _), fun x _ _ => rfl, rfl,
      ?_, ?_⟩
    · simp only [List.flatMap_nil, List.all_nil, Bool.and_true,
        List.filter_nil, List.append_nil]
      rw [node_eta_sat_miss hsat hmiss]
      exact hn
    · intro d hd
      simp at hd
  | cons s ss ih =>
    intro st st₂ ss' n sb mb h hinv hg hn hsat hmiss hrk
    cases hstep : checkDepsList ex recurse key anc st s.dependencies with
    | none =>
      simp only [checkSlices, hstep] at h
      exact Option.noConfusion h
    | some res₁ =>
      obtain ⟨st₁, ds₁⟩ := res₁
      simp only [checkSlices, hstep] at h
      cases hrest : checkSlices ex recurse key anc st₁ ss with
      | none =>
        simp only [hrest] at h
        exact Option.noConfusion h
      | some res₂ =>
        obtain ⟨st₂', ss₂⟩ := res₂
        simp only [hrest, Option.some.injEq] at h
        have hst : st₂' = st₂ := congrArg Prod.fst h
        have hss : ({ s with dependencies := ds₁ } : ArchSlice) :: ss₂ = ss' :=
          congrArg Prod.snd h
        subst hst
        subst hss
        obtain ⟨hinv₁, hg₁, hev₁, hbd₁, hsk₁, hkey₁, hch₁⟩ :=
          checkDepsList_main hrec hstep hinv hg hn hsat hmiss
            (fun d₀ hd₀ hedge => hrk d₀
              (List.mem_flatMap.mpr ⟨s, List.mem_cons_self s ss, hd₀⟩) hedge)
        obtain ⟨hinv₂, hg₂, hev₂, hbd₂, hsk₂, hkey₂, hch₂⟩ :=
          ih hrest hinv₁ hg₁ hkey₁ rfl rfl
            (fun d₀ hd₀ hedge => hrk d₀
              (List.mem_flatMap.mpr
                (let ⟨s₀, hs₀, hd₀'⟩ := List.mem_flatMap.mp hd₀
                 ⟨s₀, List.mem_cons_of_mem s hs₀, hd₀'⟩)) hedge)
        have hlookeq : ∀ d ∈ ds₁, depIsEdge d = true →
            stLookup st₂' (depCacheKey d.core) =
              stLookup st₁ (depCacheKey d.core) := by
          intro d hd hedge
          obtain ⟨c, hc1, hc2, _⟩ := hch₁ d hd hedge
          obtain ⟨d₀, hd₀, hsk₀⟩ := mem_skel_partner hsk₁ hd
          have hedge₀ : depIsEdge d₀ = true := (skel_eq_edge hsk₀).1.trans hedge
          have hlt : rank (depCacheKey d.core) < rank key := by
            rw [← (skel_eq_edge hsk₀).2]
            exact hrk d₀
              (List.mem_flatMap.mpr ⟨s, List.mem_cons_self s ss, hd₀⟩) hedge₀
          have hne : depCacheKey d.core ≠ key := by
            intro he
            rw [he] at hlt
            omega
          obtain ⟨c', hc1', _, hfr⟩ := stLookup_evolveAt hev₂ _ c hc1
          rw [hc1, hc1', hfr hc2 hne]
        have hpasseq : ds₁.all (depPassB st₂') = ds₁.all (depPassB st₁) :=
          list_all_congr (fun d hd => depPassB_congr (hlookeq d hd))
        have hmisseq : ds₁.filter (depMissB st₂') = ds₁.filter (depMissB st₁) :=
          list_filter_congr (fun d hd => depMissB_congr (hlookeq d hd))
        refine ⟨hinv₂, hg₂, stEvolveAt_trans hev₁ hev₂,
          fun x hx hne => (hbd₂ x hx hne).trans (hbd₁ x hx hne), ?_, ?_, ?_⟩
        · rw [List.map_cons, List.map_cons, hsk₂]
          simp only [sliceSkel, hsk₁]
        · rw [hkey₂]
          simp only [List.flatMap_cons, List.all_append, List.filter_append,
            hpasseq, hmisseq, Bool.and_assoc, List.append_assoc]
        · intro d₀ hd₀ hedge
          rw [List.flatMap_cons] at hd₀
          rcases List.mem_append.mp hd₀ with hm | hm
          · obtain ⟨c, hc1, hc2, hc3⟩ := hch₁ d₀ hm hedge
            refine ⟨c, ?_, hc2, hc3⟩
            rw [hlookeq d₀ hm hedge]
            exact hc1
          · exact hch₂ d₀ hm hedge

/-- Case analysis of the tail of _checkNode (source lines 408-413): the
returned missing is the stored one, and either the excluded override
fires (satisfied forced true) or the accumulated satisfied is
returned. -/
theorem checkNodeTail_cases {key : String} {st₂ st' : St}
    {slices' : List ArchSlice} {b : Bool} {m : List Dep} {nf : Node}
    (h : checkNodeTail key st₂ slices' = some (st', b, m))
    (hnf : stLookup st₂ key = some nf) :
    nf.missing = some m ∧
    ((nf.excluded = some true ∧ b = true ∧
        st' = stUpdate st₂ key
          { nf with arch := some slices', satisfied := some true,
                    missing := some m }) ∨
     (¬(nf.excluded = some true) ∧ nf.satisfied = some b ∧
        st' = stUpdate st₂ key
          { nf with arch := some slices', missing := some m })) := by
  unfold checkNodeTail at h
  simp only [hnf] at h
  cases hm₀ : nf.missing with
  | none =>
    simp only [hm₀] at h
    exact Option.noConfusion h
  | some m₀ =>
    simp only [hm₀] at h
    by_cases hex : nf.excluded = some true
    · rw [if_pos hex] at h
      simp only [Option.some.injEq] at h
      have hst : stUpdate st₂ key
          { nf with arch := some slices', satisfied := some true,
                    missing := some m₀ } = st' := congrArg Prod.fst h
      have hb : true = b := congrArg (fun t : St × Bool × List Dep => t.2.1) h
      have hmm : m₀ = m := congrArg (fun t : St × Bool × List Dep => t.2.2) h
      subst hmm
      subst hb
      exact ⟨rfl, Or.inl ⟨hex, rfl, hst.symm⟩⟩
    · rw [if_neg hex] at h
      cases hsb : nf.satisfied with
      | none =>
        simp only [hsb] at h
        exact Option.noConfusion h
      | some b₀ =>
        simp only [hsb, Option.some.injEq] at h
        have hst : stUpdate st₂ key
            { nf with arch := some slices', satisfied := some b₀,
                      missing := some m₀ } = st' :=
          congrArg Prod.fst h
        have hb : b₀ = b := congrArg (fun t : St × Bool × List Dep => t.2.1) h
        have hmm : m₀ = m := congrArg (fun t : St × Bool × List Dep => t.2.2) h
        subst hmm
        subst hb
        exact ⟨rfl, Or.inr ⟨hex, rfl, hst.symm⟩⟩

/-- The final-value contract holds for _checkNode at every fuel. -/
theorem checkNode_main (ex : List Excl) (rank : String → Nat) :
    ∀ fuel, RecurseMain rank (checkNode ex fuel) := by
  intro fuel
  induction fuel with
  | zero =>
    intro st k a st' b m h
    exact Option.noConfusion h
  | succ fuel ih =>
    intro st key anc st' b m h hinv hg hkg
    unfold checkNode at h
    cases hl : stLookup st key with
    | none =>
      simp only [hl] at h
      exact Option.noConfusion h
    | some n =>
      simp only [hl] at h
      cases hsat : n.satisfied with
      | some b₀ =>
        simp only [hsat] at h
        cases hm : n.missing with
        | none =>
          simp only [hm] at h
          exact Option.noConfusion h
        | some m₀ =>
          simp only [hm, Option.some.injEq] at h
          have hst : st = st' := congrArg Prod.fst h
          have hb : b₀ = b := congrArg (fun t : St × Bool × List Dep => t.2.1) h
          have hm' : m₀ = m := congrArg (fun t : St × Bool × List Dep => t.2.2) h
          subst hst
          subst hb
          subst hm'
          exact ⟨stEvolve_refl st, hinv, hg, fun x _ => rfl,
            n, hl, hsat, hm, hkg n hl (by rw [hsat]; rfl)⟩
      | none =>
        have hkunset : ∀ n₀, stLookup st key = some n₀ → n₀.satisfied = none := by
          intro n₀ hn₀
          rw [hl] at hn₀
          obtain rfl : n = n₀ := by injection hn₀
          exact hsat
        simp only [hsat] at h
        by_cases hpar : n.parsed.getD false = true
        · rw [if_pos hpar] at h
          cases harch : n.arch with
          | none =>
            simp only [harch] at h
            exact Option.noConfusion h
          | some slices =>
            simp only [harch] at h
            set n₂ : Node :=
              { n with arch := some slices,
                       excluded := some (isExcluded n.path ex anc).1,
                       pattern := some (isExcluded n.path ex anc).2.1,
                       exclusionId := some (isExcluded n.path ex anc).2.2,
                       satisfied := some true, missing := some [] } with hn₂
            cases hsl : checkSlices ex (checkNode ex fuel) key
                (anc ++ [n.path]) (stUpdate st key n₂) slices with
            | none =>
              rw [hsl] at h
              exact Option.noConfusion h
            | some res₂ =>
              obtain ⟨st₂, slices'⟩ := res₂
              rw [hsl] at h
              have hupd : StEvolveAt key st (stUpdate st key n₂) :=
                stUpdate_evolveAt hl ⟨rfl, rfl, rfl, by rw [harch]⟩
              have hinv₀ : MainInv rank (stUpdate st key n₂) :=
                mainInv_stUpdate hl ⟨rfl, rfl, rfl, by rw [harch]⟩
                  (fun _ => rfl) (fun _ => rfl) hinv
              have hg₀ : GoodBelowExc rank (rank key + 1) key (stUpdate st key n₂) :=
                goodBelowExc_stUpdate hinv.rank_ok hg
              have hl₀ : stLookup (stUpdate st key n₂) key = some n₂ :=
                stLookup_stUpdate_self hl
              have hrk₀ : ∀ d ∈ slices.flatMap ArchSlice.dependencies,
                  depIsEdge d = true → rank (depCacheKey d.core) < rank key := by
                intro d hd hedge
                exact hinv₀.rank_ok (key, n₂) (stLookup_mem hl₀) d hd hedge
              obtain ⟨hinv₂, hg₂, hev₂, hbd₂, hskel₂, hkey₂, hch₂⟩ :=
                checkSlices_main ih hsl hinv₀ hg₀ hl₀ rfl rfl hrk₀
              have hrkL : ∀ d ∈ slices'.flatMap ArchSlice.dependencies,
                  depIsEdge d = true → rank (depCacheKey d.core) < rank key := by
                intro d hd hedge
                obtain ⟨d₀, hd₀, hsk₀⟩ := mem_skel_partner (flat_skel _ _ hskel₂) hd
                rw [← (skel_eq_edge hsk₀).2]
                exact hrk₀ d₀ hd₀ ((skel_eq_edge hsk₀).1.trans hedge)
              have hneL : ∀ d ∈ slices'.flatMap ArchSlice.dependencies,
                  depIsEdge d = true → depCacheKey d.core ≠ key := by
                intro d hd hedge he
                have hx := hrkL d hd hedge
                rw [he] at hx
                omega
              obtain ⟨hmF, hcases⟩ := checkNodeTail_cases h hkey₂
              have hmm' : [] ++ (slices'.flatMap
                  ArchSlice.dependencies).filter (depMissB st₂) = m :=
                Option.some.inj hmF
              rcases hcases with ⟨hExcEq, hbT, hstEq⟩ | ⟨hExcNe, hsatEq, hstEq⟩
              · have hexcT : (isExcluded n.path ex anc).1 = true :=
                  Option.some.inj hExcEq
                have hevF : NodeEvolve
                    ({ n₂ with
                        satisfied := some (true && (slices'.flatMap
                          ArchSlice.dependencies).all (depPassB st₂)),
                        missing := some ([] ++ (slices'.flatMap
                          ArchSlice.dependencies).filter (depMissB st₂)) } : Node)
                    ({ n₂ with
                        arch := some slices', satisfied := some true,
                        missing := some m } : Node) := by
                  refine ⟨rfl, rfl, rfl, ?_⟩
                  show (some slices').map (List.map sliceSkel)
                    = (some slices).map (List.map sliceSkel)
                  simp only [Option.map_some', Option.some.injEq]
                  exact hskel₂
                have hAt : StEvolveAt key st st' := by
                  rw [hstEq]
                  exact stEvolveAt_trans hupd (stEvolveAt_trans hev₂
                    (stUpdate_evolveAt hkey₂ hevF))
                have hlookF : ∀ x, x ≠ key → stLookup st' x = stLookup st₂ x := by
                  intro x hne
                  rw [hstEq]
                  exact stLookup_stUpdate_ne _ hne
                have hstored : stLookup st' key = some
                    ({ n₂ with
                        arch := some slices', satisfied := some true,
                        missing := some m } : Node) := by
                  rw [hstEq]
                  exact stLookup_stUpdate_self hkey₂
                have hfiltm : (slices'.flatMap ArchSlice.dependencies).filter
                    (depMissB st') = (slices'.flatMap
                    ArchSlice.dependencies).filter (depMissB st₂) :=
                  list_filter_congr (fun d hd => depMissB_congr
                    (fun he => hlookF _ (hneL d hd he)))
                refine ⟨stEvolveAt_toFull hAt hinv.nodup hkunset, ?_, ?_, ?_, ?_⟩
                · rw [hstEq]
                  exact mainInv_stUpdate hkey₂ hevF (fun _ => rfl)
                    (fun _ => rfl) hinv₂
                · rw [hstEq]
                  exact goodBelowExc_stUpdate hinv₂.rank_ok hg₂
                · intro x hx
                  have hxne : x ≠ key := by
                    intro he
                    rw [he] at hx
                    omega
                  rw [hlookF x hxne, hbd₂ x (Nat.le_of_lt hx) hxne,
                    stLookup_stUpdate_ne _ hxne]
                · refine ⟨_, hstored, ?_, ?_, ?_⟩
                  · show some true = some b
                    rw [hbT]
                  · show some m = some m
                    rfl
                  · refine ⟨rfl, ?_, ?_⟩
                    · intro _
                      refine ⟨?_, ?_, ?_⟩
                      · intro d hd hedge
                        obtain ⟨c, hc1, hc2, hc3⟩ := hch₂ d hd hedge
                        refine ⟨c, ?_, hc2, hc3⟩
                        rw [hlookF _ (hneL d hd hedge)]
                        exact hc1
                      · show some true = some ((isExcluded n.path ex anc).1
                          || (slices'.flatMap ArchSlice.dependencies).all
                            (depPassB st'))
                        rw [hexcT, Bool.true_or]
                      · show some m = some ((slices'.flatMap
                            ArchSlice.dependencies).filter (depMissB st'))
                        rw [← hmm', List.nil_append, hfiltm]
                    · intro hfalse
                      rw [hpar] at hfalse
                      exact Bool.noConfusion hfalse
              · have hexcF : (isExcluded n.path ex anc).1 = false := by
                  cases hE₀ : (isExcluded n.path ex anc).1 with
                  | false => rfl
                  | true =>
                    exfalso
                    apply hExcNe
                    show some (isExcluded n.path ex anc).1 = some true
                    rw [hE₀]
                have hbeq : (true && (slices'.flatMap
                    ArchSlice.dependencies).all (depPassB st₂)) = b :=
                  Option.some.inj hsatEq
                have hevF : NodeEvolve
                    ({ n₂ with
                        satisfied := some (true && (slices'.flatMap
                          ArchSlice.dependencies).all (depPassB st₂)),
                        missing := some ([] ++ (slices'.flatMap
                          ArchSlice.dependencies).filter (depMissB st₂)) } : Node)
                    ({ n₂ with
                        arch := some slices',
                        satisfied := some (true && (slices'.flatMap
                          ArchSlice.dependencies).all (depPassB st₂)),
                        missing := some m } : Node) := by
                  refine ⟨rfl, rfl, rfl, ?_⟩
                  show (some slices').map (List.map sliceSkel)
                    = (some slices).map (List.map sliceSkel)
                  simp only [Option.map_some', Option.some.injEq]
                  exact hskel₂
                have hAt : StEvolveAt key st st' := by
                  rw [hstEq]
                  exact stEvolveAt_trans hupd (stEvolveAt_trans hev₂
                    (stUpdate_evolveAt hkey₂ hevF))
                have hlookF : ∀ x, x ≠ key → stLookup st' x = stLookup st₂ x := by
                  intro x hne
                  rw [hstEq]
                  exact stLookup_stUpdate_ne _ hne
                have hstored : stLookup st' key = some
                    ({ n₂ with
                        arch := some slices',
                        satisfied := some (true && (slices'.flatMap
                          ArchSlice.dependencies).all (depPassB st₂)),
                        missing := some m } : Node) := by
                  rw [hstEq]
                  exact stLookup_stUpdate_self hkey₂
                have hallc : (slices'.flatMap ArchSlice.dependencies).all
                    (depPassB st') = (slices'.flatMap
                    ArchSlice.dependencies).all (depPassB st₂) :=
                  list_all_congr (fun d hd => depPassB_congr
                    (fun he => hlookF _ (hneL d hd he)))
                have hfiltm : (slices'.flatMap ArchSlice.dependencies).filter
                    (depMissB st') = (slices'.flatMap
                    ArchSlice.dependencies).filter (depMissB st₂) :=
                  list_filter_congr (fun d hd => depMissB_congr
                    (fun he => hlookF _ (hneL d hd he)))
                refine ⟨stEvolveAt_toFull hAt hinv.nodup hkunset, ?_, ?_, ?_, ?_⟩
                · rw [hstEq]
                  exact mainInv_stUpdate hkey₂ hevF (fun _ => rfl)
                    (fun _ => rfl) hinv₂
                · rw [hstEq]
                  exact goodBelowExc_stUpdate hinv₂.rank_ok hg₂
                · intro x hx
                  have hxne : x ≠ key := by
                    intro he
                    rw [he] at hx
                    omega
                  rw [hlookF x hxne, hbd₂ x (Nat.le_of_lt hx) hxne,
                    stLookup_stUpdate_ne _ hxne]
                · refine ⟨_, hstored, ?_, ?_, ?_⟩
                  · show some (true && (slices'.flatMap
                      ArchSlice.dependencies).all (depPassB st₂)) = some b
                    rw [hbeq]
                  · show some m = some m
                    rfl
                  · refine ⟨rfl, ?_, ?_⟩
                    · intro _
                      refine ⟨?_, ?_, ?_⟩
                      · intro d hd hedge
                        obtain ⟨c, hc1, hc2, hc3⟩ := hch₂ d hd hedge
                        refine ⟨c, ?_, hc2, hc3⟩
                        rw [hlookF _ (hneL d hd hedge)]
                        exact hc1
                      · show some (true && (slices'.flatMap
                            ArchSlice.dependencies).all (depPassB st₂))
                          = some ((isExcluded n.path ex anc).1
                            || (slices'.flatMap ArchSlice.dependencies).all
                              (depPassB st'))
                        rw [hexcF, Bool.false_or, Bool.true_and, hallc]
                      · show some m = some ((slices'.flatMap
                            ArchSlice.dependencies).filter (depMissB st'))
                        rw [← hmm', List.nil_append, hfiltm]
                    · intro hfalse
                      rw [hpar] at hfalse
                      exact Bool.noConfusion hfalse
        · rw [if_neg hpar] at h
          simp only [Option.some.injEq] at h
          have hst : stUpdate st key
              { n with excluded := some (isExcluded n.path ex anc).1,
                       pattern := some (isExcluded n.path ex anc).2.1,
                       exclusionId := some (isExcluded n.path ex anc).2.2,
                       satisfied := some (isExcluded n.path ex anc).1,
                       missing := some [] } = st' := congrArg Prod.fst h
          have hb : (isExcluded n.path ex anc).1 = b :=
            congrArg (fun t : St × Bool × List Dep => t.2.1) h
          have hm' : ([] : List Dep) = m :=
            congrArg (fun t : St × Bool × List Dep => t.2.2) h
          have hAt : StEvolveAt key st st' := by
            rw [← hst]
            exact stUpdate_evolveAt hl ⟨rfl, rfl, rfl, rfl⟩
          refine ⟨stEvolveAt_toFull hAt hinv.nodup hkunset, ?_, ?_, ?_, ?_⟩
          · rw [← hst]
            exact mainInv_stUpdate hl ⟨rfl, rfl, rfl, rfl⟩ (fun _ => rfl)
              (fun _ => rfl) hinv
          · rw [← hst]
            exact goodBelowExc_stUpdate hinv.rank_ok hg
          · intro x hx
            have hxne : x ≠ key := by
              intro he
              rw [he] at hx
              omega
            rw [← hst, stLookup_stUpdate_ne _ hxne]
          · refine ⟨{ n with
                        excluded := some (isExcluded n.path ex anc).1,
                        pattern := some (isExcluded n.path ex anc).2.1,
                        exclusionId := some (isExcluded n.path ex anc).2.2,
                        satisfied := some (isExcluded n.path ex anc).1,
                        missing := some [] }, ?_, ?_, ?_, ?_⟩
            · rw [← hst]
              exact stLookup_stUpdate_self hl
            · show some (isExcluded n.path ex anc).1 = some b
              rw [hb]
            · show some ([] : List Dep) = some m
              rw [hm']
            · refine ⟨rfl, ?_, ?_⟩
              · intro hpt
                exact absurd hpt hpar
              · intro _
                exact ⟨rfl, rfl⟩

/-- A fresh cache is vacuously fully processed. -/
theorem goodAll_of_fresh {st : St} (h : FreshSt st) : GoodAll st := by
  intro kn hm hs
  rw [(h kn hm).1] at hs
  exact Bool.noConfusion hs

/-- The final-value contract across _updateMissing's key iteration:
every computed node ends fully processed, and every root node among the
visited keys ends computed. -/
theorem updateMissingGo_main (ex : List Excl) (rank : String → Nat) (fuel : Nat) :
    ∀ (ks : List String) (st st' : St),
      updateMissingGo ex fuel ks st = some st' →
      MainInv rank st → GoodAll st →
      MainInv rank st' ∧ GoodAll st' ∧ StEvolve st st' ∧
      (∀ k ∈ ks, ∀ n, stLookup st k = some n → n.root = true →
        ∃ n', stLookup st' k = some n' ∧ n'.satisfied.isSome = true) := by
  intro ks
  induction ks with
  | nil =>
    intro st st' h hinv hga
    have hst : st = st' := Option.some.inj h
    subst hst
    exact ⟨hinv, hga, stEvolve_refl st,
      fun k hk => absurd hk (List.not_mem_nil k)⟩
  | cons k ks ih =>
    intro st st' h hinv hga
    unfold updateMissingGo at h
    cases hlk : stLookup st k with
    | none =>
      simp only [hlk] at h
      exact Option.noConfusion h
    | some n₀ =>
      simp only [hlk] at h
      by_cases hroot : n₀.root = true
      · rw [if_pos hroot] at h
        cases hcn : checkNode ex fuel st k [] with
        | none =>
          simp only [hcn] at h
          exact Option.noConfusion h
        | some res =>
          obtain ⟨st₁, b₁, m₁⟩ := res
          simp only [hcn] at h
          obtain ⟨hev₁, hinv₁, hgb₁, hbd₁, nk, hnk, hnks, hnkm, hnkg⟩ :=
            checkNode_main ex rank fuel st k [] st₁ b₁ m₁ hcn hinv
              (fun kn hm _ _ hs => hga kn hm hs)
              (fun n hln hs => hga (k, n) (stLookup_mem hln) hs)
          have hga₁ : GoodAll st₁ := by
            intro kn hm hs
            by_cases hkk : kn.1 = k
            · have hlkk := mem_stLookup hinv₁.nodup kn hm
              rw [hkk, hnk] at hlkk
              obtain rfl : nk = kn.2 := by injection hlkk
              exact hnkg
            · by_cases hr : rank kn.1 ≤ rank k
              · exact hgb₁ kn hm hkk (by omega) hs
              · have hlkx := mem_stLookup hinv₁.nodup kn hm
                rw [hbd₁ kn.1 (Nat.lt_of_not_le hr)] at hlkx
                exact goodNode_evolve hev₁ (hga (kn.1, kn.2)
                  (stLookup_mem hlkx) hs)
          obtain ⟨hinv', hga', hev', hroots'⟩ := ih st₁ st' h hinv₁ hga₁
          refine ⟨hinv', hga', stEvolve_trans hev₁ hev', ?_⟩
          intro k₀ hk₀ n hn hnroot
          rcases List.mem_cons.mp hk₀ with rfl | hm
          · have hfr := stLookup_frozen hev' k₀ nk hnk (by rw [hnks]; rfl)
            exact ⟨nk, hfr, by rw [hnks]; rfl⟩
          · obtain ⟨n₁, hn₁, hevn, _⟩ :=
              stLookup_evolveAt (stEvolve_at k hev₁) k₀ n hn
            have hroot₁ : n₁.root = true := by
              rw [hevn.2.1]
              exact hnroot
            exact hroots' k₀ hm n₁ hn₁ hroot₁
      · rw [if_neg hroot] at h
        obtain ⟨hinv', hga', hev', hroots'⟩ := ih st st' h hinv hga
        refine ⟨hinv', hga', hev', ?_⟩
        intro k₀ hk₀ n hn hnroot
        rcases List.mem_cons.mp hk₀ with rfl | hm
        · rw [hlk] at hn
          obtain rfl : n₀ = n := by injection hn
          exact absurd hnroot hroot
        · exact hroots' k₀ hm n hn hnroot

/-- The final-value theorem of the satisfiability pass: under a rank
certificate of acyclicity, every computed node of the final cache is
fully processed and every root node is computed. -/
theorem updateMissing_main (ex : List Excl) (rank : String → Nat) (fuel : Nat)
    (st st' : St) (h : updateMissing ex fuel st = some st')
    (hinv : MainInv rank st) (hga : GoodAll st) :
    MainInv rank st' ∧ GoodAll st' ∧ StEvolve st st' ∧
    (∀ kn ∈ st, kn.2.root = true →
      ∃ n', stLookup st' kn.1 = some n' ∧ n'.satisfied.isSome = true) := by
  unfold updateMissing at h
  obtain ⟨hinv', hga', hev', hroots'⟩ :=
    updateMissingGo_main ex rank fuel (st.map Prod.fst) st st' h hinv hga
  refine ⟨hinv', hga', hev', ?_⟩
  intro kn hm hr
  exact hroots' kn.1 (List.mem_map_of_mem Prod.fst hm) kn.2
    (mem_stLookup hinv.nodup kn hm) hr

/-! ## Satisfiability pass: the excluded override, cycles included -/

/-- The override property of one node: an excluded node is satisfied. -/
def ExclOkN (n : Node) : Prop := n.excluded = some true → n.satisfied = some true

/-- Every cache entry whose key is not on the exemption stack satisfies
the override property. -/
def ExclOkExc (E : List String) (st : St) : Prop :=
  ∀ kn ∈ st, kn.1 ∉ E → ExclOkN kn.2

/-- Members of an updated cache, key of the fresh entry included. -/
theorem mem_stUpdate_keyed {st : St} {k : String} {v : Node} :
    ∀ kn ∈ stUpdate st k v, kn ∈ st ∨ kn = (k, v) := by
  induction st with
  | nil =>
    intro kn h
    simp [stUpdate] at h
  | cons kn₀ rest ih =>
    intro kn h
    by_cases hek : kn₀.1 = k
    · rw [stUpdate, if_pos hek] at h
      rcases List.mem_cons.mp h with rfl | hm
      · right
        rw [hek]
      · exact Or.inl (List.mem_cons_of_mem _ hm)
    · rw [stUpdate, if_neg hek] at h
      rcases List.mem_cons.mp h with rfl | hm
      · exact Or.inl (List.mem_cons_self _ _)
      · rcases ih kn hm with h1 | h2
        · exact Or.inl (List.mem_cons_of_mem _ h1)
        · exact Or.inr h2

/-- The override invariant survives an update whose node satisfies the
override, or whose key is exempt. -/
theorem exclOkExc_stUpdate {E : List String} {st : St} {k : String} {v : Node}
    (h : ExclOkExc E st) (hv : k ∉ E → ExclOkN v) :
    ExclOkExc E (stUpdate st k v) := by
  intro kn hm hne
  rcases mem_stUpdate_keyed kn hm with hm' | heq
  · exact h kn hm' hne
  · rw [heq] at hne ⊢
    exact hv hne

/-- Exempting more keys weakens the override invariant. -/
theorem exclOkExc_weaken {E e : List String} {st : St}
    (hsub : ∀ x ∈ E, x ∈ e) (h : ExclOkExc E st) : ExclOkExc e st := by
  intro kn hm hne
  exact h kn hm (fun hx => hne (hsub _ hx))

/-- The override contract of the recursive call: relative to an
exemption stack, the invariant is preserved, and when the key itself is
not on the stack the whole cache satisfies the override afterwards. -/
def RecurseExcl
    (recurse : St → String → List String → Option (St × Bool × List Dep)) :
    Prop :=
  ∀ (E : List String) (st : St) (k : String) (a : List String)
    (st' : St) (b : Bool) (m : List Dep),
    recurse st k a = some (st', b, m) →
    KeysNodup st →
    ExclOkExc (k :: E) st →
    (k ∉ E → ∀ n, stLookup st k = some n → n.satisfied.isSome = true →
      ExclOkN n) →
    ExclOkExc (k :: E) st' ∧ (k ∉ E → ExclOkExc E st')

/-- Override invariant through one dependency step body. -/
theorem checkDepStepGo_excl
    {recurse : St → String → List String → Option (St × Bool × List Dep)}
    (hrecE : RecurseExcl recurse) {E : List String} {key : String}
    {anc : List String} {st st₁ : St} {dep₁ d' : Dep}
    (h : checkDepStepGo recurse key anc st dep₁ = some (st₁, d'))
    (hnd : KeysNodup st)
    (hok : ExclOkExc (key :: E) st) :
    ExclOkExc (key :: E) st₁ := by
  unfold checkDepStepGo at h
  cases hp : dep₁.core.path with
  | none =>
    simp only [hp] at h
    cases hl : stLookup st key with
    | none =>
      simp only [hl] at h
      exact Option.noConfusion h
    | some n =>
      simp only [hl] at h
      cases hm : n.missing with
      | none =>
        simp only [hm] at h
        exact Option.noConfusion h
      | some miss =>
        simp only [hm, Option.some.injEq] at h
        have hst : stUpdate st key
            (if !(dep₁.core.excluded.getD false) then
              { n with satisfied := some false,
                       missing := some (miss ++ [dep₁]) }
             else { n with missing := some (miss ++ [dep₁]) }) = st₁ :=
          congrArg Prod.fst h
        rw [← hst]
        exact exclOkExc_stUpdate hok
          (fun hne => absurd (List.mem_cons_self key E) hne)
  | some p =>
    simp only [hp] at h
    by_cases hsys : dep₁.core.system.getD false = true
    · rw [if_pos hsys] at h
      simp only [Option.some.injEq] at h
      have hst : st = st₁ := congrArg Prod.fst h
      rw [← hst]
      exact hok
    · rw [if_neg hsys] at h
      cases hc : recurse st (depCacheKey dep₁.core) anc with
      | none =>
        simp only [hc] at h
        exact Option.noConfusion h
      | some res =>
        obtain ⟨st₂, sat, miss⟩ := res
        simp only [hc] at h
        obtain ⟨hok₂', hok₂⟩ := hrecE (key :: E) st (depCacheKey dep₁.core)
          anc st₂ sat miss hc hnd
          (exclOkExc_weaken (fun x hx => List.mem_cons_of_mem _ hx) hok)
          (fun hcE n hln _ => hok (depCacheKey dep₁.core, n)
            (stLookup_mem hln) hcE)
        have hok₂r : ExclOkExc (key :: E) st₂ := by
          by_cases hcE : depCacheKey dep₁.core ∈ key :: E
          · intro kn hm hne
            refine hok₂' kn hm ?_
            intro hx
            rcases List.mem_cons.mp hx with heq | hx'
            · exact hne (heq.symm ▸ hcE)
            · exact hne hx'
          · exact hok₂ hcE
        by_cases hsat : (!sat) = true
        · rw [if_pos hsat] at h
          cases hl : stLookup st₂ key with
          | none =>
            simp only [hl] at h
            exact Option.noConfusion h
          | some n =>
            simp only [hl] at h
            cases hm : n.missing with
            | none =>
              simp only [hm] at h
              exact Option.noConfusion h
            | some ms =>
              simp only [hm, Option.some.injEq] at h
              have hst : stUpdate st₂ key
                  { n with satisfied := some false,
                           missing := some (ms ++
                             [Dep.mk dep₁.core (some miss)]) } = st₁ :=
                congrArg Prod.fst h
              rw [← hst]
              exact exclOkExc_stUpdate hok₂r
                (fun hne => absurd (List.mem_cons_self key E) hne)
        · rw [if_neg hsat] at h
          simp only [Option.some.injEq] at h
          have hst : st₂ = st₁ := congrArg Prod.fst h
          rw [← hst]
          exact hok₂r

/-- Override invariant through one dependency step. -/
theorem checkDepStep_excl {ex : List Excl}
    {recurse : St → String → List String → Option (St × Bool × List Dep)}
    (hrecE : RecurseExcl recurse) {E : List String} {key : String}
    {anc : List String} {st st₁ : St} {d d' : Dep}
    (h : checkDepStep ex recurse key anc st d = some (st₁, d'))
    (hnd : KeysNodup st) (hok : ExclOkExc (key :: E) st) :
    ExclOkExc (key :: E) st₁ := by
  unfold checkDepStep at h
  exact checkDepStepGo_excl hrecE h hnd hok

/-- Override invariant through the dependency list fold. -/
theorem checkDepsList_excl {ex : List Excl}
    {recurse : St → String → List String → Option (St × Bool × List Dep)}
    (hrecB : RecurseBasic recurse) (hrecE : RecurseExcl recurse)
    {E : List String} {key : String} {anc : List String} :
    ∀ {ds : List Dep} {st st₂ : St} {ds' : List Dep},
      checkDepsList ex recurse key anc st ds = some (st₂, ds') →
      KeysNodup st → ExclOkExc (key :: E) st → ExclOkExc (key :: E) st₂ := by
  intro ds
  induction ds with
  | nil =>
    intro st st₂ ds' h hnd hok
    simp only [checkDepsList, Option.some.injEq] at h
    have hst : st = st₂ := congrArg Prod.fst h
    rw [← hst]
    exact hok
  | cons d ds ih =>
    intro st st₂ ds' h hnd hok
    cases hstep : checkDepStep ex recurse key anc st d with
    | none =>
      simp only [checkDepsList, hstep] at h
      exact Option.noConfusion h
    | some res₁ =>
      obtain ⟨st₁, d₁⟩ := res₁
      simp only [checkDepsList, hstep] at h
      cases hrest : checkDepsList ex recurse key anc st₁ ds with
      | none =>
        simp only [hrest] at h
        exact Option.noConfusion h
      | some res₂ =>
        obtain ⟨st₂', ds₂⟩ := res₂
        simp only [hrest, Option.some.injEq] at h
        have hst : st₂' = st₂ := congrArg Prod.fst h
        have hnd₁ : KeysNodup st₁ := by
          obtain ⟨hev₁, _, _, _⟩ := checkDepStep_basic hrecB hstep hnd
          unfold KeysNodup
          rw [keys_evolveAt hev₁]
          exact hnd
        rw [← hst]
        exact ih hrest hnd₁ (checkDepStep_excl hrecE hstep hnd hok)

/-- Override invariant through the arch slice fold. -/
theorem checkSlices_excl {ex : List Excl}
    {recurse : St → String → List String → Option (St × Bool × List Dep)}
    (hrecB : RecurseBasic recurse) (hrecE : RecurseExcl recurse)
    {E : List String} {key : String} {anc : List String} :
    ∀ {ss : List ArchSlice} {st st₂ : St} {ss' : List ArchSlice},
      checkSlices ex recurse key anc st ss = some (st₂, ss') →
      KeysNodup st → ExclOkExc (key :: E) st → ExclOkExc (key :: E) st₂ := by
  intro ss
  induction ss with
  | nil =>
    intro st st₂ ss' h hnd hok
    simp only [checkSlices, Option.some.injEq] at h
    have hst : st = st₂ := congrArg Prod.fst h
    rw [← hst]
    exact hok
  | cons s ss ih =>
    intro st st₂ ss' h hnd hok
    cases hstep : checkDepsList ex recurse key anc st s.dependencies with
    | none =>
      simp only [checkSlices, hstep] at h
      exact Option.noConfusion h
    | some res₁ =>
      obtain ⟨st₁, ds₁⟩ := res₁
      simp only [checkSlices, hstep] at h
      cases hrest : checkSlices ex recurse key anc st₁ ss with
      | none =>
        simp only [hrest] at h
        exact Option.noConfusion h
      | some res₂ =>
        obtain ⟨st₂', ss₂⟩ := res₂
        simp only [hrest, Option.some.injEq] at h
        have hst : st₂' = st₂ := congrArg Prod.fst h
        have hnd₁ : KeysNodup st₁ := by
          obtain ⟨hev₁, _, _, _⟩ := checkDepsList_basic hrecB hstep hnd
          unfold KeysNodup
          rw [keys_evolveAt hev₁]
          exact hnd
        rw [← hst]
        exact ih hrest hnd₁ (checkDepsList_excl hrecB hrecE hstep hnd hok)

/-- Updating a node never changes the key sequence. -/
theorem keys_stUpdate (st : St) (k : String) (v : Node) :
    (stUpdate st k v).map Prod.fst = st.map Prod.fst := by
  induction st with
  | nil => rfl
  | cons kn rest ih =>
    by_cases hek : kn.1 = k
    · rw [stUpdate, if_pos hek]
      rfl
    · rw [stUpdate, if_neg hek]
      simp only [List.map_cons, ih]

/-- The override contract holds for _checkNode at every fuel, cyclic
caches included. -/
theorem checkNode_excl (ex : List Excl) :
    ∀ fuel, RecurseExcl (checkNode ex fuel) := by
  intro fuel
  induction fuel with
  | zero =>
    intro E st k a st' b m h
    exact Option.noConfusion h
  | succ fuel ih =>
    intro E st key anc st' b m h hnd hok hmemo
    unfold checkNode at h
    cases hl : stLookup st key with
    | none =>
      simp only [hl] at h
      exact Option.noConfusion h
    | some n =>
      simp only [hl] at h
      cases hsat : n.satisfied with
      | some b₀ =>
        simp only [hsat] at h
        cases hm : n.missing with
        | none =>
          simp only [hm] at h
          exact Option.noConfusion h
        | some m₀ =>
          simp only [hm, Option.some.injEq] at h
          have hst : st = st' := congrArg Prod.fst h
          subst hst
          refine ⟨hok, ?_⟩
          intro hkE kn hmem hne
          by_cases hkk : kn.1 = key
          · have hlkk := mem_stLookup hnd kn hmem
            rw [hkk, hl] at hlkk
            have heq : n = kn.2 := Option.some.inj hlkk
            exact heq ▸ (hmemo hkE n hl (by rw [hsat]; rfl))
          · exact hok kn hmem (fun hx => (List.mem_cons.mp hx).elim hkk hne)
      | none =>
        simp only [hsat] at h
        by_cases hpar : n.parsed.getD false = true
        · rw [if_pos hpar] at h
          cases harch : n.arch with
          | none =>
            simp only [harch] at h
            exact Option.noConfusion h
          | some slices =>
            simp only [harch] at h
            set n₂ : Node :=
              { n with arch := some slices,
                       excluded := some (isExcluded n.path ex anc).1,
                       pattern := some (isExcluded n.path ex anc).2.1,
                       exclusionId := some (isExcluded n.path ex anc).2.2,
                       satisfied := some true, missing := some [] } with hn₂
            cases hsl : checkSlices ex (checkNode ex fuel) key
                (anc ++ [n.path]) (stUpdate st key n₂) slices with
            | none =>
              rw [hsl] at h
              exact Option.noConfusion h
            | some res₂ =>
              obtain ⟨st₂, slices'⟩ := res₂
              rw [hsl] at h
              have hok₀ : ExclOkExc (key :: E) (stUpdate st key n₂) :=
                exclOkExc_stUpdate hok (fun _ _ => rfl)
              have hnd₀ : KeysNodup (stUpdate st key n₂) := by
                unfold KeysNodup
                rw [keys_stUpdate]
                exact hnd
              have hok₂ := checkSlices_excl (checkNode_basic ex fuel) ih hsl
                hnd₀ hok₀
              have hnd₂ : KeysNodup st₂ := by
                obtain ⟨hev₂, _, _, _⟩ :=
                  checkSlices_basic (checkNode_basic ex fuel) hsl hnd₀
                unfold KeysNodup
                rw [keys_evolveAt hev₂]
                exact hnd₀
              cases hnf₀ : stLookup st₂ key with
              | none =>
                unfold checkNodeTail at h
                simp only [hnf₀] at h
                exact Option.noConfusion h
              | some nf =>
                obtain ⟨hmF, hcases⟩ := checkNodeTail_cases h hnf₀
                rcases hcases with ⟨hExcEq, _, hstEq⟩ | ⟨hExcNe, _, hstEq⟩
                · subst hstEq
                  have hokN : ExclOkN ({ nf with
                      arch := some slices',
                      satisfied := some true, missing := some m } : Node) :=
                    fun _ => rfl
                  have hnd' : KeysNodup (stUpdate st₂ key
                      { nf with
                          arch := some slices', satisfied := some true,
                          missing := some m }) := by
                    unfold KeysNodup
                    rw [keys_stUpdate]
                    exact hnd₂
                  refine ⟨exclOkExc_stUpdate hok₂ (fun _ => hokN), ?_⟩
                  intro hkE kn hmem hne
                  have hlkk := mem_stLookup hnd' kn hmem
                  by_cases hkk : kn.1 = key
                  · rw [hkk, stLookup_stUpdate_self hnf₀] at hlkk
                    exact (Option.some.inj hlkk) ▸ hokN
                  · rw [stLookup_stUpdate_ne _ hkk] at hlkk
                    exact hok₂ (kn.1, kn.2) (stLookup_mem hlkk)
                      (fun hx => (List.mem_cons.mp hx).elim hkk hne)
                · subst hstEq
                  have hokN : ExclOkN ({ nf with
                      arch := some slices',
                      missing := some m } : Node) :=
                    fun hx => absurd hx hExcNe
                  have hnd' : KeysNodup (stUpdate st₂ key
                      { nf with
                          arch := some slices', missing := some m }) := by
                    unfold KeysNodup
                    rw [keys_stUpdate]
                    exact hnd₂
                  refine ⟨exclOkExc_stUpdate hok₂ (fun _ => hokN), ?_⟩
                  intro hkE kn hmem hne
                  have hlkk := mem_stLookup hnd' kn hmem
                  by_cases hkk : kn.1 = key
                  · rw [hkk, stLookup_stUpdate_self hnf₀] at hlkk
                    exact (Option.some.inj hlkk) ▸ hokN
                  · rw [stLookup_stUpdate_ne _ hkk] at hlkk
                    exact hok₂ (kn.1, kn.2) (stLookup_mem hlkk)
                      (fun hx => (List.mem_cons.mp hx).elim hkk hne)
        · rw [if_neg hpar] at h
          simp only [Option.some.injEq] at h
          have hst : stUpdate st key
              { n with excluded := some (isExcluded n.path ex anc).1,
                       pattern := some (isExcluded n.path ex anc).2.1,
                       exclusionId := some (isExcluded n.path ex anc).2.2,
                       satisfied := some (isExcluded n.path ex anc).1,
                       missing := some [] } = st' := congrArg Prod.fst h
          have hokN : ExclOkN ({ n with
              excluded := some (isExcluded n.path ex anc).1,
              pattern := some (isExcluded n.path ex anc).2.1,
              exclusionId := some (isExcluded n.path ex anc).2.2,
              satisfied := some (isExcluded n.path ex anc).1,
              missing := some [] } : Node) := by
            intro hx
            have hxe : (isExcluded n.path ex anc).1 = true := Option.some.inj hx
            show some (isExcluded n.path ex anc).1 = some true
            rw [hxe]
          refine ⟨?_, ?_⟩
          · rw [← hst]
            exact exclOkExc_stUpdate hok (fun _ => hokN)
          · intro hkE kn hmem hne
            rw [← hst] at hmem
            have hnd' : KeysNodup (stUpdate st key
                { n with excluded := some (isExcluded n.path ex anc).1,
                         pattern := some (isExcluded n.path ex anc).2.1,
                         exclusionId := some (isExcluded n.path ex anc).2.2,
                         satisfied := some (isExcluded n.path ex anc).1,
                         missing := some [] }) := by
              unfold KeysNodup
              rw [keys_stUpdate]
              exact hnd
            have hlkk := mem_stLookup hnd' kn hmem
            by_cases hkk : kn.1 = key
            · rw [hkk, stLookup_stUpdate_self hl] at hlkk
              exact (Option.some.inj hlkk) ▸ hokN
            · rw [stLookup_stUpdate_ne _ hkk] at hlkk
              exact hok (kn.1, kn.2) (stLookup_mem hlkk)
                (fun hx => (List.mem_cons.mp hx).elim hkk hne)

/-- The override invariant across _updateMissing's key iteration. -/
theorem updateMissingGo_excl (ex : List Excl) (fuel : Nat) :
    ∀ (ks : List String) (st st' : St),
      updateMissingGo ex fuel ks st = some st' →
      KeysNodup st → ExclOkExc [] st → ExclOkExc [] st' := by
  intro ks
  induction ks with
  | nil =>
    intro st st' h hnd hok
    have hst : st = st' := Option.some.inj h
    rw [← hst]
    exact hok
  | cons k ks ih =>
    intro st st' h hnd hok
    unfold updateMissingGo at h
    cases hlk : stLookup st k with
    | none =>
      simp only [hlk] at h
      exact Option.noConfusion h
    | some n₀ =>
      simp only [hlk] at h
      by_cases hroot : n₀.root = true
      · rw [if_pos hroot] at h
        cases hcn : checkNode ex fuel st k [] with
        | none =>
          simp only [hcn] at h
          exact Option.noConfusion h
        | some res =>
          obtain ⟨st₁, b₁, m₁⟩ := res
          simp only [hcn] at h
          obtain ⟨_, hok₁⟩ := checkNode_excl ex fuel [] st k [] st₁ b₁ m₁ hcn
            hnd (exclOkExc_weaken (fun x hx => List.mem_cons_of_mem _ hx) hok)
            (fun _ n hln _ => hok (k, n) (stLookup_mem hln)
              (List.not_mem_nil k))
          have hnd₁ : KeysNodup st₁ := by
            obtain ⟨hev₁, _, _, _⟩ :=
              checkNode_basic ex fuel st k [] st₁ b₁ m₁ hcn hnd
            unfold KeysNodup
            rw [keys_evolveAt (stEvolve_at k hev₁)]
            exact hnd
          exact ih st₁ st' h hnd₁ (hok₁ (List.not_mem_nil k))
      · rw [if_neg hroot] at h
        exact ih st st' h hnd hok

/-- The override across the whole satisfiability pass: in the final
cache every excluded node is satisfied, cyclic graphs included. -/
theorem updateMissing_excl (ex : List Excl) (fuel : Nat) (st st' : St)
    (h : updateMissing ex fuel st = some st') (hnd : KeysNodup st)
    (hok : ExclOkExc [] st) : ExclOkExc [] st' := by
  unfold updateMissing at h
  exact updateMissingGo_excl ex fuel (st.map Prod.fst) st st' h hnd hok

/-! ## Theorems: final satisfied values (C2, C3, C9) -/

/-- Claim C2 (amended): after the pass on a fresh, well-formed cache
with a rank certificate of acyclicity, a computed node's satisfied is
true iff the node is excluded, or it is parsed and every dependency
descriptor passes: an unresolved descriptor passes iff it matched an
exclusion, a resolved system descriptor always passes, and a resolved
non-system descriptor passes iff its cached child node is satisfied.
Against the claim's words: the node's own exclusion is a disjunct
overriding everything, not a conjunct; exclusion of a resolved
descriptor does not exempt it; and an unparsed non-excluded node is
unsatisfied even with no descriptors. -/
theorem c2_satisfied_characterization (ex : List Excl) (rank : String → Nat)
    (fuel : Nat) (st st' : St) (h : updateMissing ex fuel st = some st')
    (hinv : MainInv rank st) (hfresh : FreshSt st) :
    ∀ k n, stLookup st' k = some n → n.satisfied.isSome = true →
      (n.satisfied = some true ↔
        n.excluded = some true ∨
          (n.parsed.getD false = true ∧
            (nodeDeps n).all (depPassB st') = true)) := by
  obtain ⟨hinv', hga', _, _⟩ :=
    updateMissing_main ex rank fuel st st' h hinv (goodAll_of_fresh hfresh)
  intro k n hln hs
  have hg : GoodNode st' n := hga' (k, n) (stLookup_mem hln) hs
  obtain ⟨hexc, hparC, hnparC⟩ := hg
  obtain ⟨e, he⟩ := Option.isSome_iff_exists.mp hexc
  cases hpar : n.parsed.getD false with
  | true =>
    obtain ⟨_, hsatEq, _⟩ := hparC hpar
    rw [hsatEq, he]
    cases e <;> cases hA : (nodeDeps n).all (depPassB st') <;> simp
  | false =>
    obtain ⟨hsatEq, _⟩ := hnparC hpar
    rw [hsatEq, he]
    cases e <;> simp

/-- Bool rendering of claim C2's right-hand side following the claim's
words: the node is parsed or excluded, and every non-system,
non-excluded dependency descriptor resolves to a satisfied node or
itself matched an exclusion. -/
def c2ClaimRhsB (st : St) (n : Node) : Bool :=
  (n.parsed.getD false || n.excluded.getD false) &&
    (nodeDeps n).all (fun d =>
      if d.core.system.getD false || d.core.excluded.getD false then true
      else
        match d.core.path with
        | some _ =>
          (match stLookup st (depCacheKey d.core) with
           | some c => c.satisfied.getD false
           | none => false)
        | none => false)

/-- Exclusion list of the C2 test cache: the root itself is excluded. -/
def exC2 : List Excl := [{ printed := "re:/k", test := fun s => decide (s = "/k") }]

/-- Root of the C2 test cache: parsed, excluded by pattern, with one
unresolved non-excluded dependency. -/
def nodeC2 : Node :=
  { path := "/k", root := true, parsed := some true,
    arch := some [{ name := "arm64",
                    dependencies := [Dep.mk { name := "libmiss" } none] }] }

/-- The C2 test cache. -/
def stC2 : St := [("/k", nodeC2)]

/-- The C2 test cache after the pass. -/
def stC2' : St := (updateMissing exC2 2 stC2).getD []

/-- A rank certificate for the (edge-free) C2 test cache. -/
def rankC2 : String → Nat := fun _ => 0

/-- Claim C2 counterexample: the pass succeeds on the concrete cache
and leaves the excluded root with satisfied true, while the claim's
right-hand side is false for it: the node's unresolved non-excluded
descriptor neither resolves to a satisfied node nor matched an
exclusion, so the claimed iff fails. -/
theorem c2_counterexample :
    (updateMissing exC2 2 stC2).isSome = true ∧
    ((stLookup stC2' "/k").map Node.satisfied).getD none = some true ∧
    ((stLookup stC2' "/k").map (c2ClaimRhsB stC2')).getD true = false := by
  decide

/-- Witness: the characterization instantiated on the concrete cache. -/
theorem c2_satisfied_characterization_witness :
    ((stLookup stC2' "/k").getD nodeC2).satisfied = some true ↔
      ((stLookup stC2' "/k").getD nodeC2).excluded = some true ∨
        (((stLookup stC2' "/k").getD nodeC2).parsed.getD false = true ∧
          (nodeDeps ((stLookup stC2' "/k").getD nodeC2)).all
            (depPassB stC2') = true) := by
  have h : updateMissing exC2 2 stC2 = some stC2' := rfl
  have hdp : DepsParsedWF stC2 := by
    intro kn hm hne
    rcases List.mem_cons.mp hm with heq | hx
    · rw [heq]
      rfl
    · simp at hx
  exact c2_satisfied_characterization exC2 rankC2 2 stC2 stC2' h
    ⟨by unfold ClosedSt; decide, by unfold SetWF; decide,
     by unfold ExclWF; decide, by unfold ArchWF; decide, hdp,
     by unfold KeysNodup; decide, by unfold RankOK; decide⟩
    (by unfold FreshSt; decide)
    "/k" ((stLookup stC2' "/k").getD nodeC2) rfl rfl

/-- Claim C9: a node the pass computed with excluded true ends with
satisfied true regardless of its children -- unconditionally, cyclic
dependency graphs included -- while its missing list is still populated
for diagnostics: under a rank certificate of acyclicity it holds
exactly the failing descriptors, every unresolved one and every
resolved non-system one whose child node is unsatisfied. -/
theorem c9_excluded_override (ex : List Excl) (fuel : Nat) (st st' : St)
    (h : updateMissing ex fuel st = some st') (hnd : KeysNodup st)
    (hfresh : FreshSt st) :
    (∀ kn ∈ st', kn.2.excluded = some true → kn.2.satisfied = some true) ∧
    (∀ rank, MainInv rank st →
      ∀ k n, stLookup st' k = some n → n.satisfied.isSome = true →
        n.missing = some ((nodeDeps n).filter (depMissB st'))) := by
  constructor
  · intro kn hm hx
    have hok : ExclOkExc [] st := by
      intro kn₀ hm₀ _ hx₀
      rw [(hfresh kn₀ hm₀).2] at hx₀
      exact Option.noConfusion hx₀
    exact updateMissing_excl ex fuel st st' h hnd hok kn hm
      (List.not_mem_nil _) hx
  · intro rank hinv k n hln hs
    obtain ⟨hinv', hga', _, _⟩ :=
      updateMissing_main ex rank fuel st st' h hinv (goodAll_of_fresh hfresh)
    have hg : GoodNode st' n := hga' (k, n) (stLookup_mem hln) hs
    obtain ⟨_, hparC, hnparC⟩ := hg
    cases hpar : n.parsed.getD false with
    | true => exact (hparC hpar).2.2
    | false =>
      obtain ⟨_, hmiss⟩ := hnparC hpar
      rw [hmiss]
      have hnil : nodeDeps n = [] := by
        by_cases hne : nodeDeps n = []
        · exact hne
        · have hx := hinv'.2.2.2.2.1 (k, n) (stLookup_mem hln) hne
          rw [hpar] at hx
          exact Bool.noConfusion hx
      rw [hnil]
      rfl

/-- Exclusion list of the C9 test cache: the root is excluded. -/
def exC9 : List Excl := [{ printed := "re:/e", test := fun s => decide (s = "/e") }]

/-- Root of the C9 test cache: parsed, excluded by pattern, with one
unresolved dependency that should land in missing. -/
def nodeC9 : Node :=
  { path := "/e", root := true, parsed := some true,
    arch := some [{ name := "arm64",
                    dependencies := [Dep.mk { name := "libgone" } none] }] }

/-- The C9 test cache. -/
def stC9 : St := [("/e", nodeC9)]

/-- The C9 test cache after the pass. -/
def stC9' : St := (updateMissing exC9 2 stC9).getD []

/-- A rank certificate for the (edge-free) C9 test cache. -/
def rankC9 : String → Nat := fun _ => 0

/-- Witness: the override and the missing population on the concrete
cache -- the excluded root ends satisfied with its unresolved
descriptor collected in missing. -/
theorem c9_excluded_override_witness :
    ((stLookup stC9' "/e").getD nodeC9).excluded = some true ∧
    ((stLookup stC9' "/e").getD nodeC9).satisfied = some true ∧
    ((stLookup stC9' "/e").getD nodeC9).missing =
      some ((nodeDeps ((stLookup stC9' "/e").getD nodeC9)).filter
        (depMissB stC9')) := by
  have h : updateMissing exC9 2 stC9 = some stC9' := rfl
  have hdp : DepsParsedWF stC9 := by
    intro kn hm hne
    rcases List.mem_cons.mp hm with heq | hx
    · rw [heq]
      rfl
    · simp at hx
  obtain ⟨h1, h2⟩ := c9_excluded_override exC9 2 stC9 stC9' h
    (by unfold KeysNodup; decide) (by unfold FreshSt; decide)
  refine ⟨by decide, ?_, ?_⟩
  · exact h1 ("/e", (stLookup stC9' "/e").getD nodeC9) (stLookup_mem rfl)
      (by decide)
  · exact h2 rankC9
      ⟨by unfold ClosedSt; decide, by unfold SetWF; decide,
       by unfold ExclWF; decide, by unfold ArchWF; decide, hdp,
       by unfold KeysNodup; decide, by unfold RankOK; decide⟩
      "/e" ((stLookup stC9' "/e").getD nodeC9) rfl rfl

/-- Split a conjunction of Bools. -/
theorem band_true_split {a b : Bool} (h : (a && b) = true) :
    a = true ∧ b = true := by
  cases a
  · exact Bool.noConfusion h
  · exact ⟨rfl, h⟩

/-- Placeholder node for total lookups. -/
def nodeNull : Node := { path := "" }

/-- A resolved non-system dependency edge from the node stored at k to
the cache key k₁, read off the final cache. -/
def DepEdgeB (st : St) (k k₁ : String) : Bool :=
  (stLookup st k).isSome &&
    (nodeDeps ((stLookup st k).getD nodeNull)).any
      (fun d => depIsEdge d && decide (depCacheKey d.core = k₁))

/-- A dependency chain through the cache along resolved non-system
edges. -/
def chainB (st : St) : String → List String → Bool
  | _, [] => true
  | k, k₁ :: ks => DepEdgeB st k k₁ && chainB st k₁ ks

/-- Claim C3 (amended): after the pass on a fresh, well-formed cache
with a rank certificate of acyclicity, take a dependency chain in the
final cache from a root node down to a node one of whose descriptors
fails, with NO node on the chain excluded: then every node on the
chain, the root included, ends with satisfied false.  Against the
claim's words, the no-excluded-node proviso is necessary: an excluded
ancestor is forced to satisfied true and stops the propagation. -/
theorem c3_missing_propagates (ex : List Excl) (rank : String → Nat)
    (fuel : Nat) (st st' : St) (h : updateMissing ex fuel st = some st')
    (hinv : MainInv rank st) (hfresh : FreshSt st)
    (k₀ : String) (ks : List String)
    (hroot : (stLookup st k₀).isSome = true ∧
      ((stLookup st k₀).getD nodeNull).root = true)
    (hchain : chainB st' k₀ ks = true)
    (hnoexc : ∀ k ∈ k₀ :: ks,
      ((stLookup st' k).getD nodeNull).excluded ≠ some true)
    (hbad : (nodeDeps ((stLookup st'
        ((k₀ :: ks).getLast (List.cons_ne_nil k₀ ks))).getD nodeNull)).all
      (depPassB st') = false) :
    ∀ k ∈ k₀ :: ks, (stLookup st' k).isSome = true ∧
      ((stLookup st' k).getD nodeNull).satisfied = some false := by
  obtain ⟨hinv', hga', _, hroots⟩ :=
    updateMissing_main ex rank fuel st st' h hinv (goodAll_of_fresh hfresh)
  obtain ⟨n₀, hl₀⟩ := Option.isSome_iff_exists.mp hroot.1
  have hr₀ : n₀.root = true := by
    have hx := hroot.2
    rw [hl₀] at hx
    exact hx
  obtain ⟨n₀', hl₀', hs₀'⟩ := hroots (k₀, n₀) (stLookup_mem hl₀) hr₀
  have satFalse : ∀ (k : String) (n : Node), stLookup st' k = some n →
      n.satisfied.isSome = true →
      ((stLookup st' k).getD nodeNull).excluded ≠ some true →
      (nodeDeps n).all (depPassB st') = false →
      n.satisfied = some false := by
    intro k n hln hs hnx hallF
    have hg : GoodNode st' n := hga' (k, n) (stLookup_mem hln) hs
    obtain ⟨hexc, hparC, hnparC⟩ := hg
    obtain ⟨e, he⟩ := Option.isSome_iff_exists.mp hexc
    rw [hln] at hnx
    have hnx' : n.excluded ≠ some true := hnx
    have heF : e = false := by
      cases e with
      | false => rfl
      | true =>
        exfalso
        exact hnx' (by rw [he])
    cases hpar : n.parsed.getD false with
    | true =>
      obtain ⟨_, hsatEq, _⟩ := hparC hpar
      rw [hsatEq, he, heF, hallF]
      rfl
    | false =>
      obtain ⟨hsatEq, _⟩ := hnparC hpar
      rw [hsatEq, he, heF]
      rfl
  have main : ∀ (ks₁ : List String) (k : String) (n : Node),
      stLookup st' k = some n → n.satisfied.isSome = true →
      chainB st' k ks₁ = true →
      (∀ x ∈ k :: ks₁, ((stLookup st' x).getD nodeNull).excluded ≠ some true) →
      (nodeDeps ((stLookup st'
          ((k :: ks₁).getLast (List.cons_ne_nil k ks₁))).getD nodeNull)).all
        (depPassB st') = false →
      ∀ x ∈ k :: ks₁, (stLookup st' x).isSome = true ∧
        ((stLookup st' x).getD nodeNull).satisfied = some false := by
    intro ks₁
    induction ks₁ with
    | nil =>
      intro k n hln hs hch hnx hbadL x hx
      have hxk : x = k := by
        rcases List.mem_cons.mp hx with h' | h'
        · exact h'
        · simp at h'
      subst hxk
      have hgl : ((x :: ([] : List String)).getLast
          (List.cons_ne_nil x [])) = x := rfl
      rw [hgl, hln] at hbadL
      have hallF : (nodeDeps n).all (depPassB st') = false := hbadL
      have hsf := satFalse x n hln hs (hnx x (List.mem_cons_self x [])) hallF
      refine ⟨by rw [hln]; rfl, ?_⟩
      rw [hln]
      exact hsf
    | cons k₁ ks₂ ih =>
      intro k n hln hs hch hnx hbadL x hx
      have hch' : DepEdgeB st' k k₁ = true ∧ chainB st' k₁ ks₂ = true := by
        simp only [chainB] at hch
        exact band_true_split hch
      have hdep : (nodeDeps n).any
          (fun d => depIsEdge d && decide (depCacheKey d.core = k₁)) = true := by
        have hD := hch'.1
        unfold DepEdgeB at hD
        rw [hln] at hD
        have hD' : (true && (nodeDeps n).any
            (fun d => depIsEdge d && decide (depCacheKey d.core = k₁)))
              = true := hD
        rw [Bool.true_and] at hD'
        exact hD'
      obtain ⟨d, hd, hdp⟩ := List.any_eq_true.mp hdep
      obtain ⟨hedge, hkey⟩ := band_true_split hdp
      have hkeq : depCacheKey d.core = k₁ := of_decide_eq_true hkey
      have hg : GoodNode st' n := hga' (k, n) (stLookup_mem hln) hs
      have hparT : n.parsed.getD false = true := by
        refine hinv'.2.2.2.2.1 (k, n) (stLookup_mem hln) ?_
        intro hnil
        rw [hnil] at hd
        simp at hd
      obtain ⟨hch'', hsatEq, _⟩ := hg.2.1 hparT
      obtain ⟨c, hc1, hc2, _⟩ := hch'' d hd hedge
      have hc1' : stLookup st' k₁ = some c := by
        rw [← hkeq]
        exact hc1
      have hgl : ((k :: k₁ :: ks₂).getLast (List.cons_ne_nil k (k₁ :: ks₂)))
          = ((k₁ :: ks₂).getLast (List.cons_ne_nil k₁ ks₂)) :=
        List.getLast_cons (List.cons_ne_nil k₁ ks₂)
      have hIH := ih k₁ c hc1' hc2 hch'.2
        (fun x₁ hx₁ => hnx x₁ (List.mem_cons_of_mem _ hx₁))
        (by rw [← hgl]; exact hbadL)
      rcases List.mem_cons.mp hx with hxk | hx'
      · subst hxk
        obtain ⟨_, hk₁F⟩ := hIH k₁ (List.mem_cons_self k₁ ks₂)
        rw [hc1'] at hk₁F
        have hcF : c.satisfied = some false := hk₁F
        have hedge' : (d.core.path.isSome && !(d.core.system.getD false))
            = true := hedge
        obtain ⟨hps, hsysb⟩ := band_true_split hedge'
        obtain ⟨p, hp⟩ := Option.isSome_iff_exists.mp hps
        have hsys' : d.core.system.getD false = false := by
          cases hsv : d.core.system.getD false with
          | false => rfl
          | true =>
            rw [hsv] at hsysb
            exact Bool.noConfusion hsysb
        have hdF : depPassB st' d = false := by
          simp only [depPassB, hp, hsys', hkeq, hc1', hcF, Option.getD_some,
            Bool.false_or]
        have hallF : (nodeDeps n).all (depPassB st') = false := by
          cases hA : (nodeDeps n).all (depPassB st') with
          | false => rfl
          | true =>
            have hv := List.all_eq_true.mp hA d hd
            rw [hdF] at hv
            exact Bool.noConfusion hv
        have hsf := satFalse x n hln hs (hnx x (List.mem_cons_self _ _)) hallF
        refine ⟨by rw [hln]; rfl, ?_⟩
        rw [hln]
        exact hsf
      · exact hIH x hx'
  intro k hk
  exact main ks k₀ n₀' hl₀' hs₀' hchain hnoexc hbad k hk

/-- Exclusion list of the C3 counterexample cache: the intermediate
node /e, as visited from the root, is excluded. -/
def exC3 : List Excl :=
  [{ printed := "re:e", test := fun s => decide (s = "/r : /e") }]

/-- Resolved non-system dependency of the C3 root onto /e. -/
def depC3e : Dep :=
  Dep.mk { name := "/e", path := some "/e", system := some false } none

/-- Root of the C3 counterexample cache. -/
def nodeC3r : Node :=
  { path := "/r", root := true, parsed := some true,
    arch := some [{ name := "arm64", dependencies := [depC3e] }] }

/-- Intermediate node of the C3 counterexample cache, with an
unresolved non-excluded dependency. -/
def nodeC3e : Node :=
  { path := "/e", parsed := some true,
    arch := some [{ name := "arm64",
                    dependencies := [Dep.mk { name := "liblost" } none] }] }

/-- The C3 counterexample cache. -/
def stC3 : St := [("/r", nodeC3r), ("/e", nodeC3e)]

/-- The C3 counterexample cache after the pass. -/
def stC3' : St := (updateMissing exC3 3 stC3).getD []

/-- Claim C3 counterexample: the pass succeeds, the root heads a
dependency chain to /e whose descriptor is unresolved, non-system and
non-excluded -- the claim's premises -- yet the root ends with
satisfied true, because the intermediate node matched an exclusion and
the override stops the propagation. -/
theorem c3_counterexample :
    (updateMissing exC3 3 stC3).isSome = true ∧
    ((stLookup stC3 "/r").getD nodeNull).root = true ∧
    chainB stC3' "/r" ["/e"] = true ∧
    (nodeDeps ((stLookup stC3' "/e").getD nodeNull)).any
      (fun d => d.core.path.isNone && !(d.core.system.getD false) &&
        !(d.core.excluded.getD false)) = true ∧
    (nodeDeps ((stLookup stC3' "/e").getD nodeNull)).all
      (depPassB stC3') = false ∧
    ((stLookup stC3' "/e").getD nodeNull).excluded = some true ∧
    ((stLookup stC3' "/r").getD nodeNull).satisfied = some true := by
  decide

/-- Resolved non-system dependency of the C3 witness root onto /x. -/
def depC3x : Dep :=
  Dep.mk { name := "/x", path := some "/x", system := some false } none

/-- Root of the C3 witness cache. -/
def nodeC3wr : Node :=
  { path := "/r", root := true, parsed := some true,
    arch := some [{ name := "arm64", dependencies := [depC3x] }] }

/-- Leaf of the C3 witness cache, with an unresolved dependency. -/
def nodeC3wx : Node :=
  { path := "/x", parsed := some true,
    arch := some [{ name := "arm64",
                    dependencies := [Dep.mk { name := "libnone" } none] }] }

/-- The C3 witness cache. -/
def stC3w : St := [("/r", nodeC3wr), ("/x", nodeC3wx)]

/-- The C3 witness cache after the pass. -/
def stC3w' : St := (updateMissing [] 3 stC3w).getD []

/-- A rank certificate for the C3 witness cache. -/
def rankC3w : String → Nat := fun k => if k = "/r" then 1 else 0

/-- Witness: on the exclusion-free two-node chain the propagation
reaches the root -- both nodes end with satisfied false. -/
theorem c3_missing_propagates_witness :
    ((stLookup stC3w' "/r").getD nodeNull).satisfied = some false ∧
    ((stLookup stC3w' "/x").getD nodeNull).satisfied = some false := by
  have h : updateMissing ([] : List Excl) 3 stC3w = some stC3w' := rfl
  have hdp : DepsParsedWF stC3w := by
    intro kn hm hne
    rcases List.mem_cons.mp hm with heq | hm₁
    · rw [heq]
      rfl
    · rcases List.mem_cons.mp hm₁ with heq | hx
      · rw [heq]
        rfl
      · simp at hx
  have happ := c3_missing_propagates [] rankC3w 3 stC3w stC3w' h
    ⟨by unfold ClosedSt; decide, by unfold SetWF; decide,
     by unfold ExclWF; decide, by unfold ArchWF; decide, hdp,
     by unfold KeysNodup; decide, by unfold RankOK; decide⟩
    (by unfold FreshSt; decide)
    "/r" ["/x"] (by decide) (by decide) (by decide) (by decide)
  exact ⟨(happ "/r" (by simp)).2, (happ "/x" (by simp)).2⟩

end MachoReport
